import Mathlib

/-! Structura: the chained hash table (`include/hash-table.hpp`) and the singly linked list
(`include/linked-list.hpp`).

A shallow embedding of `structura::HashTable<T, P, HashFn>`, of the part of
`structura::Array<T>` that `Keys()` uses, and of `structura::SinglyList<T>`.

* A bucket chain (`HashNode* ` linked through `next`) is the list of its nodes, head first.
* `data_map` is the list of the `current_size_` chains.
* The `int` counters are natural numbers; the model is the code as long as they stay below
  `2 ^ 31` (the counters never go negative in a state built by the public operations).
* `HashFn` is a function `T → Nat` (the result type of `std::hash` is `size_t`), and
  `operator==` on keys is equality.
* `(float)total_entries_ / current_size_ > 0.75` is evaluated in IEEE 754 binary32 with
  round-to-nearest-even, as the cast and the division are in the source.
* The nodes of a `SinglyList` live in a store indexed by address: a pointer is `none`
  (`nullptr`) or `some a`, `new` takes the next unused address, `delete` empties the cell.
  Reading, writing or deleting through `nullptr` or a deleted node is the fault `undefined`;
  a pointer returned by `Next()` is stored in a `SinglyNode<T>*` variable as it is.
  `Head()` and `Tail()` return `const T&` bound to the temporary `Data()` returns by value:
  the model returns that reference, and reading through it is `undefined`.
-/

set_option linter.unusedSectionVars false

namespace structura

/-! ## Binary32 arithmetic of the load-factor test -/

/-- Number of binary digits of `n`, by at most `fuel` halvings. -/
def bitLengthAux : Nat → Nat → Nat
  | 0, _ => 0
  | fuel + 1, n => if n = 0 then 0 else bitLengthAux fuel (n / 2) + 1

/-- Number of binary digits of `n` (`0` for `n = 0`). -/
def bitLength (n : Nat) : Nat := bitLengthAux n n

/-- The integer nearest to `num / den`, a tie going to the even neighbour. -/
def roundNearestEven (num den : Nat) : Nat :=
  let q := num / den
  let r := num % den
  if 2 * r < den then q
  else if den < 2 * r then q + 1
  else if q % 2 = 0 then q else q + 1

/-- The cast `(float)n` of a non-negative `int`: `n` rounded to 24 significant bits. -/
def intToFloat (n : Nat) : Nat :=
  let drop := bitLength n - 24
  roundNearestEven n (2 ^ drop) * 2 ^ drop

/-- Binary32 division `a / b` of two positive floats with integral values. The result
`(sig, s)` stands for the float `sig / 2 ^ s`: `s` is chosen so that the exact quotient
scaled by `2 ^ s` lies in `[2 ^ 23, 2 ^ 24)`, and `sig` is that scaled quotient rounded. -/
def floatDiv (a b : Nat) : Nat × Int :=
  let la := bitLength a
  let lb := bitLength b
  let e : Int := (la : Int) - (lb : Int) - (if a * 2 ^ lb < b * 2 ^ la then 1 else 0)
  let s : Int := 23 - e
  (roundNearestEven (a * 2 ^ s.toNat) (b * 2 ^ (-s).toNat), s)

/-- The test `(float)total_entries_ / current_size_ > 0.75` of `Set` and `operator[]`.
With a zero divisor the quotient is `+inf` (or NaN for `0 / 0`, which compares false). -/
def loadFactorExceeded (total_entries_ current_size_ : Nat) : Bool :=
  if current_size_ = 0 then decide (total_entries_ ≠ 0)
  else
    let q := floatDiv (intToFloat total_entries_) (intToFloat current_size_)
    decide (3 * 2 ^ q.2.toNat < 4 * q.1 * 2 ^ (-q.2).toNat)

/-! ## Nodes and the table -/

/-- `HashNode<T, P>`: the `next` pointer is the tail of the chain the node sits in. -/
structure HashNode (T P : Type) where
  key : T
  value : P
deriving DecidableEq

/-- `HashTable<T, P, HashFn>`. -/
structure HashTable (T P : Type) where
  current_size_ : Nat
  total_entries_ : Nat
  data_map : List (List (HashNode T P))
deriving DecidableEq

/-! ## The growable array returned by `Keys()` (`include/array.hpp`) -/

/-- `Array<T>`: `data_` is the heap block of `capacity_` cells, `none` marking a cell that
was never assigned. A write past the end of the block (undefined behaviour in C++) leaves
the block as it is. -/
structure Array (T : Type) where
  data_ : List (Option T)
  size_ : Nat
  capacity_ : Nat
deriving DecidableEq

section ArrayOps

variable {T : Type}

/-- `Array()`: size 0, capacity 10. -/
def Array.init : Array T :=
  { data_ := List.replicate 10 none, size_ := 0, capacity_ := 10 }

/-- `Resize(capacity)`: a fresh block, the first `size_` cells copied over. -/
def Array.Resize (a : Array T) (capacity : Nat) : Array T :=
  let new_data : List (Option T) := List.replicate capacity none
  let new_data := (List.range a.size_).foldl
    (fun nd i => nd.set i (a.data_.getD i none)) new_data
  { data_ := new_data, size_ := a.size_, capacity_ := capacity }

/-- `Push(value)`. -/
def Array.Push (a : Array T) (value : T) : Array T :=
  let a1 := if a.size_ = a.capacity_ then a.Resize (a.capacity_ * 2) else a
  { data_ := a1.data_.set a1.size_ (some value), size_ := a1.size_ + 1,
    capacity_ := a1.capacity_ }

/-- `Array(int capacity)` for a capacity that is not negative: size 0, a block of
`capacity` cells. -/
def Array.withCapacity (capacity : Nat) : Array T :=
  { data_ := List.replicate capacity none, size_ := 0, capacity_ := capacity }

/-- `Shrink()`. -/
def Array.Shrink (a : Array T) : Array T :=
  if a.size_ = 0 then a.Resize 1 else a.Resize a.size_

/-- `Size()`. -/
def Array.Size (a : Array T) : Nat := a.size_

/-- `Capacity()`. -/
def Array.Capacity (a : Array T) : Nat := a.capacity_

/-- The elements at the indices `0 .. Size() - 1`, in index order. -/
def Array.toList (a : Array T) : List T :=
  (a.data_.take a.size_).reduceOption

end ArrayOps

section Table

variable {T P : Type} [DecidableEq T]

/-- `Hash(key, size)`: `hash_fn_(key) % size`. -/
def Hash (hash_fn_ : T → Nat) (key : T) (size : Nat) : Nat :=
  hash_fn_ key % size

/-- Body of the `while` loop of `Resize`: the node becomes the head of its new bucket. -/
def relink (hash_fn_ : T → Nat) (new_size : Nat) (new_data_map : List (List (HashNode T P)))
    (temp : HashNode T P) : List (List (HashNode T P)) :=
  let new_index := Hash hash_fn_ temp.key new_size
  new_data_map.set new_index (temp :: new_data_map.getD new_index [])

/-- `Resize()`. -/
def HashTable.Resize (hash_fn_ : T → Nat) (t : HashTable T P) : HashTable T P :=
  let new_size := t.current_size_ * 2
  let new_data_map : List (List (HashNode T P)) := List.replicate new_size []
  let new_data_map := (List.range t.current_size_).foldl
    (fun m i => (t.data_map.getD i []).foldl (relink hash_fn_ new_size) m) new_data_map
  { current_size_ := new_size, total_entries_ := t.total_entries_, data_map := new_data_map }

/-- `HashTable()`: seven empty buckets, no entry. -/
def HashTable.init : HashTable T P :=
  { current_size_ := 7, total_entries_ := 0, data_map := List.replicate 7 [] }

/-- The `while` loop of `Set`: the first node with an equal key gets the new value;
`none` when the loop runs off the end of the chain. -/
def setWalk (key : T) (value : P) : List (HashNode T P) → Option (List (HashNode T P))
  | [] => none
  | temp :: rest =>
    if temp.key = key then some ({ temp with value := value } :: rest)
    else (setWalk key value rest).map (temp :: ·)

/-- `Set(key, value)`. -/
def HashTable.Set (hash_fn_ : T → Nat) (t : HashTable T P) (key : T) (value : P) :
    HashTable T P :=
  let index := Hash hash_fn_ key t.current_size_
  match setWalk key value (t.data_map.getD index []) with
  | some chain => { t with data_map := t.data_map.set index chain }
  | none =>
    let node : HashNode T P := { key := key, value := value }
    let t1 : HashTable T P :=
      { current_size_ := t.current_size_
        total_entries_ := t.total_entries_ + 1
        data_map := t.data_map.set index (node :: t.data_map.getD index []) }
    if loadFactorExceeded t1.total_entries_ t1.current_size_ then t1.Resize hash_fn_ else t1

/-- The `while` loop of `Find`. -/
def findWalk (key : T) : List (HashNode T P) → Bool
  | [] => false
  | temp :: rest => if temp.key = key then true else findWalk key rest

/-- `Find(key)`. -/
def HashTable.Find (hash_fn_ : T → Nat) (t : HashTable T P) (key : T) : Bool :=
  findWalk key (t.data_map.getD (Hash hash_fn_ key t.current_size_) [])

/-- The `while` loop of `Remove`: the first node with an equal key is unlinked;
`none` when there is none. -/
def removeWalk (key : T) : List (HashNode T P) → Option (List (HashNode T P))
  | [] => none
  | temp :: rest =>
    if temp.key = key then some rest else (removeWalk key rest).map (temp :: ·)

/-- `Remove(key)`: the returned flag and the table afterwards. -/
def HashTable.Remove (hash_fn_ : T → Nat) (t : HashTable T P) (key : T) :
    Bool × HashTable T P :=
  let index := Hash hash_fn_ key t.current_size_
  match removeWalk key (t.data_map.getD index []) with
  | some chain =>
    (true, { t with data_map := t.data_map.set index chain
                    total_entries_ := t.total_entries_ - 1 })
  | none => (false, t)

/-- The `while` loop of `Get`. -/
def getWalk (key : T) : List (HashNode T P) → Option P
  | [] => none
  | temp :: rest => if temp.key = key then some temp.value else getWalk key rest

/-- `Get(key)`: the value read or the `std::runtime_error` thrown, and the table afterwards. -/
def HashTable.Get (hash_fn_ : T → Nat) (t : HashTable T P) (key : T) :
    Except String P × HashTable T P :=
  match getWalk key (t.data_map.getD (Hash hash_fn_ key t.current_size_) []) with
  | some value => (Except.ok value, t)
  | none => (Except.error "Key not found", t)

/-- `operator[](key)`: the value the returned reference refers to, and the table afterwards.
`P()` is `default`. What the caller later writes through the reference is not part of the
call. -/
def HashTable.subscript [Inhabited P] (hash_fn_ : T → Nat) (t : HashTable T P) (key : T) :
    P × HashTable T P :=
  match (t.Get hash_fn_ key).1 with
  | Except.ok value => (value, t)
  | Except.error _ =>
    let index := Hash hash_fn_ key t.current_size_
    let node : HashNode T P := { key := key, value := default }
    let t1 : HashTable T P :=
      { current_size_ := t.current_size_
        total_entries_ := t.total_entries_ + 1
        data_map := t.data_map.set index (node :: t.data_map.getD index []) }
    (node.value, if loadFactorExceeded t1.total_entries_ t1.current_size_
      then t1.Resize hash_fn_ else t1)

/-- `Keys()`: the array `all_keys` at the `return`. -/
def HashTable.Keys (t : HashTable T P) : Array T :=
  (List.range t.current_size_).foldl
    (fun all_keys i =>
      (t.data_map.getD i []).foldl (fun acc temp => acc.Push temp.key) all_keys)
    Array.init

/-! ## Sequences of public calls -/

end Table

/-- One call of the public interface that can change the table. -/
inductive Op (T P : Type) where
  | Set (key : T) (value : P)
  | Remove (key : T)
  | subscript (key : T)
deriving DecidableEq

section Table

variable {T P : Type} [DecidableEq T]

/-- The table after one call. -/
def HashTable.step [Inhabited P] (hash_fn_ : T → Nat) (t : HashTable T P) :
    Op T P → HashTable T P
  | Op.Set key value => t.Set hash_fn_ key value
  | Op.Remove key => (t.Remove hash_fn_ key).2
  | Op.subscript key => (t.subscript hash_fn_ key).2

/-- The table after a sequence of calls on a freshly constructed table. -/
def HashTable.run [Inhabited P] (hash_fn_ : T → Nat) (ops : List (Op T P)) : HashTable T P :=
  ops.foldl (HashTable.step hash_fn_) HashTable.init

/-- States that some sequence of `Set`, `Remove` and `operator[]` calls produces. -/
def Reachable [Inhabited P] (hash_fn_ : T → Nat) (t : HashTable T P) : Prop :=
  ∃ ops : List (Op T P), t = HashTable.run hash_fn_ ops

end Table

/-! ## Notions used to state and prove the properties -/

section Notions

variable {T P : Type} [DecidableEq T]

/-- The node `n` after `Set(key, value)` found it: same key, new value. -/
def overwrite (key : T) (value : P) (n : HashNode T P) : HashNode T P :=
  if n.key = key then { n with value := value } else n

/-- The test that keeps the nodes `Remove(key)` does not unlink. -/
def keyIsNot (key : T) (n : HashNode T P) : Bool := decide (n.key ≠ key)

/-- Every node of the table: bucket after bucket, each chain from its head. -/
def HashTable.nodes (t : HashTable T P) : List (HashNode T P) := t.data_map.flatten

/-- The order in which `Resize()` and `Keys()` visit the nodes: the chain of bucket 0 from
its head, then the chain of bucket 1, up to bucket `current_size_ - 1`. -/
def HashTable.traversal (t : HashTable T P) : List (HashNode T P) :=
  ((List.range t.current_size_).map (fun i => t.data_map.getD i [])).flatten

/-- Lines 94-97 of `Set` (181-185 of `operator[]`): the new node is linked in front of
bucket `index` and counted. -/
def HashTable.link (t : HashTable T P) (index : Nat) (node : HashNode T P) : HashTable T P :=
  { current_size_ := t.current_size_
    total_entries_ := t.total_entries_ + 1
    data_map := t.data_map.set index (node :: t.data_map.getD index []) }

/-- The insertion path of `Set` and `operator[]`: link, then resize if the test fires. -/
def HashTable.insertHead (hash_fn_ : T → Nat) (t : HashTable T P) (index : Nat)
    (node : HashNode T P) : HashTable T P :=
  if loadFactorExceeded (t.link index node).total_entries_ (t.link index node).current_size_
  then (t.link index node).Resize hash_fn_ else t.link index node

/-- What the public operations maintain. -/
structure WF (hash_fn_ : T → Nat) (t : HashTable T P) : Prop where
  len : t.data_map.length = t.current_size_
  pos : 0 < t.current_size_
  place : ∀ i n, n ∈ t.data_map.getD i [] → Hash hash_fn_ n.key t.current_size_ = i
  nodup : (t.nodes.map HashNode.key).Nodup
  count : t.total_entries_ = t.nodes.length

/-- The array `a` holds exactly the elements `l`: the first `size_` cells of its block are
the elements of `l`, and the block has room for them. -/
structure Array.Holds (a : Array T) (l : List T) : Prop where
  size : a.size_ = l.length
  block : a.data_.length = a.capacity_
  room : a.size_ ≤ a.capacity_
  pos : 0 < a.capacity_
  cell : ∀ j, j < a.size_ → a.data_.getD j none = l[j]?

/-- Bucket count after `n` insertions of new keys into a fresh table, no key removed:
the load-factor test of `Set` is run after each one. -/
def growth : Nat → Nat
  | 0 => 7
  | n + 1 => if loadFactorExceeded (n + 1) (growth n) then growth n * 2 else growth n

/-- The calls `Set(0, 0); Set(1, 0); ...; Set(n - 1, 0)`. -/
def distinctSets (n : Nat) : List (Op Nat Nat) :=
  (List.range n).map (fun k => Op.Set k 0)

end Notions

/-! ## The singly linked list (`include/linked-list.hpp`) -/

/-- How a call ends when it does not return: an exception the library throws, a step the
language leaves undefined (a null or deleted node is dereferenced or deleted), or a loop that
does not end. -/
inductive Fault where
  | out_of_range (what : String)
  | runtime_error (what : String)
  | undefined
  | endless
deriving DecidableEq

/-- `SinglyNode<T>`; `next_` is a pointer: `none` is `nullptr`, `some a` the node at
address `a`. -/
structure SinglyNode (T : Type) where
  data_ : T
  next_ : Option Nat
deriving DecidableEq

/-- `SinglyList<T>`, with the store of the nodes it allocated: cell `a` of `heap` is the
node at address `a`, `none` once it is deleted. `new` takes the next unused address. -/
structure SinglyList (T : Type) where
  heap : List (Option (SinglyNode T))
  head_ : Option Nat
  tail_ : Option Nat
  size_ : Nat
deriving DecidableEq

/-- What a `const T&` that a call returns refers to. `Reference.temporary held` is a
temporary object that held `held` and whose lifetime ended with the `return` statement. -/
inductive Reference (T : Type) where
  | temporary (held : T)
deriving DecidableEq

section ListOps

variable {T : Type}

/-- Reading the object behind a returned reference: undefined for a temporary, which no
longer exists when the caller has the reference. -/
def Reference.read : Reference T → Except Fault T
  | Reference.temporary _ => Except.error Fault.undefined

/-- The node a pointer refers to; undefined for `nullptr` and for a deleted node. -/
def deref (heap : List (Option (SinglyNode T))) : Option Nat → Except Fault (SinglyNode T)
  | none => Except.error Fault.undefined
  | some a =>
    match heap.getD a none with
    | some node => Except.ok node
    | none => Except.error Fault.undefined

/-- `p->Next()`. -/
def Next (heap : List (Option (SinglyNode T))) (p : Option Nat) : Except Fault (Option Nat) :=
  (deref heap p).map (fun node => node.next_)

/-- `p->Data()`. -/
def Data (heap : List (Option (SinglyNode T))) (p : Option Nat) : Except Fault T :=
  (deref heap p).map (fun node => node.data_)

/-- `p->SetNext(next)`: the store afterwards. -/
def SetNext (heap : List (Option (SinglyNode T))) (p next : Option Nat) :
    Except Fault (List (Option (SinglyNode T))) :=
  match p with
  | none => Except.error Fault.undefined
  | some a =>
    (deref heap (some a)).map (fun node => heap.set a (some { node with next_ := next }))

/-- `new SinglyNode<T>(data)`: the address of the node and the store afterwards. -/
def newNode (heap : List (Option (SinglyNode T))) (data : T) :
    Nat × List (Option (SinglyNode T)) :=
  (heap.length, heap ++ [some { data_ := data, next_ := none }])

/-- `delete p`: nothing for `nullptr`, undefined for a node already deleted. -/
def deleteNode (heap : List (Option (SinglyNode T))) :
    Option Nat → Except Fault (List (Option (SinglyNode T)))
  | none => Except.ok heap
  | some a => (deref heap (some a)).map (fun _ => heap.set a none)

/-- `SinglyList()`. -/
def SinglyList.init : SinglyList T :=
  { heap := [], head_ := none, tail_ := none, size_ := 0 }

/-- `IsOutOfBounds(index)`. -/
def SinglyList.IsOutOfBounds (l : SinglyList T) (index : Int) : Bool :=
  decide (index < 0 ∨ index > (l.size_ : Int) - 1)

/-- `Size()`. -/
def SinglyList.Size (l : SinglyList T) : Nat := l.size_

/-- `Empty()`. -/
def SinglyList.Empty (l : SinglyList T) : Bool := decide (l.size_ = 0)

/-- `InsertFront(data)`. -/
def SinglyList.InsertFront (l : SinglyList T) (data : T) : Except Fault (SinglyList T) :=
  let node := (newNode l.heap data).1
  let heap := (newNode l.heap data).2
  if l.head_ = none then
    Except.ok { heap := heap, head_ := some node, tail_ := some node, size_ := l.size_ + 1 }
  else do
    let heap ← SetNext heap (some node) l.head_
    pure { heap := heap, head_ := some node, tail_ := l.tail_, size_ := l.size_ + 1 }

/-- `InsertBack(data)`. -/
def SinglyList.InsertBack (l : SinglyList T) (data : T) : Except Fault (SinglyList T) :=
  let node := (newNode l.heap data).1
  let heap := (newNode l.heap data).2
  if l.tail_ = none then
    Except.ok { heap := heap, head_ := some node, tail_ := some node, size_ := l.size_ + 1 }
  else do
    let heap ← SetNext heap l.tail_ (some node)
    pure { heap := heap, head_ := l.head_, tail_ := some node, size_ := l.size_ + 1 }

/-- The `for` loop of `InsertAt`, `PopAt` and `At`: `count` times `prev = temp;
temp = temp->Next()`. Returns `(prev, temp)`. -/
def advance (heap : List (Option (SinglyNode T))) :
    Nat → Option Nat → Option Nat → Except Fault (Option Nat × Option Nat)
  | 0, prev, temp => Except.ok (prev, temp)
  | count + 1, _, temp => do
    let next ← Next heap temp
    advance heap count temp next

/-- `InsertAt(index, data)`. -/
def SinglyList.InsertAt (l : SinglyList T) (index : Int) (data : T) :
    Except Fault (SinglyList T) :=
  if index < 0 ∨ index > (l.size_ : Int) then
    Except.error (Fault.out_of_range "Index out of bounds")
  else if index = 0 then l.InsertFront data
  else if index = (l.size_ : Int) then l.InsertBack data
  else do
    let (prev, temp) ← advance l.heap index.toNat none l.head_
    let node := (newNode l.heap data).1
    let heap := (newNode l.heap data).2
    let heap ← SetNext heap (some node) temp
    let heap ← SetNext heap prev (some node)
    pure { heap := heap, head_ := l.head_, tail_ := l.tail_, size_ := l.size_ + 1 }

/-- The `while (curr != nullptr)` loop of `Invert`. Returns the store and `prev`. -/
def invertLoop : Nat → List (Option (SinglyNode T)) → Option Nat → Option Nat →
    Except Fault (List (Option (SinglyNode T)) × Option Nat)
  | _, heap, prev, none => Except.ok (heap, prev)
  | 0, _, _, some _ => Except.error Fault.endless
  | fuel + 1, heap, prev, some curr => do
    let next ← Next heap (some curr)
    let heap ← SetNext heap (some curr) prev
    invertLoop fuel heap (some curr) next

/-- `Invert()`. -/
def SinglyList.Invert (l : SinglyList T) : Except Fault (SinglyList T) :=
  if l.Empty = true ∨ l.head_ = l.tail_ then Except.ok l
  else do
    let (heap, prev) ← invertLoop (l.heap.length + 1) l.heap none l.head_
    pure { heap := heap, head_ := prev, tail_ := l.head_, size_ := l.size_ }

/-- `PopFront()`. -/
def SinglyList.PopFront (l : SinglyList T) : Except Fault (SinglyList T) :=
  if l.Empty = true then
    Except.error (Fault.out_of_range "Cannot remove element from empty list")
  else if l.head_ = l.tail_ then do
    let heap ← deleteNode l.heap l.head_
    pure { heap := heap, head_ := none, tail_ := none, size_ := l.size_ - 1 }
  else do
    let to_delete := l.head_
    let head ← Next l.heap l.head_
    let heap ← deleteNode l.heap to_delete
    pure { heap := heap, head_ := head, tail_ := l.tail_, size_ := l.size_ - 1 }

/-- The `while (new_tail->Next() != tail_)` loop of `PopBack`. Returns `new_tail`. -/
def findNewTail (heap : List (Option (SinglyNode T))) (tail_ : Option Nat) :
    Nat → Option Nat → Except Fault (Option Nat)
  | 0, _ => Except.error Fault.endless
  | fuel + 1, new_tail => do
    let next ← Next heap new_tail
    if next ≠ tail_ then findNewTail heap tail_ fuel next else pure new_tail

/-- `PopBack()`. -/
def SinglyList.PopBack (l : SinglyList T) : Except Fault (SinglyList T) :=
  if l.Empty = true then
    Except.error (Fault.out_of_range "Cannot remove element from empty list")
  else if l.head_ = l.tail_ then do
    let heap ← deleteNode l.heap l.head_
    pure { heap := heap, head_ := none, tail_ := none, size_ := l.size_ - 1 }
  else do
    let to_delete := l.tail_
    let new_tail ← findNewTail l.heap l.tail_ (l.heap.length + 1) l.head_
    let heap ← SetNext l.heap new_tail none
    let heap ← deleteNode heap to_delete
    pure { heap := heap, head_ := l.head_, tail_ := new_tail, size_ := l.size_ - 1 }

/-- `PopAt(index)`. -/
def SinglyList.PopAt (l : SinglyList T) (index : Int) : Except Fault (SinglyList T) :=
  if l.IsOutOfBounds index = true then
    Except.error (Fault.out_of_range "Index out of bounds")
  else if index = 0 then l.PopFront
  else if index = (l.size_ : Int) - 1 then l.PopBack
  else do
    let (prev, curr) ← advance l.heap index.toNat none l.head_
    let after ← Next l.heap curr
    let heap ← SetNext l.heap prev after
    let heap ← deleteNode heap curr
    pure { heap := heap, head_ := l.head_, tail_ := l.tail_, size_ := l.size_ - 1 }

/-- The `while (fast && fast->Next())` loop of `PopMiddle`. Returns `(prev, slow)`. -/
def middleLoop (heap : List (Option (SinglyNode T))) :
    Nat → Option Nat → Option Nat → Option Nat → Except Fault (Option Nat × Option Nat)
  | _, none, slow, prev => Except.ok (prev, slow)
  | 0, some _, _, _ => Except.error Fault.endless
  | fuel + 1, some fast, slow, prev => do
    let fast_next ← Next heap (some fast)
    if fast_next = none then pure (prev, slow)
    else do
      let fast ← Next heap fast_next
      let slow_next ← Next heap slow
      middleLoop heap fuel fast slow_next slow

/-- `PopMiddle()`. -/
def SinglyList.PopMiddle (l : SinglyList T) : Except Fault (SinglyList T) :=
  if l.Empty = true then
    Except.error (Fault.out_of_range "Cannot remove element from empty list")
  else if l.size_ = 1 then l.PopFront
  else do
    let (prev, slow) ← middleLoop l.heap (l.heap.length + 1) l.head_ l.head_ none
    let after ← Next l.heap slow
    let heap ← SetNext l.heap prev after
    let heap ← deleteNode heap slow
    pure { heap := heap, head_ := l.head_, tail_ := l.tail_, size_ := l.size_ - 1 }

/-- `At(index)`. -/
def SinglyList.At (l : SinglyList T) (index : Int) : Except Fault T :=
  if l.IsOutOfBounds index = true then
    Except.error (Fault.out_of_range "Index out of bounds")
  else do
    let (_, temp) ← advance l.heap index.toNat none l.head_
    Data l.heap temp

/-- The `while (temp)` loop of `Clear`. Returns the store. -/
def clearLoop : Nat → List (Option (SinglyNode T)) → Option Nat →
    Except Fault (List (Option (SinglyNode T)))
  | _, heap, none => Except.ok heap
  | 0, _, some _ => Except.error Fault.endless
  | fuel + 1, heap, some temp => do
    let next ← Next heap (some temp)
    let heap ← deleteNode heap (some temp)
    clearLoop fuel heap next

/-- `Clear()`. -/
def SinglyList.Clear (l : SinglyList T) : Except Fault (SinglyList T) := do
  let heap ← clearLoop (l.heap.length + 1) l.heap l.head_
  pure { heap := heap, head_ := none, tail_ := none, size_ := 0 }

/-- `Head()`: `return head_->Data();` in a function that returns `const T&`. `Data()`
returns by value, so the reference is bound to the temporary of the `return` statement. -/
def SinglyList.Head (l : SinglyList T) : Except Fault (Reference T) :=
  if l.Empty = true then Except.error (Fault.runtime_error "List is empty.")
  else (Data l.heap l.head_).map Reference.temporary

/-- `Tail()`: `return tail_->Data();` in a function that returns `const T&`. `Data()`
returns by value, so the reference is bound to the temporary of the `return` statement. -/
def SinglyList.Tail (l : SinglyList T) : Except Fault (Reference T) :=
  if l.Empty = true then Except.error (Fault.runtime_error "List is empty.")
  else (Data l.heap l.tail_).map Reference.temporary

end ListOps

/-- One call of the interface of `SinglyList` that can change the list. -/
inductive ListOp (T : Type) where
  | InsertFront (data : T)
  | InsertBack (data : T)
  | InsertAt (index : Int) (data : T)
  | PopFront
  | PopBack
  | PopAt (index : Int)
  | PopMiddle
  | Invert
  | Clear
deriving DecidableEq

section ListRuns

variable {T : Type}

/-- The outcome of one call. -/
def SinglyList.call (l : SinglyList T) : ListOp T → Except Fault (SinglyList T)
  | ListOp.InsertFront data => l.InsertFront data
  | ListOp.InsertBack data => l.InsertBack data
  | ListOp.InsertAt index data => l.InsertAt index data
  | ListOp.PopFront => l.PopFront
  | ListOp.PopBack => l.PopBack
  | ListOp.PopAt index => l.PopAt index
  | ListOp.PopMiddle => l.PopMiddle
  | ListOp.Invert => l.Invert
  | ListOp.Clear => l.Clear

/-- The list after one call: the returned list, or the list as it was when the call threw
(every `throw` of the class comes before the first write); nothing after a fault. -/
def SinglyList.after (l : SinglyList T) (op : ListOp T) : Option (SinglyList T) :=
  match l.call op with
  | Except.ok l2 => some l2
  | Except.error (Fault.out_of_range _) => some l
  | Except.error (Fault.runtime_error _) => some l
  | Except.error Fault.undefined => none
  | Except.error Fault.endless => none

/-- The list after a sequence of calls on `l`. -/
def SinglyList.afterAll (l : SinglyList T) : List (ListOp T) → Option (SinglyList T)
  | [] => some l
  | op :: ops => (l.after op).bind (fun l2 => l2.afterAll ops)

/-- List states some sequence of calls on the empty list produces. -/
def ListReachable (l : SinglyList T) : Prop :=
  ∃ ops : List (ListOp T), SinglyList.init.afterAll ops = some l

/-- The addresses `addrs` are the nodes reached from pointer `p` by `Next()`, in order, up
to the pointer `q`, all of them live. -/
def IsSegment (heap : List (Option (SinglyNode T))) : Option Nat → List Nat → Option Nat → Prop
  | p, [], q => p = q
  | p, a :: rest, q =>
    p = some a ∧ ∃ node, heap.getD a none = some node ∧ IsSegment heap node.next_ rest q

/-- The list `l` is the chain `addrs`: the nodes reached from `head_` are `addrs`, ending
in `nullptr`; `size_` is their number and `tail_` the last of them (null when there is
none). -/
def Represents (l : SinglyList T) (addrs : List Nat) : Prop :=
  IsSegment l.heap l.head_ addrs none ∧ l.size_ = addrs.length ∧ l.tail_ = addrs.getLast?

/-- The representation invariant of C21: `size_` nodes are reachable from `head_`, the last
of them is `tail_`, and `head_` and `tail_` are null when there is none. -/
def ListInvariant (l : SinglyList T) : Prop :=
  ∃ addrs : List Nat, Represents l addrs

end ListRuns

/-- The list state `InsertBack(1); InsertBack(2); PopMiddle()` leaves: node 0 holds 1 and
is the only node of the chain, node 1 is deleted, and `tail_` still points to it. -/
def danglingTail : SinglyList Nat :=
  { heap := [some (SinglyNode.mk 1 none), none], head_ := some 0, tail_ := some 1, size_ := 1 }

/-! ## Facts about the binary32 test -/

section Binary32

theorem bitLengthAux_spec (fuel n : Nat) (h : n ≤ fuel) (hn : 0 < n) :
    2 ^ (bitLengthAux fuel n - 1) ≤ n ∧ n < 2 ^ bitLengthAux fuel n ∧ 0 < bitLengthAux fuel n := by
  induction fuel generalizing n with
  | zero => omega
  | succ fuel ih =>
    have hn0 : n ≠ 0 := by omega
    simp only [bitLengthAux, hn0, if_false]
    by_cases h2 : n / 2 = 0
    · have h1 : n = 1 := by omega
      subst h1
      cases fuel <;> simp [bitLengthAux]
    · have hpos : 0 < n / 2 := Nat.pos_of_ne_zero h2
      obtain ⟨l1, l2, l3⟩ := ih (n / 2) (by omega) hpos
      refine ⟨?_, ?_, by omega⟩
      · have : bitLengthAux fuel (n / 2) + 1 - 1 = (bitLengthAux fuel (n / 2) - 1) + 1 := by omega
        rw [this, pow_succ]
        omega
      · rw [pow_succ]; omega

theorem bitLength_spec (n : Nat) (hn : 0 < n) :
    2 ^ (bitLength n - 1) ≤ n ∧ n < 2 ^ bitLength n ∧ 0 < bitLength n :=
  bitLengthAux_spec n n le_rfl hn

theorem bitLength_le_of_lt (n k : Nat) (h : n < 2 ^ k) : bitLength n ≤ k := by
  rcases Nat.eq_zero_or_pos n with rfl | hn
  · simp [bitLength, bitLengthAux]
  · obtain ⟨l1, _, l3⟩ := bitLength_spec n hn
    by_contra hc
    have : k ≤ bitLength n - 1 := by omega
    have := Nat.pow_le_pow_right (show 0 < 2 by norm_num) this
    omega

theorem intToFloat_exact (n : Nat) (h : n < 2 ^ 24) : intToFloat n = n := by
  have := bitLength_le_of_lt n 24 h
  have hd : bitLength n - 24 = 0 := by omega
  simp [intToFloat, hd, roundNearestEven, Nat.mod_one]


theorem roundNearestEven_ge (N D : Nat) : N / D ≤ roundNearestEven N D := by
  unfold roundNearestEven
  dsimp only
  split
  · exact le_rfl
  · split
    · omega
    · split <;> omega

theorem roundNearestEven_le (N D : Nat) : roundNearestEven N D ≤ N / D + 1 := by
  unfold roundNearestEven
  dsimp only
  split
  · omega
  · split
    · omega
    · split <;> omega

/-- Rounding exceeds an even integer `K` exactly when the quotient exceeds `K + 1/2`. -/
theorem roundNearestEven_gt_even (N D K : Nat) (hD : 0 < D) (hK : K % 2 = 0) :
    K < roundNearestEven N D ↔ (2 * K + 1) * D < 2 * N := by
  have hN : D * (N / D) + N % D = N := Nat.div_add_mod N D
  have hr : N % D < D := Nat.mod_lt N hD
  have hmono1 : K + 1 ≤ N / D → D * (K + 1) ≤ D * (N / D) := fun h => Nat.mul_le_mul_left D h
  have hmono2 : N / D ≤ K → D * (N / D) ≤ D * K := fun h => Nat.mul_le_mul_left D h
  have hmono3 : K ≤ N / D → D * K ≤ D * (N / D) := fun h => Nat.mul_le_mul_left D h
  have hmono4 : N / D + 1 ≤ K → D * (N / D + 1) ≤ D * K := fun h => Nat.mul_le_mul_left D h
  have e1 : (2 * K + 1) * D = 2 * (D * K) + D := by ring
  have e2 : D * (K + 1) = D * K + D := by ring
  have e3 : D * (N / D + 1) = D * (N / D) + D := by ring
  rw [e1]
  rw [e2] at hmono1
  rw [e3] at hmono4
  unfold roundNearestEven
  dsimp only
  by_cases c1 : 2 * (N % D) < D
  · rw [if_pos c1]
    constructor
    · intro h; have := hmono1 h; omega
    · intro h; by_contra hc; have := hmono2 (by omega); omega
  · rw [if_neg c1]
    by_cases c2 : D < 2 * (N % D)
    · rw [if_pos c2]
      constructor
      · intro h; have := hmono3 (by omega); omega
      · intro h; by_contra hc; have := hmono4 (by omega); omega
    · rw [if_neg c2]
      by_cases c3 : N / D % 2 = 0
      · rw [if_pos c3]
        constructor
        · intro h; have := hmono1 h; omega
        · intro h; by_contra hc; have := hmono2 (by omega); omega
      · rw [if_neg c3]
        constructor
        · intro h
          have hne : N / D ≠ K := fun e => c3 (e ▸ hK)
          have := hmono1 (by omega); omega
        · intro h; by_contra hc; have := hmono4 (by omega); omega

theorem ratio_test_of_ge (a b σ τ : Nat) (hb : 0 < b) (h : b * 2 ^ τ ≤ a) :
    3 * 2 ^ σ < 4 * roundNearestEven (a * 2 ^ σ) (b * 2 ^ τ) * 2 ^ τ := by
  have hτ : 0 < 2 ^ τ := Nat.two_pow_pos _
  have hσ : 0 < 2 ^ σ := Nat.two_pow_pos _
  have hD : 0 < b * 2 ^ τ := Nat.mul_pos hb hτ
  have h1 : 2 ^ σ ≤ a * 2 ^ σ / (b * 2 ^ τ) := by
    rw [Nat.le_div_iff_mul_le hD]
    calc 2 ^ σ * (b * 2 ^ τ) ≤ 2 ^ σ * a := Nat.mul_le_mul_left _ h
      _ = a * 2 ^ σ := Nat.mul_comm _ _
  have h2 := roundNearestEven_ge (a * 2 ^ σ) (b * 2 ^ τ)
  have h3 : roundNearestEven (a * 2 ^ σ) (b * 2 ^ τ) * 1
      ≤ roundNearestEven (a * 2 ^ σ) (b * 2 ^ τ) * 2 ^ τ := Nat.mul_le_mul_left _ hτ
  have e : 4 * roundNearestEven (a * 2 ^ σ) (b * 2 ^ τ) * 2 ^ τ
      = 4 * (roundNearestEven (a * 2 ^ σ) (b * 2 ^ τ) * 2 ^ τ) := by ring
  rw [e]
  omega

theorem ratio_test_of_small (a b σ : Nat) (hb : 0 < b) (hσ : 25 ≤ σ)
    (h : a * 2 ^ (σ - 24) < b) :
    ¬ 3 * 2 ^ σ < 4 * roundNearestEven (a * 2 ^ σ) (b * 2 ^ 0) * 2 ^ 0 := by
  have e0 : 2 ^ σ = 2 ^ (σ - 24) * 2 ^ 24 := by
    rw [← pow_add]; congr 1; omega
  have hq : a * 2 ^ σ / b < 2 ^ 24 := by
    rw [Nat.div_lt_iff_lt_mul hb, e0, ← Nat.mul_assoc]
    calc a * 2 ^ (σ - 24) * 2 ^ 24 < b * 2 ^ 24 :=
          Nat.mul_lt_mul_of_pos_right h (Nat.two_pow_pos _)
      _ = 2 ^ 24 * b := Nat.mul_comm _ _
  have h2 := roundNearestEven_le (a * 2 ^ σ) b
  have h3 : 2 ^ 25 ≤ 2 ^ σ := Nat.pow_le_pow_right (by norm_num) hσ
  have n24 : (2 : Nat) ^ 24 = 16777216 := by norm_num
  have n25 : (2 : Nat) ^ 25 = 33554432 := by norm_num
  rw [n24] at hq
  rw [n25] at h3
  rw [pow_zero, Nat.mul_one, Nat.mul_one]
  omega

theorem two_mul_le_mul_pow (a k : Nat) (hk : 1 ≤ k) : 2 * a ≤ a * 2 ^ k := by
  have : 2 ^ 1 ≤ 2 ^ k := Nat.pow_le_pow_right (by norm_num) hk
  calc 2 * a = a * 2 ^ 1 := by ring
    _ ≤ a * 2 ^ k := Nat.mul_le_mul_left _ this

theorem le_mul_pow (a k : Nat) : a ≤ a * 2 ^ k := 
  Nat.le_mul_of_pos_right a (Nat.two_pow_pos _)

/-- The rounded quotient of two positive integral floats exceeds `0.75` exactly when the
exact quotient exceeds `0.75 + 2 ^ (-25)`, half-way to the next float above `0.75`. -/
theorem floatDiv_gt_three_quarters (a b : Nat) (ha : 0 < a) (hb : 0 < b) :
    3 * 2 ^ (floatDiv a b).2.toNat < 4 * (floatDiv a b).1 * 2 ^ (-(floatDiv a b).2).toNat
      ↔ 25165825 * b < 33554432 * a := by
  obtain ⟨a1, a2, a3⟩ := bitLength_spec a ha
  obtain ⟨b1, b2, b3⟩ := bitLength_spec b hb
  unfold floatDiv
  dsimp only
  generalize bitLength a = la at a1 a2 a3 ⊢
  generalize bitLength b = lb at b1 b2 b3 ⊢
  by_cases hadj : a * 2 ^ lb < b * 2 ^ la
  · rw [if_pos hadj]
    rcases lt_trichotomy la lb with hl | hl | hl
    · -- quotient below one half
      have hσ : ((23 : Int) - ((la : Int) - (lb : Int) - 1)).toNat = 24 + lb - la := by omega
      have hτ : (-((23 : Int) - ((la : Int) - (lb : Int) - 1))).toNat = 0 := by omega
      rw [hσ, hτ]
      have hup : a * 2 ^ (lb - la) < b := by
        have e : 2 ^ lb = 2 ^ (lb - la) * 2 ^ la := by rw [← pow_add]; congr 1; omega
        rw [e, ← Nat.mul_assoc] at hadj
        exact Nat.lt_of_mul_lt_mul_right hadj
      have hup2 : a * 2 ^ (24 + lb - la - 24) < b := by
        have : 24 + lb - la - 24 = lb - la := by omega
        rw [this]; exact hup
      have h1 := ratio_test_of_small a b (24 + lb - la) hb (by omega) hup2
      have h2 := two_mul_le_mul_pow a (lb - la) (by omega)
      constructor
      · intro h; exact absurd h h1
      · intro h; omega
    · -- quotient in [1/2, 1)
      subst hl
      have hσ : ((23 : Int) - ((la : Int) - (la : Int) - 1)).toNat = 24 := by omega
      have hτ : (-((23 : Int) - ((la : Int) - (la : Int) - 1))).toNat = 0 := by omega
      rw [hσ, hτ]
      have := roundNearestEven_gt_even (a * 2 ^ 24) (b * 2 ^ 0) 12582912 (by simpa using hb)
        (by norm_num)
      norm_num at this ⊢
      omega
    · -- quotient at least one
      have hlow : b * 2 ^ (la - lb - 1) ≤ a := by
        have e : 2 ^ (la - 1) = 2 ^ lb * 2 ^ (la - lb - 1) := by
          rw [← pow_add]; congr 1; omega
        calc b * 2 ^ (la - lb - 1) ≤ 2 ^ lb * 2 ^ (la - lb - 1) :=
              Nat.mul_le_mul_right _ (le_of_lt b2)
          _ = 2 ^ (la - 1) := e.symm
          _ ≤ a := a1
      have hba : b ≤ a := le_trans (le_mul_pow b _) hlow
      have hτle : b * 2 ^ (-((23 : Int) - ((la : Int) - (lb : Int) - 1))).toNat ≤ a := by
        refine le_trans (Nat.mul_le_mul_left b (Nat.pow_le_pow_right (by norm_num) ?_)) hlow
        omega
      have h1 := ratio_test_of_ge a b ((23 : Int) - ((la : Int) - (lb : Int) - 1)).toNat
        (-((23 : Int) - ((la : Int) - (lb : Int) - 1))).toNat hb hτle
      constructor
      · intro _; omega
      · intro _; exact h1
  · rw [if_neg hadj]
    have hadj2 : b * 2 ^ la ≤ a * 2 ^ lb := not_lt.mp hadj
    rcases lt_trichotomy (la + 1) lb with hl | hl | hl
    · -- quotient below one half
      have hσ : ((23 : Int) - ((la : Int) - (lb : Int) - 0)).toNat = 23 + lb - la := by omega
      have hτ : (-((23 : Int) - ((la : Int) - (lb : Int) - 0))).toNat = 0 := by omega
      rw [hσ, hτ]
      have hup : a * 2 ^ (23 + lb - la - 24) < b := by
        have e : 2 ^ (lb - 1) = 2 ^ la * 2 ^ (23 + lb - la - 24) := by
          rw [← pow_add]; congr 1; omega
        calc a * 2 ^ (23 + lb - la - 24) < 2 ^ la * 2 ^ (23 + lb - la - 24) :=
              Nat.mul_lt_mul_of_pos_right a2 (Nat.two_pow_pos _)
          _ = 2 ^ (lb - 1) := e.symm
          _ ≤ b := b1
      have h1 := ratio_test_of_small a b (23 + lb - la) hb (by omega) hup
      have h2 := two_mul_le_mul_pow a (23 + lb - la - 24) (by omega)
      constructor
      · intro h; exact absurd h h1
      · intro h; omega
    · -- quotient in [1/2, 1)
      subst hl
      have hσ : ((23 : Int) - ((la : Int) - ((la + 1 : Nat) : Int) - 0)).toNat = 24 := by omega
      have hτ : (-((23 : Int) - ((la : Int) - ((la + 1 : Nat) : Int) - 0))).toNat = 0 := by
        omega
      rw [hσ, hτ]
      have := roundNearestEven_gt_even (a * 2 ^ 24) (b * 2 ^ 0) 12582912 (by simpa using hb)
        (by norm_num)
      norm_num at this ⊢
      omega
    · -- quotient at least one
      have hll : lb ≤ la := by omega
      have hlow : b * 2 ^ (la - lb) ≤ a := by
        have e : 2 ^ la = 2 ^ (la - lb) * 2 ^ lb := by rw [← pow_add]; congr 1; omega
        rw [e, ← Nat.mul_assoc] at hadj2
        exact Nat.le_of_mul_le_mul_right hadj2 (Nat.two_pow_pos _)
      have hba : b ≤ a := le_trans (le_mul_pow b _) hlow
      have hτle : b * 2 ^ (-((23 : Int) - ((la : Int) - (lb : Int) - 0))).toNat ≤ a := by
        refine le_trans (Nat.mul_le_mul_left b (Nat.pow_le_pow_right (by norm_num) ?_)) hlow
        omega
      have h1 := ratio_test_of_ge a b ((23 : Int) - ((la : Int) - (lb : Int) - 0)).toNat
        (-((23 : Int) - ((la : Int) - (lb : Int) - 0))).toNat hb hτle
      constructor
      · intro _; omega
      · intro _; exact h1

theorem intToFloat_zero : intToFloat 0 = 0 := by decide

/-- The load-factor test in exact arithmetic on the two rounded operands. -/
theorem loadFactorExceeded_iff (n m : Nat) (hm : 0 < intToFloat m) (hm0 : m ≠ 0) :
    loadFactorExceeded n m = true ↔ 25165825 * intToFloat m < 33554432 * intToFloat n := by
  unfold loadFactorExceeded
  rw [if_neg hm0]
  dsimp only
  rw [decide_eq_true_iff]
  rcases Nat.eq_zero_or_pos (intToFloat n) with h0 | hpos
  · rw [h0]
    have : (floatDiv 0 (intToFloat m)).1 = 0 := by
      simp [floatDiv, roundNearestEven]
    rw [this]
    omega
  · exact floatDiv_gt_three_quarters _ _ hpos hm

/-- While both counters are below `2 ^ 24` the casts are exact. -/
theorem loadFactorExceeded_iff_exact (n m : Nat) (hn : n < 2 ^ 24) (hm : m < 2 ^ 24)
    (hm0 : 0 < m) :
    loadFactorExceeded n m = true ↔ 25165825 * m < 33554432 * n := by
  have e1 := intToFloat_exact n hn
  have e2 := intToFloat_exact m hm
  have := loadFactorExceeded_iff n m (by omega) (by omega)
  rw [e1, e2] at this
  exact this

end Binary32

/-! ## Lists of chains -/

section ListLemmas

variable {α β : Type}

theorem getD_set_chain (L : List (List α)) (i j : Nat) (c : List α) :
    (L.set i c).getD j [] = if i = j ∧ i < L.length then c else L.getD j [] := by
  simp only [List.getD_eq_getElem?_getD, List.getElem?_set]
  by_cases hij : i = j
  · subst hij
    by_cases hi : i < L.length
    · simp [hi]
    · simp [hi, List.getElem?_eq_none (not_lt.mp hi)]
  · simp [hij]

theorem mem_flatten_iff_getD (L : List (List α)) (x : α) :
    x ∈ L.flatten ↔ ∃ i, x ∈ L.getD i [] := by
  rw [List.mem_flatten]
  constructor
  · rintro ⟨l, hl, hx⟩
    obtain ⟨i, hi, rfl⟩ := List.getElem_of_mem hl
    exact ⟨i, by simpa [List.getD_eq_getElem?_getD, List.getElem?_eq_getElem hi] using hx⟩
  · rintro ⟨i, hx⟩
    by_cases hi : i < L.length
    · refine ⟨L[i], List.getElem_mem hi, ?_⟩
      simpa [List.getD_eq_getElem?_getD, List.getElem?_eq_getElem hi] using hx
    · simp [List.getD_eq_getElem?_getD, List.getElem?_eq_none (not_lt.mp hi)] at hx

theorem flatten_split (L : List (List α)) (i : Nat) (h : i < L.length) :
    L.flatten = (L.take i).flatten ++ (L.getD i [] ++ (L.drop (i + 1)).flatten) := by
  induction L generalizing i with
  | nil => simp at h
  | cons c L ih =>
    cases i with
    | zero => simp
    | succ i =>
      have h1 : i < L.length := by simpa using h
      have := ih i h1
      simp only [List.flatten_cons, List.take_succ_cons, List.drop_succ_cons, List.getD_cons_succ,
        List.append_assoc]
      rw [← this]

theorem flatten_set (L : List (List α)) (i : Nat) (c : List α) (h : i < L.length) :
    (L.set i c).flatten = (L.take i).flatten ++ (c ++ (L.drop (i + 1)).flatten) := by
  have h1 : i < (L.set i c).length := by simpa using h
  rw [flatten_split (L.set i c) i h1, getD_set_chain, List.set_take,
    List.set_eq_of_length_le (by simp), List.drop_set_of_lt c L (Nat.lt_succ_self i)]
  simp [h]

theorem map_eq_self_of (f : α → α) (l : List α) (h : ∀ x ∈ l, f x = x) : l.map f = l := by
  induction l with
  | nil => rfl
  | cons x l ih =>
    simp only [List.map_cons, h x (List.mem_cons_self x l)]
    rw [ih (fun y hy => h y (List.mem_cons_of_mem x hy))]

theorem foldl_range_getD (f : β → α → β) (L : List (List α)) (init : β) :
    (List.range L.length).foldl (fun m i => (L.getD i []).foldl f m) init
      = L.flatten.foldl f init := by
  induction L using List.reverseRecOn generalizing init with
  | nil => simp
  | append_singleton L c ih =>
    simp only [List.length_append, List.length_singleton, List.range_succ, List.foldl_append,
      List.foldl_cons, List.foldl_nil, List.flatten_append, List.flatten_cons, List.flatten_nil,
      List.append_nil]
    have e1 : (List.range L.length).foldl (fun m i => ((L ++ [c]).getD i []).foldl f m) init
        = (List.range L.length).foldl (fun m i => (L.getD i []).foldl f m) init := by
      apply List.foldl_ext
      intro m i hi
      have hi2 : i < L.length := List.mem_range.mp hi
      simp [List.getD_eq_getElem?_getD, List.getElem?_append_left hi2]
    rw [e1, ih]
    simp [List.getD_eq_getElem?_getD]

end ListLemmas

/-! ## The chain walks -/

section Walks

variable {T P : Type} [DecidableEq T]

theorem overwrite_key (key : T) (value : P) (n : HashNode T P) :
    (overwrite key value n).key = n.key := by
  unfold overwrite; split <;> rfl

theorem findWalk_iff (key : T) (c : List (HashNode T P)) :
    findWalk key c = true ↔ key ∈ c.map HashNode.key := by
  induction c with
  | nil => simp [findWalk]
  | cons n c ih =>
    by_cases h : n.key = key
    · simp [findWalk, h]
    · simp [findWalk, h, ih, Ne.symm h]

theorem findWalk_false_iff (key : T) (c : List (HashNode T P)) :
    findWalk key c = false ↔ key ∉ c.map HashNode.key := by
  rw [← findWalk_iff]; simp

theorem getWalk_none_iff (key : T) (c : List (HashNode T P)) :
    getWalk key c = none ↔ findWalk key c = false := by
  induction c with
  | nil => simp [getWalk, findWalk]
  | cons n c ih =>
    by_cases h : n.key = key <;> simp [getWalk, findWalk, h, ih]

theorem getWalk_some_iff (key : T) (value : P) (c : List (HashNode T P))
    (hc : (c.map HashNode.key).Nodup) :
    getWalk key c = some value ↔ { key := key, value := value } ∈ c := by
  induction c with
  | nil => simp [getWalk]
  | cons n c ih =>
    have hn : n.key ∉ c.map HashNode.key := (List.nodup_cons.mp hc).1
    have hc2 := (List.nodup_cons.mp hc).2
    by_cases h : n.key = key
    · simp only [getWalk, h, if_true, Option.some.injEq, List.mem_cons]
      constructor
      · intro hv; left; cases n; simp_all
      · rintro (hv | hv)
        · rw [← hv]
        · exact absurd (List.mem_map_of_mem HashNode.key hv) (h ▸ hn)
    · simp only [getWalk, h, if_false, ih hc2, List.mem_cons]
      constructor
      · exact Or.inr
      · rintro (hv | hv)
        · exact absurd (by rw [← hv]) h
        · exact hv

theorem setWalk_none_iff (key : T) (value : P) (c : List (HashNode T P)) :
    setWalk key value c = none ↔ findWalk key c = false := by
  induction c with
  | nil => simp [setWalk, findWalk]
  | cons n c ih =>
    by_cases h : n.key = key <;> simp [setWalk, findWalk, h, ih]

theorem setWalk_some (key : T) (value : P) (c c2 : List (HashNode T P))
    (hc : (c.map HashNode.key).Nodup) (h : setWalk key value c = some c2) :
    c2 = c.map (overwrite key value) := by
  induction c generalizing c2 with
  | nil => simp [setWalk] at h
  | cons n c ih =>
    have hn : n.key ∉ c.map HashNode.key := (List.nodup_cons.mp hc).1
    have hc2 := (List.nodup_cons.mp hc).2
    by_cases hk : n.key = key
    · simp only [setWalk, hk, if_true, Option.some.injEq] at h
      subst h
      have hid : c.map (overwrite key value) = c := by
        apply map_eq_self_of
        intro m hm
        have : m.key ≠ key := fun e => hn (hk ▸ e ▸ List.mem_map_of_mem HashNode.key hm)
        simp [overwrite, this]
      simp [overwrite, hk, hid]
    · simp only [setWalk, hk, if_false, Option.map_eq_some'] at h
      obtain ⟨c3, h3, rfl⟩ := h
      rw [ih c3 hc2 h3]
      simp [overwrite, hk]

theorem removeWalk_none_iff (key : T) (c : List (HashNode T P)) :
    removeWalk key c = none ↔ findWalk key c = false := by
  induction c with
  | nil => simp [removeWalk, findWalk]
  | cons n c ih =>
    by_cases h : n.key = key <;> simp [removeWalk, findWalk, h, ih]

theorem removeWalk_some (key : T) (c c2 : List (HashNode T P))
    (hc : (c.map HashNode.key).Nodup) (h : removeWalk key c = some c2) :
    c2 = c.filter (keyIsNot key) := by
  induction c generalizing c2 with
  | nil => simp [removeWalk] at h
  | cons n c ih =>
    have hn : n.key ∉ c.map HashNode.key := (List.nodup_cons.mp hc).1
    have hc2 := (List.nodup_cons.mp hc).2
    by_cases hk : n.key = key
    · simp only [removeWalk, hk, if_true, Option.some.injEq] at h
      subst h
      have hid : c.filter (keyIsNot key) = c := by
        rw [List.filter_eq_self]
        intro m hm
        have : m.key ≠ key := fun e => hn (hk ▸ e ▸ List.mem_map_of_mem HashNode.key hm)
        simp [keyIsNot, this]
      simp [keyIsNot, hk, hid]
    · simp only [removeWalk, hk, if_false, Option.map_eq_some'] at h
      obtain ⟨c3, h3, rfl⟩ := h
      rw [ih c3 hc2 h3]
      simp [keyIsNot, hk]

end Walks

/-! ## The representation invariant -/

section Invariant

variable {T P : Type} [DecidableEq T]

theorem WF.index_lt {hash_fn_ : T → Nat} {t : HashTable T P} (h : WF hash_fn_ t) (key : T) :
    Hash hash_fn_ key t.current_size_ < t.data_map.length := by
  rw [h.len]; exact Nat.mod_lt _ h.pos

theorem WF.mem_nodes_iff {hash_fn_ : T → Nat} {t : HashTable T P} (h : WF hash_fn_ t)
    (n : HashNode T P) :
    n ∈ t.nodes ↔ n ∈ t.data_map.getD (Hash hash_fn_ n.key t.current_size_) [] := by
  unfold HashTable.nodes
  rw [mem_flatten_iff_getD]
  constructor
  · rintro ⟨i, hi⟩
    rw [h.place i n hi]; exact hi
  · intro hn; exact ⟨_, hn⟩

theorem WF.key_mem_iff {hash_fn_ : T → Nat} {t : HashTable T P} (h : WF hash_fn_ t) (key : T) :
    key ∈ t.nodes.map HashNode.key ↔
      key ∈ (t.data_map.getD (Hash hash_fn_ key t.current_size_) []).map HashNode.key := by
  simp only [List.mem_map]
  constructor
  · rintro ⟨n, hn, rfl⟩
    exact ⟨n, (h.mem_nodes_iff n).mp hn, rfl⟩
  · rintro ⟨n, hn, rfl⟩
    exact ⟨n, (h.mem_nodes_iff n).mpr hn, rfl⟩

theorem WF.chain_nodup {hash_fn_ : T → Nat} {t : HashTable T P} (h : WF hash_fn_ t) (i : Nat) :
    ((t.data_map.getD i []).map HashNode.key).Nodup := by
  by_cases hi : i < t.data_map.length
  · have hn := h.nodup
    unfold HashTable.nodes at hn
    rw [flatten_split t.data_map i hi] at hn
    simp only [List.map_append] at hn
    exact (List.nodup_append.mp (List.nodup_append.mp hn).2.1).1
  · simp [List.getD_eq_getElem?_getD, List.getElem?_eq_none (not_lt.mp hi)]

theorem WF.Find_iff {hash_fn_ : T → Nat} {t : HashTable T P} (h : WF hash_fn_ t) (key : T) :
    t.Find hash_fn_ key = true ↔ key ∈ t.nodes.map HashNode.key := by
  unfold HashTable.Find
  rw [findWalk_iff, h.key_mem_iff]

theorem WF.Find_false_iff {hash_fn_ : T → Nat} {t : HashTable T P} (h : WF hash_fn_ t)
    (key : T) : t.Find hash_fn_ key = false ↔ key ∉ t.nodes.map HashNode.key := by
  rw [← h.Find_iff]; simp

theorem WF.Get_ok_iff {hash_fn_ : T → Nat} {t : HashTable T P} (h : WF hash_fn_ t) (key : T)
    (value : P) :
    (t.Get hash_fn_ key).1 = Except.ok value ↔ { key := key, value := value } ∈ t.nodes := by
  rw [h.mem_nodes_iff, ← getWalk_some_iff key value _ (h.chain_nodup _)]
  unfold HashTable.Get
  cases hg : getWalk key (t.data_map.getD (Hash hash_fn_ key t.current_size_) []) <;> simp

theorem Get_error_iff (hash_fn_ : T → Nat) (t : HashTable T P) (key : T) :
    (t.Get hash_fn_ key).1 = Except.error "Key not found" ↔ t.Find hash_fn_ key = false := by
  unfold HashTable.Get HashTable.Find
  rw [← getWalk_none_iff]
  cases hg : getWalk key (t.data_map.getD (Hash hash_fn_ key t.current_size_) []) <;> simp

theorem Get_ok_of_Find (hash_fn_ : T → Nat) (t : HashTable T P) (key : T)
    (h : t.Find hash_fn_ key = true) : ∃ value, (t.Get hash_fn_ key).1 = Except.ok value := by
  unfold HashTable.Get
  unfold HashTable.Find at h
  cases hg : getWalk key (t.data_map.getD (Hash hash_fn_ key t.current_size_) []) with
  | none => rw [(getWalk_none_iff _ _).mp hg] at h; cases h
  | some v => exact ⟨v, rfl⟩

theorem Get_state (hash_fn_ : T → Nat) (t : HashTable T P) (key : T) :
    (t.Get hash_fn_ key).2 = t := by
  unfold HashTable.Get
  cases getWalk key (t.data_map.getD (Hash hash_fn_ key t.current_size_) []) <;> rfl

theorem set_eq_map {α : Type} (L : List (List α)) (i : Nat) (g : List α → List α)
    (_hi : i < L.length) (hg : ∀ j, j ≠ i → g (L.getD j []) = L.getD j []) :
    L.set i (g (L.getD i [])) = L.map g := by
  apply List.ext_getElem?
  intro j
  by_cases hj : j < L.length
  · have e1 : L.getD j [] = L[j] := by
      simp [List.getD_eq_getElem?_getD, List.getElem?_eq_getElem hj]
    by_cases hij : i = j
    · subst hij
      simp [List.getElem?_set, hj, e1]
    · have := hg j (Ne.symm hij)
      rw [e1] at this
      simp [List.getElem?_set, hij, hj, this]
  · have hj2 := not_lt.mp hj
    rw [List.getElem?_eq_none (by simpa using hj2), List.getElem?_eq_none (by simpa using hj2)]

theorem perm_set_cons {α : Type} (L : List (List α)) (i : Nat) (x : α) (hi : i < L.length) :
    (L.set i (x :: L.getD i [])).flatten.Perm (x :: L.flatten) := by
  rw [flatten_set L i _ hi]
  conv_rhs => rw [flatten_split L i hi]
  exact List.perm_middle

/-! ### `Set` on a key that is present -/

theorem Set_found {hash_fn_ : T → Nat} {t : HashTable T P} (h : WF hash_fn_ t) (key : T)
    (value : P) (hf : t.Find hash_fn_ key = true) :
    t.Set hash_fn_ key value =
      { t with data_map := t.data_map.map (List.map (overwrite key value)) } := by
  unfold HashTable.Set
  unfold HashTable.Find at hf
  dsimp only
  cases hw : setWalk key value (t.data_map.getD (Hash hash_fn_ key t.current_size_) []) with
  | none => rw [(setWalk_none_iff _ _ _).mp hw] at hf; cases hf
  | some c2 =>
    dsimp only
    rw [setWalk_some key value _ c2 (h.chain_nodup _) hw,
      set_eq_map t.data_map _ (List.map (overwrite key value)) (h.index_lt key)]
    intro j hj
    apply map_eq_self_of
    intro n hn
    have hne : n.key ≠ key := by
      intro e
      exact hj (by rw [← h.place j n hn, e])
    simp [overwrite, hne]

theorem Set_absent (hash_fn_ : T → Nat) (t : HashTable T P) (key : T) (value : P)
    (hf : t.Find hash_fn_ key = false) :
    t.Set hash_fn_ key value =
      t.insertHead hash_fn_ (Hash hash_fn_ key t.current_size_) { key := key, value := value } := by
  unfold HashTable.Set
  unfold HashTable.Find at hf
  dsimp only
  rw [(setWalk_none_iff key value _).mpr hf]
  rfl

/-! ### `Remove` -/

theorem Remove_found {hash_fn_ : T → Nat} {t : HashTable T P} (h : WF hash_fn_ t) (key : T)
    (hf : t.Find hash_fn_ key = true) :
    t.Remove hash_fn_ key =
      (true, { t with data_map := t.data_map.map (List.filter (keyIsNot key))
                      total_entries_ := t.total_entries_ - 1 }) := by
  unfold HashTable.Remove
  unfold HashTable.Find at hf
  dsimp only
  cases hw : removeWalk key (t.data_map.getD (Hash hash_fn_ key t.current_size_) []) with
  | none => rw [(removeWalk_none_iff _ _).mp hw] at hf; cases hf
  | some c2 =>
    dsimp only
    rw [removeWalk_some key _ c2 (h.chain_nodup _) hw,
      set_eq_map t.data_map _ (List.filter (keyIsNot key)) (h.index_lt key)]
    intro j hj
    rw [List.filter_eq_self]
    intro n hn
    have hne : n.key ≠ key := by
      intro e
      exact hj (by rw [← h.place j n hn, e])
    simp [keyIsNot, hne]

theorem Remove_absent (hash_fn_ : T → Nat) (t : HashTable T P) (key : T)
    (hf : t.Find hash_fn_ key = false) : t.Remove hash_fn_ key = (false, t) := by
  unfold HashTable.Remove
  unfold HashTable.Find at hf
  dsimp only
  rw [(removeWalk_none_iff key _).mpr hf]

/-! ### `operator[]` -/

theorem subscript_found [Inhabited P] (hash_fn_ : T → Nat) (t : HashTable T P) (key : T)
    (hf : t.Find hash_fn_ key = true) :
    (t.subscript hash_fn_ key).2 = t ∧
      (t.Get hash_fn_ key).1 = Except.ok (t.subscript hash_fn_ key).1 := by
  obtain ⟨v, hv⟩ := Get_ok_of_Find hash_fn_ t key hf
  unfold HashTable.subscript
  rw [hv]
  exact ⟨rfl, rfl⟩

theorem subscript_absent [Inhabited P] (hash_fn_ : T → Nat) (t : HashTable T P) (key : T)
    (hf : t.Find hash_fn_ key = false) :
    t.subscript hash_fn_ key =
      (default, t.insertHead hash_fn_ (Hash hash_fn_ key t.current_size_)
        { key := key, value := default }) := by
  have he := (Get_error_iff hash_fn_ t key).mpr hf
  unfold HashTable.subscript
  rw [he]
  rfl

/-! ### The invariant is kept -/

theorem getD_map_chain {α : Type} (L : List (List α)) (g : List α → List α) (hg : g [] = [])
    (i : Nat) : (L.map g).getD i [] = g (L.getD i []) := by
  simp only [List.getD_eq_getElem?_getD, List.getElem?_map]
  cases L[i]? <;> simp [hg]

theorem getD_replicate_nil {α : Type} (n i : Nat) :
    (List.replicate n ([] : List α)).getD i [] = [] := by
  simp only [List.getD_eq_getElem?_getD, List.getElem?_replicate]
  split <;> rfl

theorem flatten_replicate_nil' {α : Type} (n : Nat) :
    (List.replicate n ([] : List α)).flatten = [] := by
  induction n with
  | zero => rfl
  | succ n ih => simp [List.replicate_succ, ih]

theorem WF_init (hash_fn_ : T → Nat) : WF hash_fn_ (HashTable.init : HashTable T P) where
  len := by simp [HashTable.init]
  pos := by simp [HashTable.init]
  place := by
    intro i n hn
    simp only [HashTable.init, getD_replicate_nil] at hn
    cases hn
  nodup := by simp [HashTable.nodes, HashTable.init, flatten_replicate_nil']
  count := by simp [HashTable.nodes, HashTable.init, flatten_replicate_nil']

theorem nodes_overwrite (t : HashTable T P) (key : T) (value : P) :
    HashTable.nodes { t with data_map := t.data_map.map (List.map (overwrite key value)) }
      = t.nodes.map (overwrite key value) := by
  simp [HashTable.nodes, List.map_flatten]

theorem WF_overwrite {hash_fn_ : T → Nat} {t : HashTable T P} (h : WF hash_fn_ t) (key : T)
    (value : P) :
    WF hash_fn_ { t with data_map := t.data_map.map (List.map (overwrite key value)) } where
  len := by simpa using h.len
  pos := h.pos
  place := by
    intro i n hn
    simp only [getD_map_chain _ _ (List.map_nil) i, List.mem_map] at hn
    obtain ⟨m, hm, rfl⟩ := hn
    rw [overwrite_key]
    exact h.place i m hm
  nodup := by
    rw [nodes_overwrite, List.map_map]
    have : HashNode.key ∘ overwrite key value = (HashNode.key : HashNode T P → T) := by
      funext n; exact overwrite_key key value n
    rw [this]; exact h.nodup
  count := by
    rw [nodes_overwrite, List.length_map]; exact h.count

theorem nodes_filter (t : HashTable T P) (key : T) (n : Nat) :
    HashTable.nodes { t with data_map := t.data_map.map (List.filter (keyIsNot key))
                             total_entries_ := n }
      = t.nodes.filter (keyIsNot key) := by
  simp [HashTable.nodes, List.filter_flatten]

theorem length_filter_keyIsNot (l : List (HashNode T P)) (key : T)
    (hl : (l.map HashNode.key).Nodup) (hk : key ∈ l.map HashNode.key) :
    (l.filter (keyIsNot key)).length + 1 = l.length := by
  induction l with
  | nil => simp at hk
  | cons n l ih =>
    have hn : n.key ∉ l.map HashNode.key := (List.nodup_cons.mp hl).1
    have hl2 := (List.nodup_cons.mp hl).2
    by_cases e : n.key = key
    · have hid : l.filter (keyIsNot key) = l := by
        rw [List.filter_eq_self]
        intro m hm
        have : m.key ≠ key := fun e2 => hn (e ▸ e2 ▸ List.mem_map_of_mem HashNode.key hm)
        simp [keyIsNot, this]
      simp [keyIsNot, e, hid]
    · have hk2 : key ∈ l.map HashNode.key := by
        rcases List.mem_cons.mp hk with h1 | h1
        · exact absurd h1.symm e
        · exact h1
      have := ih hl2 hk2
      simp [keyIsNot, e] at this ⊢
      omega

theorem WF_filter {hash_fn_ : T → Nat} {t : HashTable T P} (h : WF hash_fn_ t) (key : T)
    (hk : key ∈ t.nodes.map HashNode.key) :
    WF hash_fn_ { t with data_map := t.data_map.map (List.filter (keyIsNot key))
                         total_entries_ := t.total_entries_ - 1 } where
  len := by simpa using h.len
  pos := h.pos
  place := by
    intro i n hn
    simp only [getD_map_chain _ _ (List.filter_nil _) i] at hn
    exact h.place i n (List.mem_filter.mp hn).1
  nodup := by
    rw [nodes_filter]
    exact (h.nodup).sublist ((List.filter_sublist _).map _)
  count := by
    rw [nodes_filter]
    have := length_filter_keyIsNot t.nodes key h.nodup hk
    have := h.count
    simp only
    omega

theorem nodes_link_perm (t : HashTable T P) (index : Nat) (node : HashNode T P)
    (hi : index < t.data_map.length) : (t.link index node).nodes.Perm (node :: t.nodes) :=
  perm_set_cons t.data_map index node hi

theorem WF_link {hash_fn_ : T → Nat} {t : HashTable T P} (h : WF hash_fn_ t) (key : T)
    (value : P) (hk : key ∉ t.nodes.map HashNode.key) :
    WF hash_fn_ (t.link (Hash hash_fn_ key t.current_size_) { key := key, value := value }) where
  len := by simpa [HashTable.link] using h.len
  pos := h.pos
  place := by
    intro i n hn
    simp only [HashTable.link, getD_set_chain] at hn
    split at hn
    · rename_i hc
      rcases List.mem_cons.mp hn with e | hm
      · rw [e]; exact hc.1
      · rw [← hc.1]; exact h.place _ n hm
    · exact h.place i n hn
  nodup := by
    have hp := (nodes_link_perm t _ { key := key, value := value } (h.index_lt key)).map
      HashNode.key
    rw [hp.nodup_iff]
    exact List.nodup_cons.mpr ⟨hk, h.nodup⟩
  count := by
    have hp := (nodes_link_perm t _ { key := key, value := value } (h.index_lt key)).length_eq
    rw [hp]
    simp [HashTable.link, h.count]

/-! ### `Resize` -/

theorem relink_fold_length (hash_fn_ : T → Nat) (N : Nat) (l : List (HashNode T P))
    (M : List (List (HashNode T P))) : (l.foldl (relink hash_fn_ N) M).length = M.length := by
  induction l generalizing M with
  | nil => rfl
  | cons n l ih => simp [List.foldl_cons, ih, relink]

theorem relink_fold_getD (hash_fn_ : T → Nat) (N : Nat) (hN : 0 < N) (l : List (HashNode T P))
    (M : List (List (HashNode T P))) (hM : M.length = N) (j : Nat) :
    (l.foldl (relink hash_fn_ N) M).getD j []
      = (l.filter (fun n => decide (Hash hash_fn_ n.key N = j))).reverse ++ M.getD j [] := by
  induction l generalizing M with
  | nil => simp
  | cons n l ih =>
    have hlt : Hash hash_fn_ n.key N < M.length := by rw [hM]; exact Nat.mod_lt _ hN
    rw [List.foldl_cons, ih (relink hash_fn_ N M n) (by simp [relink, hM])]
    simp only [relink, getD_set_chain, List.filter_cons]
    by_cases e : Hash hash_fn_ n.key N = j
    · subst e
      simp [hlt]
    · simp [e]

theorem relink_fold_perm (hash_fn_ : T → Nat) (N : Nat) (hN : 0 < N) (l : List (HashNode T P))
    (M : List (List (HashNode T P))) (hM : M.length = N) :
    (l.foldl (relink hash_fn_ N) M).flatten.Perm (l ++ M.flatten) := by
  induction l generalizing M with
  | nil => simp
  | cons n l ih =>
    have hlt : Hash hash_fn_ n.key N < M.length := by rw [hM]; exact Nat.mod_lt _ hN
    rw [List.foldl_cons]
    refine (ih (relink hash_fn_ N M n) (by simp [relink, hM])).trans ?_
    have hp : (relink hash_fn_ N M n).flatten.Perm (n :: M.flatten) :=
      perm_set_cons M _ n hlt
    exact ((List.Perm.append_left l hp).trans List.perm_middle)

theorem Resize_data_map (hash_fn_ : T → Nat) (t : HashTable T P)
    (hlen : t.data_map.length = t.current_size_) :
    (t.Resize hash_fn_).data_map
      = t.nodes.foldl (relink hash_fn_ (t.current_size_ * 2))
          (List.replicate (t.current_size_ * 2) []) := by
  unfold HashTable.Resize HashTable.nodes
  dsimp only
  rw [← hlen, foldl_range_getD]

theorem Resize_getD (hash_fn_ : T → Nat) (t : HashTable T P)
    (hlen : t.data_map.length = t.current_size_) (hpos : 0 < t.current_size_) (j : Nat) :
    (t.Resize hash_fn_).data_map.getD j []
      = (t.nodes.filter
          (fun n => decide (Hash hash_fn_ n.key (t.current_size_ * 2) = j))).reverse := by
  rw [Resize_data_map hash_fn_ t hlen,
    relink_fold_getD hash_fn_ _ (by omega) _ _ (by simp), getD_replicate_nil]
  simp

theorem nodes_Resize_perm (hash_fn_ : T → Nat) (t : HashTable T P)
    (hlen : t.data_map.length = t.current_size_) (hpos : 0 < t.current_size_) :
    (t.Resize hash_fn_).nodes.Perm t.nodes := by
  have := relink_fold_perm hash_fn_ (t.current_size_ * 2) (by omega) t.nodes
    (List.replicate (t.current_size_ * 2) []) (by simp)
  rw [flatten_replicate_nil', List.append_nil] at this
  unfold HashTable.nodes at this ⊢
  rw [Resize_data_map hash_fn_ t hlen]
  exact this

theorem Resize_current_size (hash_fn_ : T → Nat) (t : HashTable T P) :
    (t.Resize hash_fn_).current_size_ = t.current_size_ * 2 := rfl

theorem Resize_total_entries (hash_fn_ : T → Nat) (t : HashTable T P) :
    (t.Resize hash_fn_).total_entries_ = t.total_entries_ := rfl

theorem WF_Resize {hash_fn_ : T → Nat} {t : HashTable T P} (h : WF hash_fn_ t) :
    WF hash_fn_ (t.Resize hash_fn_) where
  len := by
    rw [Resize_data_map hash_fn_ t h.len, relink_fold_length]
    simp [Resize_current_size]
  pos := by have := h.pos; rw [Resize_current_size]; omega
  place := by
    intro i n hn
    rw [Resize_getD hash_fn_ t h.len h.pos] at hn
    have := (List.mem_filter.mp (List.mem_reverse.mp hn)).2
    simpa [Resize_current_size] using this
  nodup := by
    rw [((nodes_Resize_perm hash_fn_ t h.len h.pos).map HashNode.key).nodup_iff]
    exact h.nodup
  count := by
    rw [(nodes_Resize_perm hash_fn_ t h.len h.pos).length_eq, Resize_total_entries]
    exact h.count

theorem nodes_insertHead_perm {hash_fn_ : T → Nat} {t : HashTable T P} (h : WF hash_fn_ t)
    (key : T) (value : P) :
    (t.insertHead hash_fn_ (Hash hash_fn_ key t.current_size_)
        { key := key, value := value }).nodes.Perm ({ key := key, value := value } :: t.nodes) := by
  have hl := nodes_link_perm t (Hash hash_fn_ key t.current_size_)
    { key := key, value := value } (h.index_lt key)
  unfold HashTable.insertHead
  split
  · refine (nodes_Resize_perm hash_fn_ _ ?_ ?_).trans hl
    · simpa [HashTable.link] using h.len
    · exact h.pos
  · exact hl

theorem WF_insertHead {hash_fn_ : T → Nat} {t : HashTable T P} (h : WF hash_fn_ t) (key : T)
    (value : P) (hk : key ∉ t.nodes.map HashNode.key) :
    WF hash_fn_ (t.insertHead hash_fn_ (Hash hash_fn_ key t.current_size_)
      { key := key, value := value }) := by
  unfold HashTable.insertHead
  split
  · exact WF_Resize (WF_link h key value hk)
  · exact WF_link h key value hk

theorem WF_Set {hash_fn_ : T → Nat} {t : HashTable T P} (h : WF hash_fn_ t) (key : T)
    (value : P) : WF hash_fn_ (t.Set hash_fn_ key value) := by
  cases hf : t.Find hash_fn_ key with
  | true => rw [Set_found h key value hf]; exact WF_overwrite h key value
  | false =>
    rw [Set_absent hash_fn_ t key value hf]
    exact WF_insertHead h key value ((h.Find_false_iff key).mp hf)

theorem WF_Remove {hash_fn_ : T → Nat} {t : HashTable T P} (h : WF hash_fn_ t) (key : T) :
    WF hash_fn_ (t.Remove hash_fn_ key).2 := by
  cases hf : t.Find hash_fn_ key with
  | true => rw [Remove_found h key hf]; exact WF_filter h key ((h.Find_iff key).mp hf)
  | false => rw [Remove_absent hash_fn_ t key hf]; exact h

theorem WF_subscript [Inhabited P] {hash_fn_ : T → Nat} {t : HashTable T P}
    (h : WF hash_fn_ t) (key : T) : WF hash_fn_ (t.subscript hash_fn_ key).2 := by
  cases hf : t.Find hash_fn_ key with
  | true => rw [(subscript_found hash_fn_ t key hf).1]; exact h
  | false =>
    rw [subscript_absent hash_fn_ t key hf]
    exact WF_insertHead h key default ((h.Find_false_iff key).mp hf)

theorem WF_step [Inhabited P] {hash_fn_ : T → Nat} {t : HashTable T P} (h : WF hash_fn_ t)
    (op : Op T P) : WF hash_fn_ (t.step hash_fn_ op) := by
  cases op with
  | Set key value => exact WF_Set h key value
  | Remove key => exact WF_Remove h key
  | subscript key => exact WF_subscript h key

theorem run_concat [Inhabited P] (hash_fn_ : T → Nat) (ops : List (Op T P)) (op : Op T P) :
    HashTable.run hash_fn_ (ops ++ [op]) = (HashTable.run hash_fn_ ops).step hash_fn_ op := by
  simp [HashTable.run, List.foldl_append]

theorem WF_run [Inhabited P] (hash_fn_ : T → Nat) (ops : List (Op T P)) :
    WF hash_fn_ (HashTable.run hash_fn_ ops) := by
  induction ops using List.reverseRecOn with
  | nil => exact WF_init hash_fn_
  | append_singleton ops op ih => rw [run_concat]; exact WF_step ih op

theorem Reachable.wf [Inhabited P] {hash_fn_ : T → Nat} {t : HashTable T P}
    (h : Reachable hash_fn_ t) : WF hash_fn_ t := by
  obtain ⟨ops, rfl⟩ := h
  exact WF_run hash_fn_ ops

end Invariant

/-! ## `Array::Push` and `Keys()` -/

section KeysArray

variable {T P : Type} [DecidableEq T]

theorem getD_set_cell {α : Type} (L : List α) (i j : Nat) (x d : α) :
    (L.set i x).getD j d = if i = j ∧ i < L.length then x else L.getD j d := by
  simp only [List.getD_eq_getElem?_getD, List.getElem?_set]
  by_cases hij : i = j
  · subst hij
    by_cases hi : i < L.length
    · simp [hi]
    · simp [hi, List.getElem?_eq_none (not_lt.mp hi)]
  · simp [hij]

theorem reduceOption_map_some' {α : Type} (l : List α) : (l.map some).reduceOption = l := by
  induction l with
  | nil => rfl
  | cons x l ih => simp [List.reduceOption_cons_of_some, ih]

theorem Array.Holds.toList_eq {a : Array T} {l : List T} (h : a.Holds l) : a.toList = l := by
  unfold Array.toList
  have : a.data_.take a.size_ = l.map some := by
    apply List.ext_getElem?
    intro j
    by_cases hj : j < a.size_
    · have hj2 : j < a.data_.length := by rw [h.block]; exact lt_of_lt_of_le hj h.room
      have hj3 : j < l.length := by rw [← h.size]; exact hj
      have hc := h.cell j hj
      rw [List.getD_eq_getElem?_getD, List.getElem?_eq_getElem hj2,
        List.getElem?_eq_getElem hj3] at hc
      simp only [Option.getD_some] at hc
      rw [List.getElem?_take_of_lt hj, List.getElem?_eq_getElem hj2, hc]
      simp [List.getElem?_eq_getElem hj3]
    · have hj2 := not_lt.mp hj
      rw [List.getElem?_eq_none (by simp; omega),
        List.getElem?_eq_none (by simp; rw [← h.size]; exact hj2)]
  rw [this, reduceOption_map_some']

theorem Array.Holds.Size_eq {a : Array T} {l : List T} (h : a.Holds l) :
    a.Size = l.length := h.size

theorem Array.Holds_init : (Array.init : Array T).Holds [] where
  size := rfl
  block := by simp [Array.init]
  room := by simp [Array.init]
  pos := by simp [Array.init]
  cell := by intro j hj; simp [Array.init] at hj

theorem Array.Holds_withCapacity (capacity : Nat) (hc : 0 < capacity) :
    (Array.withCapacity capacity : Array T).Holds [] where
  size := rfl
  block := by simp [Array.withCapacity]
  room := by simp [Array.withCapacity]
  pos := hc
  cell := by intro j hj; simp [Array.withCapacity] at hj

theorem copy_fold (D : List (Option T)) (cap n : Nat) :
    ((List.range n).foldl (fun nd i => nd.set i (D.getD i none))
        (List.replicate cap none)).length = cap ∧
    ∀ j, ((List.range n).foldl (fun nd i => nd.set i (D.getD i none))
        (List.replicate cap none)).getD j none
      = if j < n ∧ j < cap then D.getD j none else none := by
  induction n with
  | zero =>
    refine ⟨by simp, fun j => ?_⟩
    simp only [List.range_zero, List.foldl_nil, List.getD_eq_getElem?_getD,
      List.getElem?_replicate]
    split <;> simp
  | succ n ih =>
    rw [List.range_succ, List.foldl_append]
    simp only [List.foldl_cons, List.foldl_nil, List.length_set]
    refine ⟨ih.1, ?_⟩
    intro j
    rw [getD_set_cell, ih.1, ih.2]
    by_cases hjn : n = j
    · subst hjn
      by_cases hc : n < cap <;> simp [hc]
    · by_cases h1 : j < n
      · have : j < n + 1 := by omega
        simp [hjn, h1, this]
      · have : ¬ j < n + 1 := by omega
        simp [hjn, h1, this]

theorem Array.Holds.Push {a : Array T} {l : List T} (h : a.Holds l) (value : T) :
    (a.Push value).Holds (l ++ [value]) := by
  unfold Array.Push
  by_cases hfull : a.size_ = a.capacity_
  · simp only [hfull, if_true, Array.Resize]
    have hc := copy_fold a.data_ (a.capacity_ * 2) a.capacity_
    have hpos := h.pos
    refine ⟨by simp [← h.size, hfull], by simp only [List.length_set]; exact hc.1,
      by simp; omega, by simp; omega, ?_⟩
    intro j hj
    simp only at hj
    rw [getD_set_cell, hc.1, hc.2]
    by_cases hjn : a.capacity_ = j
    · subst hjn
      have : a.capacity_ < a.capacity_ * 2 := by omega
      have hl : l.length = a.capacity_ := by rw [← h.size, hfull]
      rw [if_pos ⟨rfl, this⟩, ← hl]
      simp
    · have hj2 : j < a.capacity_ := by omega
      have hj3 : j < a.capacity_ * 2 := by omega
      have hj4 : j < l.length := by rw [← h.size, hfull]; exact hj2
      simp only [hjn, false_and, if_false, hj2, hj3, and_self, if_true]
      rw [h.cell j (by rw [hfull]; exact hj2), List.getElem?_append_left hj4]
  · simp only [hfull, if_false]
    have hroom := h.room
    have hlt : a.size_ < a.capacity_ := by omega
    refine ⟨by simp [← h.size], by simp [h.block], by simp; omega, h.pos, ?_⟩
    intro j hj
    simp only at hj
    rw [getD_set_cell, h.block]
    by_cases hjn : a.size_ = j
    · subst hjn
      rw [if_pos ⟨rfl, hlt⟩, h.size]
      simp
    · have hj2 : j < a.size_ := by omega
      have hj4 : j < l.length := by rw [← h.size]; exact hj2
      simp only [hjn, false_and, if_false]
      rw [h.cell j hj2, List.getElem?_append_left hj4]

/-- On an array that holds `l` in a block of positive capacity, `Push` appends: the size
grows by one, the elements are `l` followed by the value, and the size stays within the
capacity. -/
theorem Array.Push_appends {a : Array T} {l : List T} (h : a.Holds l) (value : T) :
    (a.Push value).Size = a.Size + 1 ∧
    (a.Push value).toList = a.toList ++ [value] ∧
    (a.Push value).Size ≤ (a.Push value).Capacity := by
  have hp := h.Push value
  refine ⟨?_, ?_, hp.room⟩
  · rw [hp.Size_eq, h.Size_eq, List.length_append, List.length_singleton]
  · rw [hp.toList_eq, h.toList_eq]

theorem Array.Holds_fold (ns : List (HashNode T P)) (a : Array T) (l : List T)
    (h : a.Holds l) :
    (ns.foldl (fun acc temp => acc.Push temp.key) a).Holds (l ++ ns.map HashNode.key) := by
  induction ns generalizing a l with
  | nil => simpa using h
  | cons n ns ih =>
    have := ih (a.Push n.key) (l ++ [n.key]) (h.Push n.key)
    simpa using this

theorem Keys_Holds (t : HashTable T P) (hlen : t.data_map.length = t.current_size_) :
    t.Keys.Holds (t.nodes.map HashNode.key) := by
  unfold HashTable.Keys
  rw [← hlen, foldl_range_getD]
  have := Array.Holds_fold t.data_map.flatten Array.init [] Array.Holds_init
  simpa [HashTable.nodes] using this

theorem Keys_toList (t : HashTable T P) (hlen : t.data_map.length = t.current_size_) :
    t.Keys.toList = t.nodes.map HashNode.key := (Keys_Holds t hlen).toList_eq

theorem Keys_Size (t : HashTable T P) (hlen : t.data_map.length = t.current_size_) :
    t.Keys.Size = t.nodes.length := by
  rw [(Keys_Holds t hlen).Size_eq, List.length_map]

end KeysArray

/-! ## What each call does to the set of nodes -/

section Effects

variable {T P : Type} [DecidableEq T]

theorem mem_nodes_Set {hash_fn_ : T → Nat} {t : HashTable T P} (h : WF hash_fn_ t) (key : T)
    (value : P) (n : HashNode T P) :
    n ∈ (t.Set hash_fn_ key value).nodes ↔
      n = { key := key, value := value } ∨ (n.key ≠ key ∧ n ∈ t.nodes) := by
  cases hf : t.Find hash_fn_ key with
  | true =>
    rw [Set_found h key value hf, nodes_overwrite, List.mem_map]
    obtain ⟨m0, hm0, hk0⟩ := List.mem_map.mp ((h.Find_iff key).mp hf)
    constructor
    · rintro ⟨m, hm, rfl⟩
      by_cases e : m.key = key
      · left; simp [overwrite, e]
      · right; simp [overwrite, e, hm]
    · rintro (rfl | ⟨hne, hn⟩)
      · exact ⟨m0, hm0, by simp [overwrite, hk0]⟩
      · exact ⟨n, hn, by simp [overwrite, hne]⟩
  | false =>
    have hk := (h.Find_false_iff key).mp hf
    rw [Set_absent hash_fn_ t key value hf, (nodes_insertHead_perm h key value).mem_iff,
      List.mem_cons]
    constructor
    · rintro (e | hn)
      · exact Or.inl e
      · exact Or.inr ⟨fun e => hk (e ▸ List.mem_map_of_mem HashNode.key hn), hn⟩
    · rintro (e | ⟨_, hn⟩)
      · exact Or.inl e
      · exact Or.inr hn

theorem mem_nodes_Remove {hash_fn_ : T → Nat} {t : HashTable T P} (h : WF hash_fn_ t)
    (key : T) (n : HashNode T P) :
    n ∈ (t.Remove hash_fn_ key).2.nodes ↔ n.key ≠ key ∧ n ∈ t.nodes := by
  cases hf : t.Find hash_fn_ key with
  | true =>
    rw [Remove_found h key hf, nodes_filter, List.mem_filter]
    simp [keyIsNot, and_comm]
  | false =>
    have hk := (h.Find_false_iff key).mp hf
    rw [Remove_absent hash_fn_ t key hf]
    constructor
    · intro hn
      exact ⟨fun e => hk (e ▸ List.mem_map_of_mem HashNode.key hn), hn⟩
    · exact fun hn => hn.2

theorem mem_nodes_subscript [Inhabited P] {hash_fn_ : T → Nat} {t : HashTable T P}
    (h : WF hash_fn_ t) (key : T) (n : HashNode T P) :
    n ∈ (t.subscript hash_fn_ key).2.nodes ↔
      n ∈ t.nodes ∨ (t.Find hash_fn_ key = false ∧ n = { key := key, value := default }) := by
  cases hf : t.Find hash_fn_ key with
  | true => rw [(subscript_found hash_fn_ t key hf).1]; simp
  | false =>
    rw [subscript_absent hash_fn_ t key hf, (nodes_insertHead_perm h key default).mem_iff,
      List.mem_cons]
    simp [or_comm]

theorem Get_cases (hash_fn_ : T → Nat) (t : HashTable T P) (key : T) :
    (t.Get hash_fn_ key).1 = Except.error "Key not found" ∨
      ∃ value, (t.Get hash_fn_ key).1 = Except.ok value := by
  cases hf : t.Find hash_fn_ key with
  | true => exact Or.inr (Get_ok_of_Find hash_fn_ t key hf)
  | false => exact Or.inl ((Get_error_iff hash_fn_ t key).mpr hf)

/-- Two well-formed tables that store the same values under `key` answer `Get(key)` alike. -/
theorem Get_congr {hash_fn_ : T → Nat} {t t2 : HashTable T P} (h : WF hash_fn_ t)
    (h2 : WF hash_fn_ t2) (key : T)
    (hm : ∀ value : P, ({ key := key, value := value } : HashNode T P) ∈ t.nodes ↔
      ({ key := key, value := value } : HashNode T P) ∈ t2.nodes) :
    (t2.Get hash_fn_ key).1 = (t.Get hash_fn_ key).1 := by
  rcases Get_cases hash_fn_ t key with he | ⟨v, hv⟩
  · rcases Get_cases hash_fn_ t2 key with he2 | ⟨v2, hv2⟩
    · rw [he, he2]
    · have := (h.Get_ok_iff key v2).mpr ((hm v2).mpr ((h2.Get_ok_iff key v2).mp hv2))
      rw [he] at this; cases this
  · rw [hv]
    exact (h2.Get_ok_iff key v).mpr ((hm v).mp ((h.Get_ok_iff key v).mp hv))

/-- Two well-formed tables with the same keys answer `Find` alike. -/
theorem Find_congr {hash_fn_ : T → Nat} {t t2 : HashTable T P} (h : WF hash_fn_ t)
    (h2 : WF hash_fn_ t2) (key : T)
    (hm : key ∈ t.nodes.map HashNode.key ↔ key ∈ t2.nodes.map HashNode.key) :
    t2.Find hash_fn_ key = t.Find hash_fn_ key := by
  cases hf : t.Find hash_fn_ key with
  | true => exact (h2.Find_iff key).mpr (hm.mp ((h.Find_iff key).mp hf))
  | false =>
    exact (h2.Find_false_iff key).mpr (fun hk => (h.Find_false_iff key).mp hf (hm.mpr hk))

theorem mem_nodes_step [Inhabited P] {hash_fn_ : T → Nat} {t : HashTable T P}
    (h : WF hash_fn_ t) (key : T) (value : P) (op : Op T P)
    (hop : op ≠ Op.Remove key ∧ ∀ v, op ≠ Op.Set key v)
    (hn : ({ key := key, value := value } : HashNode T P) ∈ t.nodes) :
    ({ key := key, value := value } : HashNode T P) ∈ (t.step hash_fn_ op).nodes := by
  cases op with
  | Set k v =>
    have hne : key ≠ k := fun e => hop.2 v (by rw [e])
    exact (mem_nodes_Set h k v _).mpr (Or.inr ⟨hne, hn⟩)
  | Remove k =>
    have hne : key ≠ k := fun e => hop.1 (by rw [e])
    exact (mem_nodes_Remove h k _).mpr ⟨hne, hn⟩
  | subscript k => exact (mem_nodes_subscript h k _).mpr (Or.inl hn)

theorem run_append [Inhabited P] (hash_fn_ : T → Nat) (ops post : List (Op T P)) :
    HashTable.run hash_fn_ (ops ++ post)
      = post.foldl (HashTable.step hash_fn_) (HashTable.run hash_fn_ ops) := by
  simp [HashTable.run, List.foldl_append]

theorem mem_nodes_foldl [Inhabited P] {hash_fn_ : T → Nat} (key : T) (value : P)
    (post : List (Op T P)) (hpost : ∀ op ∈ post, op ≠ Op.Remove key ∧ ∀ v, op ≠ Op.Set key v)
    (t : HashTable T P) (h : WF hash_fn_ t)
    (hn : ({ key := key, value := value } : HashNode T P) ∈ t.nodes) :
    WF hash_fn_ (post.foldl (HashTable.step hash_fn_) t) ∧
    ({ key := key, value := value } : HashNode T P)
      ∈ (post.foldl (HashTable.step hash_fn_) t).nodes := by
  induction post generalizing t with
  | nil => exact ⟨h, hn⟩
  | cons op post ih =>
    rw [List.foldl_cons]
    exact ih (fun o ho => hpost o (List.mem_cons_of_mem op ho)) _ (WF_step h op)
      (mem_nodes_step h key value op (hpost op (List.mem_cons_self op post)) hn)

end Effects

section MoreEffects

variable {T P : Type} [DecidableEq T]

theorem Remove_current_size (hash_fn_ : T → Nat) (t : HashTable T P) (key : T) :
    (t.Remove hash_fn_ key).2.current_size_ = t.current_size_ := by
  unfold HashTable.Remove
  dsimp only
  cases removeWalk key (t.data_map.getD (Hash hash_fn_ key t.current_size_) []) <;> rfl

theorem nodes_Remove {hash_fn_ : T → Nat} {t : HashTable T P} (h : WF hash_fn_ t) (key : T) :
    (t.Remove hash_fn_ key).2.nodes = t.nodes.filter (keyIsNot key) := by
  cases hf : t.Find hash_fn_ key with
  | true => rw [Remove_found h key hf, nodes_filter]
  | false =>
    have hk := (h.Find_false_iff key).mp hf
    rw [Remove_absent hash_fn_ t key hf]
    symm
    rw [List.filter_eq_self]
    intro m hm
    have : m.key ≠ key := fun e => hk (e ▸ List.mem_map_of_mem HashNode.key hm)
    simp [keyIsNot, this]

theorem map_key_filter_keyIsNot (l : List (HashNode T P)) (key : T) :
    (l.filter (keyIsNot key)).map HashNode.key
      = (l.map HashNode.key).filter (fun k => decide (k ≠ key)) := by
  rw [List.filter_map]
  rfl

theorem key_mem_nodes_Remove {hash_fn_ : T → Nat} {t : HashTable T P} (h : WF hash_fn_ t)
    (a b : T) :
    b ∈ (t.Remove hash_fn_ a).2.nodes.map HashNode.key ↔
      b ≠ a ∧ b ∈ t.nodes.map HashNode.key := by
  rw [nodes_Remove h, map_key_filter_keyIsNot, List.mem_filter]
  simp [and_comm]

theorem sum_range_lengths {α : Type} (L : List (List α)) :
    ((List.range L.length).map (fun i => (L.getD i []).length)).sum = L.flatten.length := by
  rw [List.length_flatten]
  congr 1
  apply List.ext_getElem
  · simp
  · intro i h1 h2
    have hi : i < L.length := by simpa using h2
    simp [List.getD_eq_getElem?_getD, List.getElem?_eq_getElem hi]

end MoreEffects

/-! ## Counters and the load factor -/

section LoadFactor

variable {T P : Type} [DecidableEq T]

theorem insertHead_total (hash_fn_ : T → Nat) (t : HashTable T P) (index : Nat)
    (node : HashNode T P) :
    (t.insertHead hash_fn_ index node).total_entries_ = t.total_entries_ + 1 := by
  unfold HashTable.insertHead
  split <;> rfl

theorem insertHead_size (hash_fn_ : T → Nat) (t : HashTable T P) (index : Nat)
    (node : HashNode T P) :
    (t.insertHead hash_fn_ index node).current_size_
      = if loadFactorExceeded (t.total_entries_ + 1) t.current_size_
        then t.current_size_ * 2 else t.current_size_ := by
  unfold HashTable.insertHead
  show (if loadFactorExceeded (t.total_entries_ + 1) t.current_size_ = true
    then (t.link index node).Resize hash_fn_ else t.link index node).current_size_ = _
  split <;> rfl

/-- Each call either keeps the bucket count and does not raise the entry count, or it
inserts one node and runs the load-factor test on the new count. -/
theorem step_counts [Inhabited P] {hash_fn_ : T → Nat} {t : HashTable T P}
    (h : WF hash_fn_ t) (op : Op T P) :
    ((t.step hash_fn_ op).current_size_ = t.current_size_ ∧
      (t.step hash_fn_ op).total_entries_ ≤ t.total_entries_) ∨
    ((t.step hash_fn_ op).total_entries_ = t.total_entries_ + 1 ∧
      (t.step hash_fn_ op).current_size_
        = if loadFactorExceeded (t.total_entries_ + 1) t.current_size_
          then t.current_size_ * 2 else t.current_size_) := by
  cases op with
  | Set key value =>
    simp only [HashTable.step]
    cases hf : t.Find hash_fn_ key with
    | true => left; rw [Set_found h key value hf]; exact ⟨rfl, le_rfl⟩
    | false =>
      right
      rw [Set_absent hash_fn_ t key value hf]
      exact ⟨insertHead_total _ _ _ _, insertHead_size _ _ _ _⟩
  | Remove key =>
    simp only [HashTable.step]
    left
    refine ⟨Remove_current_size hash_fn_ t key, ?_⟩
    cases hf : t.Find hash_fn_ key with
    | true => rw [Remove_found h key hf]; exact Nat.sub_le _ _
    | false => rw [Remove_absent hash_fn_ t key hf]
  | subscript key =>
    simp only [HashTable.step]
    cases hf : t.Find hash_fn_ key with
    | true =>
      left
      rw [(subscript_found hash_fn_ t key hf).1]
      exact ⟨rfl, le_rfl⟩
    | false =>
      right
      rw [subscript_absent hash_fn_ t key hf]
      exact ⟨insertHead_total _ _ _ _, insertHead_size _ _ _ _⟩

/-- The bucket count of a reachable state is `7 * 2 ^ k`. -/
theorem Reachable.size_eq [Inhabited P] {hash_fn_ : T → Nat} {t : HashTable T P}
    (h : Reachable hash_fn_ t) : ∃ k, t.current_size_ = 7 * 2 ^ k := by
  obtain ⟨ops, rfl⟩ := h
  induction ops using List.reverseRecOn with
  | nil => exact ⟨0, rfl⟩
  | append_singleton ops op ih =>
    obtain ⟨k, hk⟩ := ih
    rw [run_concat]
    rcases step_counts (WF_run hash_fn_ ops) op with ⟨h1, _⟩ | ⟨_, h2⟩
    · exact ⟨k, by rw [h1, hk]⟩
    · rw [h2]
      split
      · exact ⟨k + 1, by rw [hk, pow_succ]; ring⟩
      · exact ⟨k, hk⟩

/-- Below 29 360 128 buckets the binary32 test is the exact test `entries / buckets > 3/4`. -/
theorem loadFactorExceeded_iff_ratio (n k : Nat) (hk : 7 * 2 ^ k ≤ 14680064)
    (hn : n < 2 ^ 24) :
    loadFactorExceeded n (7 * 2 ^ k) = true ↔ 3 * (7 * 2 ^ k) < 4 * n := by
  have hpos : 0 < 2 ^ k := Nat.two_pow_pos k
  rw [loadFactorExceeded_iff_exact n (7 * 2 ^ k) hn (by norm_num; omega) (by omega)]
  rcases k with _ | _ | k
  · norm_num; omega
  · norm_num; omega
  · have e : 7 * 2 ^ (k + 1 + 1) = 4 * (7 * 2 ^ k) := by rw [pow_succ, pow_succ]; ring
    rw [e] at hk ⊢
    omega

/-- The load-factor bound in exact arithmetic, for every reachable state with fewer than
29 360 128 buckets. -/
theorem load_factor_below_29360128 [Inhabited P] (hash_fn_ : T → Nat) (t : HashTable T P)
    (h : Reachable hash_fn_ t) (hb : t.current_size_ ≤ 14680064) :
    4 * t.total_entries_ ≤ 3 * t.current_size_ := by
  obtain ⟨ops, rfl⟩ := h
  induction ops using List.reverseRecOn with
  | nil => simp [HashTable.run, HashTable.init]
  | append_singleton ops op ih =>
    have hr : Reachable hash_fn_ (HashTable.run hash_fn_ ops) := ⟨ops, rfl⟩
    obtain ⟨k, hk⟩ := hr.size_eq
    have hpos : 0 < 2 ^ k := Nat.two_pow_pos k
    rw [run_concat] at hb ⊢
    rcases step_counts (WF_run hash_fn_ ops) op with ⟨h1, h2⟩ | ⟨h1, h2⟩
    · rw [h1] at hb ⊢
      have := ih hb
      omega
    · rw [h2] at hb ⊢
      rw [h1]
      have hb0 : (HashTable.run hash_fn_ ops).current_size_ ≤ 14680064 := by
        split at hb <;> omega
      have h0 := ih hb0
      have hn : (HashTable.run hash_fn_ ops).total_entries_ + 1 < 2 ^ 24 := by
        norm_num; omega
      have hex := loadFactorExceeded_iff_ratio
        ((HashTable.run hash_fn_ ops).total_entries_ + 1) k (by rw [← hk]; exact hb0) hn
      rw [← hk] at hex
      split
      · omega
      · rename_i hne
        have := mt hex.mpr hne
        omega

/-- Counters and keys after `Set` calls with pairwise distinct keys on a fresh table. -/
theorem run_distinct [Inhabited P] (hash_fn_ : T → Nat) (kvs : List (T × P))
    (hd : (kvs.map Prod.fst).Nodup) :
    (HashTable.run hash_fn_ (kvs.map (fun kv => Op.Set kv.1 kv.2))).total_entries_
      = kvs.length ∧
    (HashTable.run hash_fn_ (kvs.map (fun kv => Op.Set kv.1 kv.2))).current_size_
      = growth kvs.length ∧
    ∀ key, key ∈ (HashTable.run hash_fn_
        (kvs.map (fun kv => Op.Set kv.1 kv.2))).nodes.map HashNode.key ↔
      key ∈ kvs.map Prod.fst := by
  induction kvs using List.reverseRecOn with
  | nil =>
    refine ⟨rfl, rfl, fun key => ?_⟩
    have : (HashTable.run hash_fn_ ([] : List (Op T P))).nodes = [] := by
      show (List.replicate 7 ([] : List (HashNode T P))).flatten = []
      exact flatten_replicate_nil' 7
    simp [this]
  | append_singleton kvs kv ih =>
    rw [List.map_append, List.nodup_append] at hd
    obtain ⟨hd1, _, hd3⟩ := hd
    obtain ⟨i1, i2, i3⟩ := ih hd1
    have hw := WF_run hash_fn_ (kvs.map (fun kv => Op.Set kv.1 kv.2))
    have hnew : kv.1 ∉ kvs.map Prod.fst := fun hm => hd3 hm (by simp)
    have hf : (HashTable.run hash_fn_ (kvs.map (fun kv => Op.Set kv.1 kv.2))).Find hash_fn_ kv.1
        = false := (hw.Find_false_iff kv.1).mpr (fun hm => hnew ((i3 kv.1).mp hm))
    rw [List.map_append, List.map_singleton, run_concat]
    simp only [HashTable.step, List.length_append, List.length_singleton]
    refine ⟨?_, ?_, ?_⟩
    · rw [Set_absent hash_fn_ _ _ _ hf, insertHead_total, i1]
    · rw [Set_absent hash_fn_ _ _ _ hf, insertHead_size, i1, i2]
      rfl
    · intro key
      rw [List.mem_map]
      constructor
      · rintro ⟨n, hn, rfl⟩
        rcases (mem_nodes_Set hw kv.1 kv.2 n).mp hn with e | ⟨_, hm⟩
        · rw [e]; simp
        · have := (i3 n.key).mp (List.mem_map_of_mem HashNode.key hm)
          simp only [List.map_append, List.mem_append]
          exact Or.inl this
      · intro hk
        simp only [List.map_append, List.mem_append, List.map_singleton,
          List.mem_singleton] at hk
        by_cases e : key = kv.1
        · exact ⟨_, (mem_nodes_Set hw kv.1 kv.2 _).mpr (Or.inl rfl), e.symm⟩
        · rcases hk with hk | hk
          · obtain ⟨n, hn, rfl⟩ := List.mem_map.mp ((i3 key).mpr hk)
            exact ⟨n, (mem_nodes_Set hw kv.1 kv.2 n).mpr (Or.inr ⟨e, hn⟩), rfl⟩
          · exact absurd hk e

/-! ### The bucket count along a run of insertions -/

theorem growth_stay (m a b : Nat) (hab : a ≤ b) (hs : growth a = m)
    (hno : ∀ j, a < j → j ≤ b → loadFactorExceeded j m = false) : growth b = m := by
  induction b, hab using Nat.le_induction with
  | base => exact hs
  | succ b hb ih =>
    have h1 := ih (fun j h1 h2 => hno j h1 (Nat.le_succ_of_le h2))
    have h2 := hno (b + 1) (Nat.lt_succ_of_le hb) le_rfl
    simp only [growth, h1, h2]
    rfl

theorem growth_jump (m a : Nat) (hs : growth a = m)
    (hj : loadFactorExceeded (a + 1) m = true) : growth (a + 1) = m * 2 := by
  simp only [growth, hs, hj, if_true]

/-- One level: from `m` buckets the table doubles at the first entry count `T` with
`T / m > 3/4`, and not before. -/
theorem growth_level (m T a : Nat) (hm0 : 0 < m) (hm : m < 2 ^ 24) (hT : T < 2 ^ 24)
    (hlow : 4 * (T - 1) ≤ 3 * m) (hjump : loadFactorExceeded T m = true) (ha : a < T)
    (hs : growth a = m) : growth T = m * 2 := by
  have h1 : growth (T - 1) = m := by
    apply growth_stay m a (T - 1) (by omega) hs
    intro j _ hj2
    rw [← Bool.not_eq_true, loadFactorExceeded_iff_exact j m (by omega) hm hm0]
    omega
  have h2 := growth_jump m (T - 1) h1 (by rw [Nat.sub_add_cancel (by omega)]; exact hjump)
  rwa [Nat.sub_add_cancel (by omega)] at h2

theorem growth_levels (k : Nat) (hk : k ≤ 21) :
    growth (3 * (7 * 2 ^ k) / 4 + 1) = 7 * 2 ^ (k + 1) := by
  induction k with
  | zero =>
    exact growth_level 7 6 0 (by norm_num) (by norm_num) (by norm_num) (by norm_num)
      (by decide) (by norm_num) rfl
  | succ k ih =>
    have h0 := ih (by omega)
    have hk2 : k ≤ 20 := by omega
    have e : 7 * 2 ^ (k + 1 + 1) = 7 * 2 ^ (k + 1) * 2 := by rw [pow_succ 2 (k + 1)]; ring
    rw [e]
    apply growth_level (7 * 2 ^ (k + 1)) (3 * (7 * 2 ^ (k + 1)) / 4 + 1)
      (3 * (7 * 2 ^ k) / 4 + 1) _ _ _ _ _ _ h0
    all_goals interval_cases k <;> decide

theorem bitLength_eq_25 (j : Nat) (h1 : 2 ^ 24 ≤ j) (h2 : j < 2 ^ 25) : bitLength j = 25 := by
  have hle := bitLength_le_of_lt j 25 h2
  obtain ⟨_, l2, _⟩ := bitLength_spec j (by omega)
  by_contra hne
  have : bitLength j ≤ 24 := by omega
  have := Nat.pow_le_pow_right (show 0 < 2 by norm_num) this
  omega

/-- With 29 360 128 buckets the test does not fire up to 22 020 097 entries: the cast
rounds 22 020 097 down to 22 020 096, and 22 020 096 / 29 360 128 is exactly 0.75. -/
theorem no_resize_at_29360128 (j : Nat) (hj : j ≤ 22020097) :
    loadFactorExceeded j 29360128 = false := by
  have hm : intToFloat 29360128 = 29360128 := by decide
  rw [← Bool.not_eq_true, loadFactorExceeded_iff j 29360128 (by rw [hm]; norm_num)
    (by norm_num), hm]
  have hle : intToFloat j ≤ 22020096 := by
    by_cases hsmall : j < 2 ^ 24
    · rw [intToFloat_exact j hsmall]; norm_num at hsmall; omega
    · have hb := bitLength_eq_25 j (not_lt.mp hsmall) (by norm_num; omega)
      unfold intToFloat roundNearestEven
      rw [hb]
      norm_num
      split
      · omega
      · split
        · omega
        · split <;> omega
  omega

theorem growth_11010049 : growth 11010049 = 29360128 := growth_levels 21 (by norm_num)

theorem growth_22020096 : growth 22020096 = 29360128 :=
  growth_stay 29360128 11010049 22020096 (by norm_num) growth_11010049
    (fun j _ h => no_resize_at_29360128 j (by omega))

theorem growth_22020097 : growth 22020097 = 29360128 :=
  growth_stay 29360128 11010049 22020097 (by norm_num) growth_11010049
    (fun j _ h => no_resize_at_29360128 j h)

theorem run_distinctSets (hash_fn_ : Nat → Nat) (n : Nat) :
    (HashTable.run hash_fn_ (distinctSets n)).total_entries_ = n ∧
    (HashTable.run hash_fn_ (distinctSets n)).current_size_ = growth n ∧
    (HashTable.run hash_fn_ (distinctSets n)).Find hash_fn_ n = false := by
  have hkeys : ((List.range n).map (fun k => ((k, 0) : Nat × Nat))).map Prod.fst
      = List.range n := by
    rw [List.map_map]
    exact List.map_id _
  have hops : ((List.range n).map (fun k => ((k, 0) : Nat × Nat))).map
      (fun kv => Op.Set kv.1 kv.2) = distinctSets n := by
    rw [List.map_map]
    rfl
  have h := run_distinct hash_fn_ ((List.range n).map (fun k => ((k, 0) : Nat × Nat)))
    (by rw [hkeys]; exact List.nodup_range n)
  rw [hops, hkeys, List.length_map, List.length_range] at h
  refine ⟨h.1, h.2.1, ?_⟩
  rw [(WF_run hash_fn_ _).Find_false_iff, h.2.2]
  exact fun hm => absurd (List.mem_range.mp hm) (lt_irrefl n)

/-- While fewer than 29 360 128 buckets are in use, an inserting `Set` resizes exactly when
the new entry count exceeds three quarters of the bucket count. -/
theorem Set_resizes_iff_below_29360128 [Inhabited P] (hash_fn_ : T → Nat) (t : HashTable T P)
    (h : Reachable hash_fn_ t) (hb : t.current_size_ ≤ 14680064) (key : T) (value : P)
    (hf : t.Find hash_fn_ key = false) :
    (t.Set hash_fn_ key value).current_size_
      = if 3 * t.current_size_ < 4 * (t.total_entries_ + 1)
        then t.current_size_ * 2 else t.current_size_ := by
  obtain ⟨k, hk⟩ := h.size_eq
  have hlf := load_factor_below_29360128 hash_fn_ t h hb
  have hex := loadFactorExceeded_iff_ratio (t.total_entries_ + 1) k (by rw [← hk]; exact hb)
    (by norm_num; omega)
  rw [← hk] at hex
  rw [Set_absent hash_fn_ t key value hf, insertHead_size]
  by_cases c : 3 * t.current_size_ < 4 * (t.total_entries_ + 1)
  · rw [if_pos c, if_pos (hex.mpr c)]
  · rw [if_neg c, if_neg (fun hc => c (hex.mp hc))]

/-- The same for the auto-insert of `operator[]`. -/
theorem subscript_resizes_iff_below_29360128 [Inhabited P] (hash_fn_ : T → Nat)
    (t : HashTable T P) (h : Reachable hash_fn_ t) (hb : t.current_size_ ≤ 14680064) (key : T)
    (hf : t.Find hash_fn_ key = false) :
    (t.subscript hash_fn_ key).2.current_size_
      = if 3 * t.current_size_ < 4 * (t.total_entries_ + 1)
        then t.current_size_ * 2 else t.current_size_ := by
  have := Set_resizes_iff_below_29360128 hash_fn_ t h hb key default hf
  rw [Set_absent hash_fn_ t key default hf] at this
  rw [subscript_absent hash_fn_ t key hf]
  exact this

/-- Five distinct keys leave a fresh table at 7 buckets, the sixth takes it to 14. -/
theorem six_distinct_keys [Inhabited P] (hash_fn_ : T → Nat) (kvs : List (T × P))
    (kv : T × P) (hd : ((kvs ++ [kv]).map Prod.fst).Nodup) (hlen : kvs.length = 5) :
    (HashTable.run hash_fn_ (kvs.map (fun kv => Op.Set kv.1 kv.2))).current_size_ = 7 ∧
    ((HashTable.run hash_fn_ (kvs.map (fun kv => Op.Set kv.1 kv.2))).Set hash_fn_
      kv.1 kv.2).current_size_ = 14 := by
  have hd1 : (kvs.map Prod.fst).Nodup := by
    rw [List.map_append] at hd
    exact (List.nodup_append.mp hd).1
  have h1 := (run_distinct hash_fn_ kvs hd1).2.1
  have h2 := (run_distinct hash_fn_ (kvs ++ [kv]) hd).2.1
  rw [List.map_append, List.map_singleton, run_concat] at h2
  simp only [HashTable.step, List.length_append, List.length_singleton, hlen] at h1 h2
  exact ⟨h1.trans (by decide), h2.trans (by decide)⟩

end LoadFactor

/-! ## Bucket count, placement and order -/

section Shape

variable {T P : Type} [DecidableEq T]

theorem Set_current_size (hash_fn_ : T → Nat) (t : HashTable T P) (key : T) (value : P) :
    (t.Set hash_fn_ key value).current_size_ = t.current_size_ ∨
      (t.Set hash_fn_ key value).current_size_ = t.current_size_ * 2 := by
  unfold HashTable.Set
  dsimp only
  cases setWalk key value (t.data_map.getD (Hash hash_fn_ key t.current_size_) []) with
  | some c => exact Or.inl rfl
  | none =>
    dsimp only
    split
    · exact Or.inr rfl
    · exact Or.inl rfl

theorem subscript_current_size [Inhabited P] (hash_fn_ : T → Nat) (t : HashTable T P)
    (key : T) :
    (t.subscript hash_fn_ key).2.current_size_ = t.current_size_ ∨
      (t.subscript hash_fn_ key).2.current_size_ = t.current_size_ * 2 := by
  cases hf : t.Find hash_fn_ key with
  | true => rw [(subscript_found hash_fn_ t key hf).1]; exact Or.inl rfl
  | false =>
    rw [subscript_absent hash_fn_ t key hf, insertHead_size]
    split
    · exact Or.inr rfl
    · exact Or.inl rfl

theorem map_range_getD {α : Type} (L : List (List α)) :
    (List.range L.length).map (fun i => L.getD i []) = L := by
  apply List.ext_getElem
  · simp
  · intro i h1 h2
    simp [List.getD_eq_getElem?_getD, List.getElem?_eq_getElem h2]

theorem pairwise_le_of_const (l : List Nat) (k : Nat) (h : ∀ x ∈ l, x = k) :
    l.Pairwise (· ≤ ·) := by
  induction l with
  | nil => exact List.Pairwise.nil
  | cons a l ih =>
    refine List.Pairwise.cons ?_ (ih (fun x hx => h x (List.mem_cons_of_mem a hx)))
    intro b hb
    rw [h a (List.mem_cons_self a l), h b (List.mem_cons_of_mem a hb)]

/-- Keys of the chains in bucket order carry non-decreasing bucket indices. -/
theorem pairwise_bucket_index {α : Type} (f : α → Nat) (L : List (List α)) (offset : Nat)
    (hp : ∀ i x, x ∈ L.getD i [] → f x = offset + i) :
    (L.flatten.map f).Pairwise (· ≤ ·) ∧ ∀ y ∈ L.flatten.map f, offset ≤ y := by
  induction L generalizing offset with
  | nil => simp
  | cons c L ih =>
    have hc : ∀ x ∈ c, f x = offset := fun x hx => by simpa using hp 0 x (by simpa using hx)
    have hc2 : ∀ y ∈ c.map f, y = offset := by
      intro y hy
      obtain ⟨x, hx, rfl⟩ := List.mem_map.mp hy
      exact hc x hx
    have hL := ih (offset + 1) (fun i x hx => by
      have := hp (i + 1) x (by simpa using hx)
      omega)
    rw [List.flatten_cons, List.map_append]
    refine ⟨List.pairwise_append.mpr ⟨pairwise_le_of_const _ offset hc2, hL.1, ?_⟩, ?_⟩
    · intro a ha b hb
      have := hL.2 b hb
      rw [hc2 a ha]; omega
    · intro y hy
      rcases List.mem_append.mp hy with hy | hy
      · rw [hc2 y hy]
      · have := hL.2 y hy
        omega

theorem mem_flatten_take {α : Type} (L : List (List α)) (i : Nat) (x : α)
    (hx : x ∈ (L.take i).flatten) : ∃ j, j < i ∧ x ∈ L.getD j [] := by
  obtain ⟨j, hj⟩ := (mem_flatten_iff_getD _ x).mp hx
  by_cases hji : j < i
  · refine ⟨j, hji, ?_⟩
    simpa [List.getD_eq_getElem?_getD, List.getElem?_take_of_lt hji] using hj
  · have : (L.take i)[j]? = none := by
      apply List.getElem?_eq_none
      rw [List.length_take]
      omega
    simp [List.getD_eq_getElem?_getD, this] at hj

theorem mem_flatten_drop {α : Type} (L : List (List α)) (i : Nat) (x : α)
    (hx : x ∈ (L.drop i).flatten) : ∃ j, i ≤ j ∧ x ∈ L.getD j [] := by
  obtain ⟨j, hj⟩ := (mem_flatten_iff_getD _ x).mp hx
  refine ⟨i + j, by omega, ?_⟩
  simpa [List.getD_eq_getElem?_getD, List.getElem?_drop] using hj

theorem Set_absent_no_resize (hash_fn_ : T → Nat) (t : HashTable T P) (key : T) (value : P)
    (hf : t.Find hash_fn_ key = false)
    (hno : loadFactorExceeded (t.total_entries_ + 1) t.current_size_ = false) :
    t.Set hash_fn_ key value
      = t.link (Hash hash_fn_ key t.current_size_) { key := key, value := value } := by
  rw [Set_absent hash_fn_ t key value hf]
  unfold HashTable.insertHead
  have : loadFactorExceeded (t.link (Hash hash_fn_ key t.current_size_)
      { key := key, value := value }).total_entries_
      (t.link (Hash hash_fn_ key t.current_size_)
        { key := key, value := value }).current_size_ = false := hno
  rw [this]
  rfl

/-- Linking a new key in front of its bucket puts it, in the bucket-order traversal, after
the keys of the lower buckets and before the keys of its own and the higher buckets. -/
theorem keys_link {hash_fn_ : T → Nat} {t : HashTable T P} (h : WF hash_fn_ t) (key : T)
    (value : P) :
    ∃ A B : List T,
      t.nodes.map HashNode.key = A ++ B ∧
      (t.link (Hash hash_fn_ key t.current_size_)
        { key := key, value := value }).nodes.map HashNode.key = A ++ key :: B ∧
      (∀ x ∈ A, Hash hash_fn_ x t.current_size_ < Hash hash_fn_ key t.current_size_) ∧
      (∀ x ∈ B, Hash hash_fn_ key t.current_size_ ≤ Hash hash_fn_ x t.current_size_) := by
  have hi := h.index_lt key
  refine ⟨((t.data_map.take (Hash hash_fn_ key t.current_size_)).flatten).map HashNode.key,
    ((t.data_map.drop (Hash hash_fn_ key t.current_size_)).flatten).map HashNode.key,
    ?_, ?_, ?_, ?_⟩
  · unfold HashTable.nodes
    rw [← List.map_append, ← List.flatten_append, List.take_append_drop]
  · unfold HashTable.nodes HashTable.link
    dsimp only
    rw [flatten_set _ _ _ hi]
    have hd : (t.data_map.drop (Hash hash_fn_ key t.current_size_)).flatten
        = t.data_map.getD (Hash hash_fn_ key t.current_size_) []
          ++ (t.data_map.drop (Hash hash_fn_ key t.current_size_ + 1)).flatten := by
      have h1 := flatten_split t.data_map _ hi
      have h2 : t.data_map.flatten
          = (t.data_map.take (Hash hash_fn_ key t.current_size_)).flatten
            ++ (t.data_map.drop (Hash hash_fn_ key t.current_size_)).flatten := by
        rw [← List.flatten_append, List.take_append_drop]
      rw [h2] at h1
      exact List.append_cancel_left h1
    rw [hd]
    simp
  · intro x hx
    obtain ⟨n, hn, rfl⟩ := List.mem_map.mp hx
    obtain ⟨j, hj, hm⟩ := mem_flatten_take _ _ n hn
    rw [h.place j n hm]; exact hj
  · intro x hx
    obtain ⟨n, hn, rfl⟩ := List.mem_map.mp hx
    obtain ⟨j, hj, hm⟩ := mem_flatten_drop _ _ n hn
    rw [h.place j n hm]; exact hj

theorem foldl_range_map_flatten {α β : Type} (f : β → α → β) (g : Nat → List α) (n : Nat)
    (init : β) :
    (List.range n).foldl (fun m i => (g i).foldl f m) init
      = ((List.range n).map g).flatten.foldl f init := by
  induction n with
  | zero => rfl
  | succ n ih =>
    rw [List.range_succ, List.foldl_append, List.map_append, List.flatten_append,
      List.foldl_append, ih]
    simp

theorem Resize_data_map_traversal (hash_fn_ : T → Nat) (t : HashTable T P) :
    (t.Resize hash_fn_).data_map
      = t.traversal.foldl (relink hash_fn_ (t.current_size_ * 2))
          (List.replicate (t.current_size_ * 2) []) := by
  unfold HashTable.Resize HashTable.traversal
  dsimp only
  rw [foldl_range_map_flatten]

/-- The new chain of bucket `j` after `Resize()`, for every table state. -/
theorem Resize_getD_traversal (hash_fn_ : T → Nat) (t : HashTable T P) (j : Nat) :
    (t.Resize hash_fn_).data_map.getD j []
      = (t.traversal.filter
          (fun n => decide (Hash hash_fn_ n.key (t.current_size_ * 2) = j))).reverse := by
  rw [Resize_data_map_traversal]
  rcases Nat.eq_zero_or_pos t.current_size_ with h0 | hpos
  · have ht : t.traversal = [] := by
      unfold HashTable.traversal
      rw [h0]
      rfl
    rw [ht, h0]
    rfl
  · rw [relink_fold_getD hash_fn_ _ (by omega) _ _ (by simp), getD_replicate_nil]
    simp

end Shape

/-! ## The claims -/

section Claims

variable {T P : Type} [DecidableEq T]

/-- C1. After any sequence of `Set`, `Remove` and `operator[]` calls on a fresh table, a key
whose last `Set` comes after its last `Remove` (the calls `post` after `Set(key, value)`
contain no `Set(key, _)` and no `Remove(key)`) is returned by `Get` with the value of that
last `Set`, whatever resizes the sequence crosses and whatever the hash function. -/
theorem C1_get_returns_last_set [Inhabited P] (hash_fn_ : T → Nat) (pre post : List (Op T P))
    (key : T) (value : P)
    (hpost : ∀ op ∈ post, op ≠ Op.Remove key ∧ ∀ v, op ≠ Op.Set key v) :
    ((HashTable.run hash_fn_ (pre ++ Op.Set key value :: post)).Get hash_fn_ key).1
      = Except.ok value := by
  rw [run_append, List.foldl_cons]
  have hw := WF_run hash_fn_ pre
  have h1 : ({ key := key, value := value } : HashNode T P)
      ∈ ((HashTable.run hash_fn_ pre).step hash_fn_ (Op.Set key value)).nodes :=
    (mem_nodes_Set hw key value _).mpr (Or.inl rfl)
  obtain ⟨hw2, hn⟩ := mem_nodes_foldl key value post hpost _ (WF_step hw _) h1
  exact (hw2.Get_ok_iff key value).mpr hn

/-- C1 at a concrete call sequence: colliding keys (hash `k % 3`), a `Remove` and a later
`Set` of key 1, then six more insertions, which cross the resize from 7 to 14 buckets. -/
theorem C1_get_returns_last_set_witness :
    (∀ op ∈ [Op.Set 2 20, Op.Set 3 30, Op.Set 4 40, Op.Set 5 50, Op.Set 6 60, Op.Set 7 70,
        Op.subscript 1, Op.Remove 2],
      op ≠ Op.Remove 1 ∧ ∀ v : Nat, op ≠ Op.Set 1 v) ∧
    ((HashTable.run (fun k : Nat => k % 3)
        ([Op.Set 1 10, Op.Remove 1] ++ Op.Set 1 11 ::
          [Op.Set 2 20, Op.Set 3 30, Op.Set 4 40, Op.Set 5 50, Op.Set 6 60, Op.Set 7 70,
            Op.subscript 1, Op.Remove 2])).Get (fun k : Nat => k % 3) 1).1
      = Except.ok 11 :=
  have hpost : ∀ op ∈ [Op.Set 2 20, Op.Set 3 30, Op.Set 4 40, Op.Set 5 50, Op.Set 6 60,
      Op.Set 7 70, Op.subscript 1, Op.Remove 2],
      op ≠ Op.Remove 1 ∧ ∀ v : Nat, op ≠ Op.Set 1 v := by
    intro op hop
    simp only [List.mem_cons, List.mem_singleton, List.not_mem_nil, or_false] at hop
    rcases hop with rfl | rfl | rfl | rfl | rfl | rfl | rfl | rfl <;> simp
  ⟨hpost, C1_get_returns_last_set (fun k : Nat => k % 3) _ _ 1 11 hpost⟩

/-- C2. In every reachable state, `Find(key)` is true exactly when `key` is one of the
elements of the array returned by `Keys()`. -/
theorem C2_find_iff_in_keys [Inhabited P] (hash_fn_ : T → Nat) (t : HashTable T P)
    (h : Reachable hash_fn_ t) (key : T) :
    t.Find hash_fn_ key = true ↔ key ∈ t.Keys.toList := by
  rw [h.wf.Find_iff, Keys_toList t h.wf.len]

/-- C2 on the table built by four `Set` calls with colliding keys. -/
theorem C2_find_iff_in_keys_witness :
    Reachable (fun k : Nat => k % 3)
      (HashTable.run (fun k : Nat => k % 3)
        [Op.Set 1 10, Op.Set 4 40, Op.Set 7 70, Op.Remove 4] : HashTable Nat Nat) ∧
    ((HashTable.run (fun k : Nat => k % 3)
        [Op.Set 1 10, Op.Set 4 40, Op.Set 7 70, Op.Remove 4] : HashTable Nat Nat).Find
          (fun k : Nat => k % 3) 7 = true ↔
      7 ∈ (HashTable.run (fun k : Nat => k % 3)
        [Op.Set 1 10, Op.Set 4 40, Op.Set 7 70, Op.Remove 4] : HashTable Nat Nat).Keys.toList) :=
  ⟨⟨_, rfl⟩, C2_find_iff_in_keys _ _ ⟨_, rfl⟩ 7⟩

/-- C3. In every table state `Get(key)` throws "Key not found" exactly when `Find(key)` is
false, returns a value exactly when `Find(key)` is true, and leaves the table as it was; on
the fresh table `Find` is false and `Get` throws for every key. -/
theorem C3_get_fails_iff_find_false (hash_fn_ : T → Nat) (t : HashTable T P) (key : T) :
    ((t.Get hash_fn_ key).1 = Except.error "Key not found" ↔ t.Find hash_fn_ key = false) ∧
    (t.Find hash_fn_ key = true ↔ ∃ value, (t.Get hash_fn_ key).1 = Except.ok value) ∧
    (t.Get hash_fn_ key).2 = t ∧
    (HashTable.init : HashTable T P).Find hash_fn_ key = false ∧
    ((HashTable.init : HashTable T P).Get hash_fn_ key).1 = Except.error "Key not found" := by
  have hinit : (HashTable.init : HashTable T P).Find hash_fn_ key = false := by
    show findWalk key ((List.replicate 7 []).getD (Hash hash_fn_ key 7) []) = false
    rw [getD_replicate_nil]
    rfl
  refine ⟨Get_error_iff hash_fn_ t key, ⟨Get_ok_of_Find hash_fn_ t key, ?_⟩,
    Get_state hash_fn_ t key, hinit, (Get_error_iff hash_fn_ _ key).mpr hinit⟩
  rintro ⟨v, hv⟩
  cases hf : t.Find hash_fn_ key with
  | true => rfl
  | false => rw [(Get_error_iff hash_fn_ t key).mpr hf] at hv; cases hv

/-- C4. In every reachable state: when `Find(key)` is true, `Remove(key)` returns true, the
entry count drops by exactly one and `Find(key)` is false afterwards; when `Find(key)` is
false, `Remove(key)` returns false, the table (so the entry count) is unchanged and
`Find(key)` is still false. `Remove` has no failing path. -/
theorem C4_remove_correct [Inhabited P] (hash_fn_ : T → Nat) (t : HashTable T P)
    (h : Reachable hash_fn_ t) (key : T) :
    if t.Find hash_fn_ key = true then
      (t.Remove hash_fn_ key).1 = true ∧
      (t.Remove hash_fn_ key).2.total_entries_ + 1 = t.total_entries_ ∧
      (t.Remove hash_fn_ key).2.Find hash_fn_ key = false
    else
      (t.Remove hash_fn_ key).1 = false ∧
      (t.Remove hash_fn_ key).2 = t ∧
      (t.Remove hash_fn_ key).2.total_entries_ = t.total_entries_ ∧
      (t.Remove hash_fn_ key).2.Find hash_fn_ key = false := by
  have hw := h.wf
  have hgone : (t.Remove hash_fn_ key).2.Find hash_fn_ key = false := by
    rw [(WF_Remove hw key).Find_false_iff, key_mem_nodes_Remove hw]
    simp
  cases hf : t.Find hash_fn_ key with
  | true =>
    simp only [if_true]
    refine ⟨by rw [Remove_found hw key hf], ?_, hgone⟩
    have h1 := (WF_Remove hw key).count
    rw [nodes_Remove hw] at h1
    have h2 := length_filter_keyIsNot t.nodes key hw.nodup ((hw.Find_iff key).mp hf)
    rw [h1, hw.count, h2]
  | false =>
    have hr := Remove_absent hash_fn_ t key hf
    simp only [Bool.false_eq_true, if_false]
    refine ⟨by rw [hr], by rw [hr], by rw [hr], ?_⟩
    rw [hr]; exact hf

/-- C4 on a table where key 4 sits in the middle of a three-node chain. -/
theorem C4_remove_correct_witness :
    Reachable (fun k : Nat => k % 3)
      (HashTable.run (fun k : Nat => k % 3)
        [Op.Set 1 10, Op.Set 4 40, Op.Set 7 70] : HashTable Nat Nat) ∧
    (HashTable.run (fun k : Nat => k % 3)
        [Op.Set 1 10, Op.Set 4 40, Op.Set 7 70] : HashTable Nat Nat).Find
          (fun k : Nat => k % 3) 4 = true ∧
    ((HashTable.run (fun k : Nat => k % 3)
        [Op.Set 1 10, Op.Set 4 40, Op.Set 7 70] : HashTable Nat Nat).Remove
          (fun k : Nat => k % 3) 4).1 = true ∧
    ((HashTable.run (fun k : Nat => k % 3)
        [Op.Set 1 10, Op.Set 4 40, Op.Set 7 70] : HashTable Nat Nat).Remove
          (fun k : Nat => k % 3) 4).2.total_entries_ + 1 = 3 :=
  have hfind : (HashTable.run (fun k : Nat => k % 3)
      [Op.Set 1 10, Op.Set 4 40, Op.Set 7 70] : HashTable Nat Nat).Find
        (fun k : Nat => k % 3) 4 = true := by decide
  have hc := C4_remove_correct (fun k : Nat => k % 3)
    (HashTable.run (fun k : Nat => k % 3)
      [Op.Set 1 10, Op.Set 4 40, Op.Set 7 70] : HashTable Nat Nat) ⟨_, rfl⟩ 4
  ⟨⟨_, rfl⟩, hfind, (by rw [if_pos hfind] at hc; exact hc.1),
    (by rw [if_pos hfind] at hc; exact hc.2.1)⟩

/-- C5. In every reachable state and for keys `a ≠ b`, `Remove(a)` leaves `b` alone:
`Find(b)` and the result of `Get(b)` are what they were, the bucket count is unchanged, and
`Keys()` afterwards is `Keys()` before with `a` dropped, the other keys in their old
order. -/
theorem C5_remove_frame [Inhabited P] (hash_fn_ : T → Nat) (t : HashTable T P)
    (h : Reachable hash_fn_ t) (a b : T) (hab : a ≠ b) :
    (t.Remove hash_fn_ a).2.Find hash_fn_ b = t.Find hash_fn_ b ∧
    ((t.Remove hash_fn_ a).2.Get hash_fn_ b).1 = (t.Get hash_fn_ b).1 ∧
    (t.Remove hash_fn_ a).2.current_size_ = t.current_size_ ∧
    (t.Remove hash_fn_ a).2.Keys.toList = t.Keys.toList.filter (fun k => decide (k ≠ a)) := by
  have hw := h.wf
  have hw2 := WF_Remove hw a
  refine ⟨?_, ?_, Remove_current_size hash_fn_ t a, ?_⟩
  · apply Find_congr hw hw2
    rw [key_mem_nodes_Remove hw]
    simp [Ne.symm hab]
  · apply Get_congr hw hw2
    intro v
    rw [mem_nodes_Remove hw]
    simp [Ne.symm hab]
  · rw [Keys_toList _ hw2.len, Keys_toList _ hw.len, nodes_Remove hw, map_key_filter_keyIsNot]

/-- C5 with `a = 4` in the middle of the chain `7, 4, 1` of one bucket, `b = 1` its tail. -/
theorem C5_remove_frame_witness :
    Reachable (fun k : Nat => k % 3)
      (HashTable.run (fun k : Nat => k % 3)
        [Op.Set 1 10, Op.Set 4 40, Op.Set 7 70, Op.Set 2 20] : HashTable Nat Nat) ∧
    (4 : Nat) ≠ 1 ∧
    (((HashTable.run (fun k : Nat => k % 3)
        [Op.Set 1 10, Op.Set 4 40, Op.Set 7 70, Op.Set 2 20] : HashTable Nat Nat).Remove
          (fun k : Nat => k % 3) 4).2.Get (fun k : Nat => k % 3) 1).1
      = ((HashTable.run (fun k : Nat => k % 3)
        [Op.Set 1 10, Op.Set 4 40, Op.Set 7 70, Op.Set 2 20] : HashTable Nat Nat).Get
          (fun k : Nat => k % 3) 1).1 ∧
    ((HashTable.run (fun k : Nat => k % 3)
        [Op.Set 1 10, Op.Set 4 40, Op.Set 7 70, Op.Set 2 20] : HashTable Nat Nat).Remove
          (fun k : Nat => k % 3) 4).2.Keys.toList
      = ((HashTable.run (fun k : Nat => k % 3)
        [Op.Set 1 10, Op.Set 4 40, Op.Set 7 70, Op.Set 2 20] : HashTable Nat Nat).Keys.toList).filter
          (fun k => decide (k ≠ 4)) :=
  have hc := C5_remove_frame (fun k : Nat => k % 3)
    (HashTable.run (fun k : Nat => k % 3)
      [Op.Set 1 10, Op.Set 4 40, Op.Set 7 70, Op.Set 2 20] : HashTable Nat Nat) ⟨_, rfl⟩ 4 1
    (by decide)
  ⟨⟨_, rfl⟩, by decide, hc.2.1, hc.2.2.2⟩

/-- C6. In a reachable state that holds `key`, `Set(key, v2)` overwrites in place: `Get(key)`
then returns `v2`, while the entry count, the bucket count, the sequence `Keys()` and the
result of `Get` for every other key are unchanged. Hence after `Set(key, v1); Set(key, v2)`
on any reachable state `Get(key)` returns `v2` and the second call leaves the entry count
as the first one left it. -/
theorem C6_set_overwrites [Inhabited P] (hash_fn_ : T → Nat) (t : HashTable T P)
    (h : Reachable hash_fn_ t) (key : T) (v1 v2 : P) :
    (t.Find hash_fn_ key = true →
      ((t.Set hash_fn_ key v2).Get hash_fn_ key).1 = Except.ok v2 ∧
      (t.Set hash_fn_ key v2).total_entries_ = t.total_entries_ ∧
      (t.Set hash_fn_ key v2).current_size_ = t.current_size_ ∧
      (t.Set hash_fn_ key v2).Keys.toList = t.Keys.toList ∧
      ∀ other, other ≠ key →
        ((t.Set hash_fn_ key v2).Get hash_fn_ other).1 = (t.Get hash_fn_ other).1) ∧
    (((t.Set hash_fn_ key v1).Set hash_fn_ key v2).Get hash_fn_ key).1 = Except.ok v2 ∧
    ((t.Set hash_fn_ key v1).Set hash_fn_ key v2).total_entries_
      = (t.Set hash_fn_ key v1).total_entries_ := by
  have hw := h.wf
  have hget : ∀ (s : HashTable T P), WF hash_fn_ s →
      ((s.Set hash_fn_ key v2).Get hash_fn_ key).1 = Except.ok v2 := fun s hs =>
    ((WF_Set hs key v2).Get_ok_iff key v2).mpr ((mem_nodes_Set hs key v2 _).mpr (Or.inl rfl))
  have hw1 := WF_Set hw key v1
  have hf1 : (t.Set hash_fn_ key v1).Find hash_fn_ key = true := by
    rw [hw1.Find_iff]
    exact List.mem_map.mpr ⟨_, (mem_nodes_Set hw key v1 _).mpr (Or.inl rfl), rfl⟩
  refine ⟨?_, hget _ hw1, ?_⟩
  · intro hf
    have hs := Set_found hw key v2 hf
    refine ⟨hget t hw, by rw [hs], by rw [hs], ?_, ?_⟩
    · rw [Keys_toList _ (WF_Set hw key v2).len, Keys_toList _ hw.len, hs, nodes_overwrite,
        List.map_map]
      congr 1
      funext n
      exact overwrite_key key v2 n
    · intro other hne
      apply Get_congr hw (WF_Set hw key v2)
      intro v
      rw [mem_nodes_Set hw]
      simp [hne]
  · rw [Set_found hw1 key v2 hf1]

/-- C6 on a table where key 4 is present in a chain of three. -/
theorem C6_set_overwrites_witness :
    Reachable (fun k : Nat => k % 3)
      (HashTable.run (fun k : Nat => k % 3)
        [Op.Set 1 10, Op.Set 4 40, Op.Set 7 70] : HashTable Nat Nat) ∧
    (HashTable.run (fun k : Nat => k % 3)
        [Op.Set 1 10, Op.Set 4 40, Op.Set 7 70] : HashTable Nat Nat).Find
          (fun k : Nat => k % 3) 4 = true ∧
    (((HashTable.run (fun k : Nat => k % 3)
        [Op.Set 1 10, Op.Set 4 40, Op.Set 7 70] : HashTable Nat Nat).Set
          (fun k : Nat => k % 3) 4 41).Get (fun k : Nat => k % 3) 4).1 = Except.ok 41 ∧
    ((HashTable.run (fun k : Nat => k % 3)
        [Op.Set 1 10, Op.Set 4 40, Op.Set 7 70] : HashTable Nat Nat).Set
          (fun k : Nat => k % 3) 4 41).total_entries_ = 3 :=
  have hfind : (HashTable.run (fun k : Nat => k % 3)
      [Op.Set 1 10, Op.Set 4 40, Op.Set 7 70] : HashTable Nat Nat).Find
        (fun k : Nat => k % 3) 4 = true := by decide
  have hc := (C6_set_overwrites (fun k : Nat => k % 3)
    (HashTable.run (fun k : Nat => k % 3)
      [Op.Set 1 10, Op.Set 4 40, Op.Set 7 70] : HashTable Nat Nat) ⟨_, rfl⟩ 4 0 41).1 hfind
  ⟨⟨_, rfl⟩, hfind, hc.1, hc.2.1⟩

/-- C8. In every reachable state the array returned by `Keys()` holds no key twice. -/
theorem C8_keys_nodup [Inhabited P] (hash_fn_ : T → Nat) (t : HashTable T P)
    (h : Reachable hash_fn_ t) : t.Keys.toList.Nodup := by
  rw [Keys_toList t h.wf.len]
  exact h.wf.nodup

/-- C8 after re-setting, removing and re-inserting keys across a resize. -/
theorem C8_keys_nodup_witness :
    Reachable (fun k : Nat => k % 3)
      (HashTable.run (fun k : Nat => k % 3)
        [Op.Set 1 10, Op.Set 4 40, Op.Set 1 11, Op.Remove 4, Op.subscript 4, Op.Set 4 42,
          Op.Set 2 20, Op.Set 3 30, Op.Set 5 50, Op.Set 6 60, Op.subscript 6] :
        HashTable Nat Nat) ∧
    (HashTable.run (fun k : Nat => k % 3)
        [Op.Set 1 10, Op.Set 4 40, Op.Set 1 11, Op.Remove 4, Op.subscript 4, Op.Set 4 42,
          Op.Set 2 20, Op.Set 3 30, Op.Set 5 50, Op.Set 6 60, Op.subscript 6] :
        HashTable Nat Nat).Keys.toList.Nodup :=
  ⟨⟨_, rfl⟩, C8_keys_nodup _ _ ⟨_, rfl⟩⟩

/-- C9. In every reachable state `total_entries_` is the number of nodes on the chains of
the buckets `0 .. current_size_ - 1`, and it is the `Size()` of the array `Keys()`
returns. -/
theorem C9_count_invariant [Inhabited P] (hash_fn_ : T → Nat) (t : HashTable T P)
    (h : Reachable hash_fn_ t) :
    t.total_entries_
      = ((List.range t.current_size_).map (fun i => (t.data_map.getD i []).length)).sum ∧
    t.total_entries_ = t.Keys.Size := by
  have hw := h.wf
  refine ⟨?_, ?_⟩
  · rw [← hw.len, sum_range_lengths]; exact hw.count
  · rw [Keys_Size t hw.len]; exact hw.count

/-- C9 after insertions, an overwrite, removals and an auto-insert. -/
theorem C9_count_invariant_witness :
    Reachable (fun k : Nat => k % 3)
      (HashTable.run (fun k : Nat => k % 3)
        [Op.Set 1 10, Op.Set 4 40, Op.Set 1 11, Op.Remove 4, Op.Remove 9, Op.subscript 5] :
        HashTable Nat Nat) ∧
    (HashTable.run (fun k : Nat => k % 3)
        [Op.Set 1 10, Op.Set 4 40, Op.Set 1 11, Op.Remove 4, Op.Remove 9, Op.subscript 5] :
        HashTable Nat Nat).total_entries_
      = (HashTable.run (fun k : Nat => k % 3)
        [Op.Set 1 10, Op.Set 4 40, Op.Set 1 11, Op.Remove 4, Op.Remove 9, Op.subscript 5] :
        HashTable Nat Nat).Keys.Size :=
  ⟨⟨_, rfl⟩, (C9_count_invariant _ _ ⟨_, rfl⟩).2⟩

/-- C7, refuted on the code. After `Set(0, 0); ...; Set(22020096, 0)` on a fresh table the
table holds 22 020 097 entries in 29 360 128 buckets, which is more than three quarters:
the cast `(float)total_entries_` rounded the count down to 22 020 096, the quotient came
out as exactly `0.75`, and the last `Set` did not resize. -/
theorem C7_load_factor_exceeded :
    (HashTable.run (fun k : Nat => k) (distinctSets 22020097)).total_entries_ = 22020097 ∧
    (HashTable.run (fun k : Nat => k) (distinctSets 22020097)).current_size_ = 29360128 ∧
    ¬ 4 * (HashTable.run (fun k : Nat => k) (distinctSets 22020097)).total_entries_
        ≤ 3 * (HashTable.run (fun k : Nat => k) (distinctSets 22020097)).current_size_ := by
  obtain ⟨h1, h2, _⟩ := run_distinctSets (fun k : Nat => k) 22020097
  rw [growth_22020097] at h2
  refine ⟨h1, h2, ?_⟩
  rw [h1, h2]
  norm_num

/-- C10, refuted on the code. On the table built by `Set(0, 0); ...; Set(22020095, 0)`
(22 020 096 entries, 29 360 128 buckets) the call `Set(22020096, 0)` inserts a new key and
brings the entry count to 22 020 097, above three quarters of the bucket count, yet the
bucket count stays 29 360 128: no resize. -/
theorem C10_no_resize_above_three_quarters :
    (HashTable.run (fun k : Nat => k) (distinctSets 22020096)).Find (fun k : Nat => k)
      22020096 = false ∧
    (HashTable.run (fun k : Nat => k) (distinctSets 22020096)).current_size_ = 29360128 ∧
    ((HashTable.run (fun k : Nat => k) (distinctSets 22020096)).Set (fun k : Nat => k)
      22020096 0).total_entries_ = 22020097 ∧
    3 * (HashTable.run (fun k : Nat => k) (distinctSets 22020096)).current_size_
      < 4 * ((HashTable.run (fun k : Nat => k) (distinctSets 22020096)).Set (fun k : Nat => k)
        22020096 0).total_entries_ ∧
    ((HashTable.run (fun k : Nat => k) (distinctSets 22020096)).Set (fun k : Nat => k)
      22020096 0).current_size_ = 29360128 := by
  obtain ⟨h1, h2, h3⟩ := run_distinctSets (fun k : Nat => k) 22020096
  rw [growth_22020096] at h2
  have ht : ((HashTable.run (fun k : Nat => k) (distinctSets 22020096)).Set (fun k : Nat => k)
      22020096 0).total_entries_ = 22020097 := by
    rw [Set_absent _ _ _ _ h3, insertHead_total, h1]
  have hs : ((HashTable.run (fun k : Nat => k) (distinctSets 22020096)).Set (fun k : Nat => k)
      22020096 0).current_size_ = 29360128 := by
    rw [Set_absent _ _ _ _ h3, insertHead_size, h1, h2,
      no_resize_at_29360128 22020097 le_rfl]
    rfl
  refine ⟨h3, h2, ht, ?_, hs⟩
  rw [h2, ht]
  norm_num

/-- C11. A fresh table has 7 buckets and no entry. In every reachable state the bucket
count is not zero and is `7 * 2 ^ n` for some `n`. Each single call leaves the bucket count
as it is or doubles it, and `Remove` never changes it. -/
theorem C11_bucket_count [Inhabited P] (hash_fn_ : T → Nat) (t : HashTable T P)
    (h : Reachable hash_fn_ t) :
    (HashTable.init : HashTable T P).current_size_ = 7 ∧
    (HashTable.init : HashTable T P).total_entries_ = 0 ∧
    t.current_size_ ≠ 0 ∧
    (∃ n, t.current_size_ = 7 * 2 ^ n) ∧
    (∀ op : Op T P, (t.step hash_fn_ op).current_size_ = t.current_size_ ∨
      (t.step hash_fn_ op).current_size_ = 2 * t.current_size_) ∧
    (∀ key, (t.Remove hash_fn_ key).2.current_size_ = t.current_size_) := by
  refine ⟨rfl, rfl, Nat.pos_iff_ne_zero.mp h.wf.pos, h.size_eq, ?_,
    Remove_current_size hash_fn_ t⟩
  intro op
  rw [Nat.mul_comm 2]
  cases op with
  | Set key value => exact Set_current_size hash_fn_ t key value
  | Remove key => exact Or.inl (Remove_current_size hash_fn_ t key)
  | subscript key => exact subscript_current_size hash_fn_ t key

/-- C11 on the table after six insertions (one resize) and a removal. -/
theorem C11_bucket_count_witness :
    Reachable (fun k : Nat => k)
      (HashTable.run (fun k : Nat => k)
        [Op.Set 0 1, Op.Set 14 2, Op.Set 1 3, Op.Set 2 4, Op.subscript 3, Op.Set 4 5,
          Op.Remove 2] : HashTable Nat Nat) ∧
    (HashTable.run (fun k : Nat => k)
        [Op.Set 0 1, Op.Set 14 2, Op.Set 1 3, Op.Set 2 4, Op.subscript 3, Op.Set 4 5,
          Op.Remove 2] : HashTable Nat Nat).current_size_ ≠ 0 ∧
    ∃ n, (HashTable.run (fun k : Nat => k)
        [Op.Set 0 1, Op.Set 14 2, Op.Set 1 3, Op.Set 2 4, Op.subscript 3, Op.Set 4 5,
          Op.Remove 2] : HashTable Nat Nat).current_size_ = 7 * 2 ^ n :=
  have hc := C11_bucket_count (fun k : Nat => k)
    (HashTable.run (fun k : Nat => k)
      [Op.Set 0 1, Op.Set 14 2, Op.Set 1 3, Op.Set 2 4, Op.subscript 3, Op.Set 4 5,
        Op.Remove 2] : HashTable Nat Nat) ⟨_, rfl⟩
  ⟨⟨_, rfl⟩, hc.2.2.1, hc.2.2.2.1⟩

/-- C12 as stated fails on the code. With the identity hash, `Set(0, _); Set(14, _)` puts 14
in front of 0 in bucket 0 of the 7-bucket table; the sixth distinct key makes `Resize()`
relink the chain from its head, and in the 14-bucket table bucket 0 is `0, 14`: the key
inserted earlier comes first in `Keys()`. -/
theorem C12_counterexample :
    (HashTable.run (fun k : Nat => k)
      [Op.Set 0 1, Op.Set 14 2, Op.Set 1 3, Op.Set 2 4, Op.Set 3 5] :
        HashTable Nat Nat).Keys.toList = [14, 0, 1, 2, 3] ∧
    (HashTable.run (fun k : Nat => k)
      [Op.Set 0 1, Op.Set 14 2, Op.Set 1 3, Op.Set 2 4, Op.Set 3 5, Op.Set 4 6] :
        HashTable Nat Nat).Keys.toList = [0, 14, 1, 2, 3, 4] ∧
    (HashTable.run (fun k : Nat => k)
      [Op.Set 0 1, Op.Set 14 2, Op.Set 1 3, Op.Set 2 4, Op.Set 3 5, Op.Set 4 6] :
        HashTable Nat Nat).current_size_ = 14 ∧
    Hash (fun k : Nat => k) 0 14 = Hash (fun k : Nat => k) 14 14 := by
  decide

/-- C12, amended. In every reachable state `Keys()` is the keys of bucket 0 from head to
tail, then those of bucket 1, and so on; it lists exactly the keys `Find` finds; and the
bucket indices along it never decrease. A `Set` or `operator[]` that inserts a new key
without resizing places the key after the keys of the lower buckets and in front of the
keys of its own and the higher buckets, the other keys keeping their order. -/
theorem C12_keys_order [Inhabited P] (hash_fn_ : T → Nat) (t : HashTable T P)
    (h : Reachable hash_fn_ t) :
    t.Keys.toList
      = ((List.range t.current_size_).map
          (fun i => (t.data_map.getD i []).map HashNode.key)).flatten ∧
    (∀ key, t.Find hash_fn_ key = true ↔ key ∈ t.Keys.toList) ∧
    (t.Keys.toList.map (fun k => Hash hash_fn_ k t.current_size_)).Pairwise (· ≤ ·) ∧
    (∀ key value, t.Find hash_fn_ key = false →
      loadFactorExceeded (t.total_entries_ + 1) t.current_size_ = false →
      ∃ A B : List T, t.Keys.toList = A ++ B ∧
        (t.Set hash_fn_ key value).Keys.toList = A ++ key :: B ∧
        (∀ x ∈ A, Hash hash_fn_ x t.current_size_ < Hash hash_fn_ key t.current_size_) ∧
        (∀ x ∈ B, Hash hash_fn_ key t.current_size_ ≤ Hash hash_fn_ x t.current_size_)) ∧
    (∀ key, t.Find hash_fn_ key = false →
      loadFactorExceeded (t.total_entries_ + 1) t.current_size_ = false →
      ∃ A B : List T, t.Keys.toList = A ++ B ∧
        (t.subscript hash_fn_ key).2.Keys.toList = A ++ key :: B ∧
        (∀ x ∈ A, Hash hash_fn_ x t.current_size_ < Hash hash_fn_ key t.current_size_) ∧
        (∀ x ∈ B, Hash hash_fn_ key t.current_size_ ≤ Hash hash_fn_ x t.current_size_)) := by
  have hw := h.wf
  have hk := Keys_toList t hw.len
  have hset : ∀ key value, t.Find hash_fn_ key = false →
      loadFactorExceeded (t.total_entries_ + 1) t.current_size_ = false →
      ∃ A B : List T, t.Keys.toList = A ++ B ∧
        (t.Set hash_fn_ key value).Keys.toList = A ++ key :: B ∧
        (∀ x ∈ A, Hash hash_fn_ x t.current_size_ < Hash hash_fn_ key t.current_size_) ∧
        (∀ x ∈ B, Hash hash_fn_ key t.current_size_ ≤ Hash hash_fn_ x t.current_size_) := by
    intro key value hf hno
    obtain ⟨A, B, h1, h2, h3, h4⟩ := keys_link hw key value
    refine ⟨A, B, by rw [hk, h1], ?_, h3, h4⟩
    rw [Keys_toList _ (WF_Set hw key value).len, Set_absent_no_resize hash_fn_ t key value hf hno,
      h2]
  refine ⟨?_, fun key => by rw [hw.Find_iff, hk], ?_, hset, ?_⟩
  · rw [hk, ← hw.len]
    unfold HashTable.nodes
    conv_lhs => rw [← map_range_getD t.data_map]
    rw [List.map_flatten, List.map_map]
    rfl
  · rw [hk, List.map_map]
    exact (pairwise_bucket_index (fun n => Hash hash_fn_ n.key t.current_size_) t.data_map 0
      (fun i n hn => by show Hash hash_fn_ n.key t.current_size_ = 0 + i; rw [hw.place i n hn, Nat.zero_add])).1
  · intro key hf hno
    obtain ⟨A, B, h1, h2, h3, h4⟩ := hset key default hf hno
    refine ⟨A, B, h1, ?_, h3, h4⟩
    rw [subscript_absent hash_fn_ t key hf, ← Set_absent hash_fn_ t key default hf]
    exact h2

/-- C12 amended, on the table `Set(0, 1); Set(7, 2)` (bucket 0 holds `7, 0`) and the new
key 14 of the same bucket, inserted without a resize. -/
theorem C12_keys_order_witness :
    Reachable (fun k : Nat => k)
      (HashTable.run (fun k : Nat => k) [Op.Set 0 1, Op.Set 7 2] : HashTable Nat Nat) ∧
    ((HashTable.run (fun k : Nat => k) [Op.Set 0 1, Op.Set 7 2] : HashTable Nat Nat).Keys.toList.map
      (fun k => Hash (fun k : Nat => k) k
        (HashTable.run (fun k : Nat => k) [Op.Set 0 1, Op.Set 7 2] :
          HashTable Nat Nat).current_size_)).Pairwise (· ≤ ·) ∧
    ∃ A B : List Nat,
      (HashTable.run (fun k : Nat => k) [Op.Set 0 1, Op.Set 7 2] :
        HashTable Nat Nat).Keys.toList = A ++ B ∧
      ((HashTable.run (fun k : Nat => k) [Op.Set 0 1, Op.Set 7 2] : HashTable Nat Nat).Set
        (fun k : Nat => k) 14 3).Keys.toList = A ++ 14 :: B :=
  have hc := C12_keys_order (fun k : Nat => k)
    (HashTable.run (fun k : Nat => k) [Op.Set 0 1, Op.Set 7 2] : HashTable Nat Nat) ⟨_, rfl⟩
  have hex := hc.2.2.2.1 14 3 (by decide) (by decide)
  ⟨⟨_, rfl⟩, hc.2.2.1, hex.elim fun A hA => hA.elim fun B hB => ⟨A, B, hB.1, hB.2.1⟩⟩

/-- C13. In every reachable state: when `Find(key)` is false, `table[key]` returns `P()`,
and afterwards `Find(key)` is true, `Get(key)` returns `P()`, the entry count is one more,
and `Find` and `Get` answer as before for every other key; when `Find(key)` is true,
`table[key]` returns what `Get(key)` returns and the table is unchanged. -/
theorem C13_subscript [Inhabited P] (hash_fn_ : T → Nat) (t : HashTable T P)
    (h : Reachable hash_fn_ t) (key : T) :
    if t.Find hash_fn_ key = false then
      (t.subscript hash_fn_ key).1 = default ∧
      (t.subscript hash_fn_ key).2.Find hash_fn_ key = true ∧
      ((t.subscript hash_fn_ key).2.Get hash_fn_ key).1 = Except.ok default ∧
      (t.subscript hash_fn_ key).2.total_entries_ = t.total_entries_ + 1 ∧
      ∀ other, other ≠ key →
        (t.subscript hash_fn_ key).2.Find hash_fn_ other = t.Find hash_fn_ other ∧
        ((t.subscript hash_fn_ key).2.Get hash_fn_ other).1 = (t.Get hash_fn_ other).1
    else
      (t.Get hash_fn_ key).1 = Except.ok (t.subscript hash_fn_ key).1 ∧
      (t.subscript hash_fn_ key).2 = t := by
  have hw := h.wf
  have hw2 := WF_subscript hw key
  cases hf : t.Find hash_fn_ key with
  | false =>
    simp only [if_true]
    have hmem : ({ key := key, value := default } : HashNode T P)
        ∈ (t.subscript hash_fn_ key).2.nodes :=
      (mem_nodes_subscript hw key _).mpr (Or.inr ⟨hf, rfl⟩)
    refine ⟨by rw [subscript_absent hash_fn_ t key hf], ?_, (hw2.Get_ok_iff key default).mpr hmem,
      by rw [subscript_absent hash_fn_ t key hf, insertHead_total], ?_⟩
    · exact (hw2.Find_iff key).mpr (List.mem_map.mpr ⟨_, hmem, rfl⟩)
    · intro other hne
      constructor
      · apply Find_congr hw hw2
        simp only [List.mem_map, mem_nodes_subscript hw key]
        constructor
        · rintro ⟨n, hn, rfl⟩; exact ⟨n, Or.inl hn, rfl⟩
        · rintro ⟨n, hn | ⟨_, hn⟩, rfl⟩
          · exact ⟨n, hn, rfl⟩
          · rw [hn] at hne; exact absurd rfl hne
      · apply Get_congr hw hw2
        intro v
        rw [mem_nodes_subscript hw key]
        constructor
        · exact Or.inl
        · rintro (hn | ⟨_, hn⟩)
          · exact hn
          · exact absurd (congrArg HashNode.key hn) hne
  | true =>
    simp only [Bool.true_eq_false, if_false]
    exact ⟨(subscript_found hash_fn_ t key hf).2, (subscript_found hash_fn_ t key hf).1⟩

/-- C13 on the fresh table: `table[5]` returns `0`, and `Find(5)` is true afterwards. -/
theorem C13_subscript_witness :
    Reachable (fun k : Nat => k) (HashTable.run (fun k : Nat => k) [] : HashTable Nat Nat) ∧
    (HashTable.run (fun k : Nat => k) [] : HashTable Nat Nat).Find (fun k : Nat => k) 5
      = false ∧
    ((HashTable.run (fun k : Nat => k) [] : HashTable Nat Nat).subscript
      (fun k : Nat => k) 5).1 = 0 ∧
    ((HashTable.run (fun k : Nat => k) [] : HashTable Nat Nat).subscript
      (fun k : Nat => k) 5).2.Find (fun k : Nat => k) 5 = true :=
  have hfind : (HashTable.run (fun k : Nat => k) [] : HashTable Nat Nat).Find
      (fun k : Nat => k) 5 = false := by decide
  have hc := C13_subscript (fun k : Nat => k)
    (HashTable.run (fun k : Nat => k) [] : HashTable Nat Nat) ⟨_, rfl⟩ 5
  ⟨⟨_, rfl⟩, hfind, (by rw [if_pos hfind] at hc; exact hc.1),
    (by rw [if_pos hfind] at hc; exact hc.2.1)⟩

/-- C14. On a key that `Find` does not find, the table after `table[key]` is the table
after `Set(key, P())`: same chains in the same order, same bucket count, same entry count,
the resize included when the load-factor test fires. -/
theorem C14_subscript_is_set_default [Inhabited P] (hash_fn_ : T → Nat) (t : HashTable T P)
    (key : T) (hf : t.Find hash_fn_ key = false) :
    (t.subscript hash_fn_ key).2 = t.Set hash_fn_ key default := by
  rw [subscript_absent hash_fn_ t key hf, Set_absent hash_fn_ t key default hf]

/-- C14 where the auto-insert is the sixth key and triggers the resize to 14 buckets. -/
theorem C14_subscript_is_set_default_witness :
    (HashTable.run (fun k : Nat => k)
      [Op.Set 0 1, Op.Set 7 2, Op.Set 1 3, Op.Set 2 4, Op.Set 3 5] : HashTable Nat Nat).Find
        (fun k : Nat => k) 4 = false ∧
    ((HashTable.run (fun k : Nat => k)
      [Op.Set 0 1, Op.Set 7 2, Op.Set 1 3, Op.Set 2 4, Op.Set 3 5] : HashTable Nat Nat).subscript
        (fun k : Nat => k) 4).2
      = (HashTable.run (fun k : Nat => k)
      [Op.Set 0 1, Op.Set 7 2, Op.Set 1 3, Op.Set 2 4, Op.Set 3 5] : HashTable Nat Nat).Set
        (fun k : Nat => k) 4 default :=
  ⟨by decide, C14_subscript_is_set_default _ _ 4 (by decide)⟩

/-- C18. In every reachable state each node on the chain of bucket `i` has
`hash_fn_(key) % current_size_ = i` with `i < current_size_`, and the index `Hash` computes
for any key is `hash_fn_(key) % current_size_`, a valid index into `data_map`. -/
theorem C18_bucket_placement [Inhabited P] (hash_fn_ : T → Nat) (t : HashTable T P)
    (h : Reachable hash_fn_ t) :
    (∀ i n, n ∈ t.data_map.getD i [] →
      hash_fn_ n.key % t.current_size_ = i ∧ i < t.current_size_) ∧
    (∀ key, Hash hash_fn_ key t.current_size_ = hash_fn_ key % t.current_size_ ∧
      Hash hash_fn_ key t.current_size_ < t.current_size_ ∧
      Hash hash_fn_ key t.current_size_ < t.data_map.length) := by
  have hw := h.wf
  refine ⟨fun i n hn => ?_, fun key => ⟨rfl, Nat.mod_lt _ hw.pos, hw.index_lt key⟩⟩
  have hi : hash_fn_ n.key % t.current_size_ = i := hw.place i n hn
  exact ⟨hi, by rw [← hi]; exact Nat.mod_lt _ hw.pos⟩

/-- C18 after insertions across a resize, a removal and an auto-insert. -/
theorem C18_bucket_placement_witness :
    Reachable (fun k : Nat => k)
      (HashTable.run (fun k : Nat => k)
        [Op.Set 0 1, Op.Set 14 2, Op.Set 1 3, Op.Set 2 4, Op.subscript 3, Op.Set 4 5,
          Op.Remove 2, Op.Set 21 6] : HashTable Nat Nat) ∧
    ∀ i n, n ∈ (HashTable.run (fun k : Nat => k)
        [Op.Set 0 1, Op.Set 14 2, Op.Set 1 3, Op.Set 2 4, Op.subscript 3, Op.Set 4 5,
          Op.Remove 2, Op.Set 21 6] : HashTable Nat Nat).data_map.getD i [] →
      n.key % (HashTable.run (fun k : Nat => k)
        [Op.Set 0 1, Op.Set 14 2, Op.Set 1 3, Op.Set 2 4, Op.subscript 3, Op.Set 4 5,
          Op.Remove 2, Op.Set 21 6] : HashTable Nat Nat).current_size_ = i ∧
      i < (HashTable.run (fun k : Nat => k)
        [Op.Set 0 1, Op.Set 14 2, Op.Set 1 3, Op.Set 2 4, Op.subscript 3, Op.Set 4 5,
          Op.Remove 2, Op.Set 21 6] : HashTable Nat Nat).current_size_ :=
  ⟨⟨_, rfl⟩, (C18_bucket_placement (fun k : Nat => k) _ ⟨_, rfl⟩).1⟩

/-- C19. In a reachable state, for a key `Find` does not find and a `Set` whose load-factor
test does not fire: afterwards the chain of bucket `hash_fn_(key) % current_size_` is the
new node followed by the old chain, every other bucket is unchanged, the entry count is one
more and the bucket count is the same. -/
theorem C19_head_insertion [Inhabited P] (hash_fn_ : T → Nat) (t : HashTable T P)
    (h : Reachable hash_fn_ t) (key : T) (value : P)
    (hf : t.Find hash_fn_ key = false)
    (hno : loadFactorExceeded (t.total_entries_ + 1) t.current_size_ = false) :
    (t.Set hash_fn_ key value).data_map.getD (hash_fn_ key % t.current_size_) []
      = { key := key, value := value }
          :: t.data_map.getD (hash_fn_ key % t.current_size_) [] ∧
    (∀ j, j ≠ hash_fn_ key % t.current_size_ →
      (t.Set hash_fn_ key value).data_map.getD j [] = t.data_map.getD j []) ∧
    (t.Set hash_fn_ key value).total_entries_ = t.total_entries_ + 1 ∧
    (t.Set hash_fn_ key value).current_size_ = t.current_size_ := by
  have hi : hash_fn_ key % t.current_size_ < t.data_map.length := h.wf.index_lt key
  rw [Set_absent_no_resize hash_fn_ t key value hf hno]
  refine ⟨?_, ?_, rfl, rfl⟩
  · show (t.data_map.set (hash_fn_ key % t.current_size_) _).getD _ [] = _
    rw [getD_set_chain, if_pos ⟨rfl, hi⟩]
    rfl
  · intro j hj
    show (t.data_map.set (hash_fn_ key % t.current_size_) _).getD _ [] = _
    rw [getD_set_chain, if_neg (fun hc => hj hc.1.symm)]

/-- C19 with key 15 inserted in front of the chain `8, 1` of bucket 1: the buckets
before are `[[], [8, 1], [], ...]`, and `15 % 7 = 1`. -/
theorem C19_head_insertion_witness :
    Reachable (fun k : Nat => k)
      (HashTable.run (fun k : Nat => k) [Op.Set 1 1, Op.Set 8 2] : HashTable Nat Nat) ∧
    (HashTable.run (fun k : Nat => k) [Op.Set 1 1, Op.Set 8 2] : HashTable Nat Nat).Find
      (fun k : Nat => k) 15 = false ∧
    loadFactorExceeded
      ((HashTable.run (fun k : Nat => k) [Op.Set 1 1, Op.Set 8 2] :
        HashTable Nat Nat).total_entries_ + 1)
      (HashTable.run (fun k : Nat => k) [Op.Set 1 1, Op.Set 8 2] :
        HashTable Nat Nat).current_size_ = false ∧
    ((HashTable.run (fun k : Nat => k) [Op.Set 1 1, Op.Set 8 2] : HashTable Nat Nat).Set
      (fun k : Nat => k) 15 3).data_map.getD
        (15 % (HashTable.run (fun k : Nat => k) [Op.Set 1 1, Op.Set 8 2] :
          HashTable Nat Nat).current_size_) []
      = { key := 15, value := 3 } ::
        (HashTable.run (fun k : Nat => k) [Op.Set 1 1, Op.Set 8 2] :
          HashTable Nat Nat).data_map.getD
          (15 % (HashTable.run (fun k : Nat => k) [Op.Set 1 1, Op.Set 8 2] :
              HashTable Nat Nat).current_size_) [] :=
  ⟨⟨_, rfl⟩, by decide, by decide,
    (C19_head_insertion (fun k : Nat => k) _ ⟨_, rfl⟩ 15 3 (by decide) (by decide)).1⟩

/-- C20. For every table state and every index `j`, the chain of bucket `j` after `Resize()`
is the reverse of the sub-list of the old traversal (bucket 0 from its head, then bucket 1,
and so on) made of the nodes with `hash_fn_(key) % (2 * current_size_) = j`: each node
visited was pushed on the head of its new bucket. -/
theorem C20_resize_relink_order (hash_fn_ : T → Nat) (t : HashTable T P) (j : Nat) :
    (t.Resize hash_fn_).data_map.getD j []
      = (t.traversal.filter
          (fun n => decide (hash_fn_ n.key % (2 * t.current_size_) = j))).reverse := by
  rw [Nat.mul_comm 2]
  exact Resize_getD_traversal hash_fn_ t j

/-- C15 fails on the code for `Array(0)`: `Push` finds `size_ == capacity_`, resizes to
`0 * 2 = 0` cells and then writes cell 0 of an empty block; afterwards `Size()` is 1,
`Capacity()` is 0 and no cell holds the value. -/
theorem C15_push_on_zero_capacity :
    ((Array.withCapacity 0 : Array Nat).Push 5).Size = 1 ∧
    ((Array.withCapacity 0 : Array Nat).Push 5).Capacity = 0 ∧
    ((Array.withCapacity 0 : Array Nat).Push 5).data_ = [] ∧
    ¬ ((Array.withCapacity 0 : Array Nat).Push 5).Size
        ≤ ((Array.withCapacity 0 : Array Nat).Push 5).Capacity := by
  decide

/-- C16 as stated fails on the empty array: `Shrink()` calls `Resize(1)`, so the capacity
is 1 while the size is 0. -/
theorem C16_counterexample :
    (Array.init : Array Nat).Shrink.Size = 0 ∧ (Array.init : Array Nat).Shrink.Capacity = 1 := by
  decide

/-- C16, amended: for every array state, after `Shrink()` the capacity equals the size when
the array is not empty and is 1 when it is empty; the size and the cells at the indices
below the size are unchanged. -/
theorem C16_shrink (a : Array T) :
    a.Shrink.Capacity = (if a.Size = 0 then 1 else a.Size) ∧
    a.Shrink.Size = a.Size ∧
    ∀ i, i < a.Size → a.Shrink.data_.getD i none = a.data_.getD i none := by
  unfold Array.Shrink Array.Capacity Array.Size
  by_cases h0 : a.size_ = 0
  · rw [if_pos h0, if_pos h0]
    refine ⟨rfl, rfl, ?_⟩
    intro i hi
    omega
  · rw [if_neg h0, if_neg h0]
    refine ⟨rfl, rfl, ?_⟩
    intro i hi
    have := (copy_fold a.data_ a.size_ a.size_).2 i
    unfold Array.Resize
    dsimp only
    rw [this, if_pos ⟨hi, hi⟩]

end Claims

/-! ## The linked list: segments of the store -/

section Segments

variable {T : Type}

theorem getD_lt_length {α : Type} (L : List (Option α)) (a : Nat) (x : α)
    (h : L.getD a none = some x) : a < L.length := by
  by_contra hc
  rw [List.getD_eq_getElem?_getD, List.getElem?_eq_none (not_lt.mp hc)] at h
  cases h

theorem getD_append_new {α : Type} (L : List (Option α)) (x : Option α) (a : Nat) :
    (L ++ [x]).getD a none = if a = L.length then x else L.getD a none := by
  simp only [List.getD_eq_getElem?_getD]
  by_cases h1 : a < L.length
  · rw [List.getElem?_append_left h1, if_neg (by omega)]
  · by_cases h2 : a = L.length
    · subst h2
      simp
    · rw [if_neg h2, List.getElem?_eq_none (by simp; omega),
        List.getElem?_eq_none (by omega)]

theorem deref_of_live (heap : List (Option (SinglyNode T))) (a : Nat) (node : SinglyNode T)
    (h : heap.getD a none = some node) : deref heap (some a) = Except.ok node := by
  show (match heap.getD a none with
    | some node => Except.ok node
    | none => Except.error Fault.undefined) = Except.ok node
  rw [h]

theorem Next_of_live (heap : List (Option (SinglyNode T))) (a : Nat) (node : SinglyNode T)
    (h : heap.getD a none = some node) : Next heap (some a) = Except.ok node.next_ := by
  simp [Next, deref_of_live heap a node h, Except.map]

theorem Data_of_live (heap : List (Option (SinglyNode T))) (a : Nat) (node : SinglyNode T)
    (h : heap.getD a none = some node) : Data heap (some a) = Except.ok node.data_ := by
  simp [Data, deref_of_live heap a node h, Except.map]

theorem SetNext_of_live (heap : List (Option (SinglyNode T))) (a : Nat) (node : SinglyNode T)
    (next : Option Nat) (h : heap.getD a none = some node) :
    SetNext heap (some a) next
      = Except.ok (heap.set a (some { node with next_ := next })) := by
  simp [SetNext, deref_of_live heap a node h, Except.map]

theorem deleteNode_of_live (heap : List (Option (SinglyNode T))) (a : Nat)
    (node : SinglyNode T) (h : heap.getD a none = some node) :
    deleteNode heap (some a) = Except.ok (heap.set a none) := by
  simp [deleteNode, deref_of_live heap a node h, Except.map]

theorem IsSegment.live {heap : List (Option (SinglyNode T))} {p q : Option Nat}
    {addrs : List Nat} (h : IsSegment heap p addrs q) :
    ∀ a ∈ addrs, ∃ node, heap.getD a none = some node := by
  induction addrs generalizing p with
  | nil => intro a ha; cases ha
  | cons b rest ih =>
    obtain ⟨_, node, hn, hrest⟩ := h
    intro a ha
    rcases List.mem_cons.mp ha with rfl | ha
    · exact ⟨node, hn⟩
    · exact ih hrest a ha

theorem IsSegment.lt_length {heap : List (Option (SinglyNode T))} {p q : Option Nat}
    {addrs : List Nat} (h : IsSegment heap p addrs q) : ∀ a ∈ addrs, a < heap.length := by
  intro a ha
  obtain ⟨node, hn⟩ := h.live a ha
  exact getD_lt_length heap a node hn

/-- A segment only depends on the cells of its own addresses. -/
theorem IsSegment.congr {heap heap2 : List (Option (SinglyNode T))} {p q : Option Nat}
    {addrs : List Nat} (h : IsSegment heap p addrs q)
    (hsame : ∀ a ∈ addrs, heap2.getD a none = heap.getD a none) :
    IsSegment heap2 p addrs q := by
  induction addrs generalizing p with
  | nil => exact h
  | cons b rest ih =>
    obtain ⟨hp, node, hn, hrest⟩ := h
    refine ⟨hp, node, ?_, ih hrest (fun a ha => hsame a (List.mem_cons_of_mem b ha))⟩
    rw [hsame b (List.mem_cons_self b rest)]; exact hn

theorem IsSegment.append {heap : List (Option (SinglyNode T))} {p q r : Option Nat}
    {l1 l2 : List Nat} (h1 : IsSegment heap p l1 q) (h2 : IsSegment heap q l2 r) :
    IsSegment heap p (l1 ++ l2) r := by
  induction l1 generalizing p with
  | nil => rw [show p = q from h1]; exact h2
  | cons b rest ih =>
    obtain ⟨hp, node, hn, hrest⟩ := h1
    exact ⟨hp, node, hn, ih hrest⟩

theorem IsSegment.split {heap : List (Option (SinglyNode T))} {p r : Option Nat}
    {l1 l2 : List Nat} (h : IsSegment heap p (l1 ++ l2) r) :
    ∃ q, IsSegment heap p l1 q ∧ IsSegment heap q l2 r := by
  induction l1 generalizing p with
  | nil => exact ⟨p, rfl, h⟩
  | cons b rest ih =>
    obtain ⟨hp, node, hn, hrest⟩ := h
    obtain ⟨q, h1, h2⟩ := ih hrest
    exact ⟨q, ⟨hp, node, hn, h1⟩, h2⟩

/-- From one pointer the null-terminated chain is unique. -/
theorem IsSegment.unique {heap : List (Option (SinglyNode T))} {p : Option Nat}
    {l1 l2 : List Nat} (h1 : IsSegment heap p l1 none) (h2 : IsSegment heap p l2 none) :
    l1 = l2 := by
  induction l1 generalizing p l2 with
  | nil =>
    cases l2 with
    | nil => rfl
    | cons b rest =>
      have hp : p = none := h1
      rw [hp] at h2
      cases h2.1
  | cons a rest ih =>
    obtain ⟨hp, node, hn, hrest⟩ := h1
    cases l2 with
    | nil =>
      have hp2 : p = none := h2
      rw [hp2] at hp; cases hp
    | cons b rest2 =>
      obtain ⟨hp2, node2, hn2, hrest2⟩ := h2
      have hab : a = b := by rw [hp] at hp2; exact Option.some.inj hp2
      subst hab
      rw [hn] at hn2
      have hnode : node = node2 := Option.some.inj hn2
      subst hnode
      rw [ih hrest hrest2]

/-- A null-terminated chain visits no node twice. -/
theorem IsSegment.nodup {heap : List (Option (SinglyNode T))} {p : Option Nat}
    {addrs : List Nat} (h : IsSegment heap p addrs none) : addrs.Nodup := by
  induction addrs generalizing p with
  | nil => exact List.nodup_nil
  | cons a rest ih =>
    obtain ⟨hp, node, hn, hrest⟩ := h
    refine List.nodup_cons.mpr ⟨?_, ih hrest⟩
    intro hmem
    obtain ⟨pre, post, hsplit⟩ := List.append_of_mem hmem
    rw [hsplit] at hrest
    obtain ⟨q, _, h2⟩ := IsSegment.split hrest
    have hq : q = some a := h2.1
    have hfull : IsSegment heap (some a) (a :: rest) none := ⟨rfl, node, hn, by rw [hsplit]; exact hrest⟩
    rw [hq] at h2
    have := IsSegment.unique h2 hfull
    have hlen := congrArg List.length this
    rw [hsplit] at hlen
    simp at hlen
    omega

end Segments

/-! ## The linked list: what each call does to the chain -/

section ListCalls

variable {T : Type}

theorem IsSegment.nil_of_none {heap : List (Option (SinglyNode T))} {q : Option Nat}
    {addrs : List Nat} (h : IsSegment heap none addrs q) : addrs = [] := by
  cases addrs with
  | nil => rfl
  | cons a rest => cases h.1

theorem IsSegment.head_eq {heap : List (Option (SinglyNode T))} {p : Option Nat}
    {addrs : List Nat} (h : IsSegment heap p addrs none) : p = addrs.head? := by
  cases addrs with
  | nil => exact h
  | cons a rest => exact h.1

theorem IsSegment.head_eq_of_ne_nil {heap : List (Option (SinglyNode T))} {p q : Option Nat}
    {addrs : List Nat} (h : IsSegment heap p addrs q) (hne : addrs ≠ []) :
    p = some (addrs.head hne) := by
  cases addrs with
  | nil => exact absurd rfl hne
  | cons a rest => exact h.1

/-- Storing a new `next_` in the last node of a segment redirects its end. -/
theorem IsSegment.set_last {heap : List (Option (SinglyNode T))} {p q : Option Nat}
    {pre : List Nat} {b : Nat} (h : IsSegment heap p (pre ++ [b]) q) (hb : b ∉ pre)
    (node : SinglyNode T) (hn : heap.getD b none = some node) (x : Option Nat) :
    IsSegment (heap.set b (some { node with next_ := x })) p (pre ++ [b]) x := by
  obtain ⟨r, h1, h2⟩ := IsSegment.split h
  refine IsSegment.append (q := r) (h1.congr ?_) ?_
  · intro a ha
    rw [getD_set_cell, if_neg]
    rintro ⟨e, _⟩
    exact hb (e ▸ ha)
  · refine ⟨h2.1, { node with next_ := x }, ?_, rfl⟩
    rw [getD_set_cell, if_pos ⟨rfl, getD_lt_length heap b node hn⟩]

theorem Represents.empty_iff {l : SinglyList T} {addrs : List Nat} (h : Represents l addrs) :
    (l.head_ = none ↔ addrs = []) ∧ (l.tail_ = none ↔ addrs = []) ∧
      (l.size_ = 0 ↔ addrs = []) := by
  obtain ⟨hs, hsize, htail⟩ := h
  refine ⟨?_, ?_, ?_⟩
  · rw [hs.head_eq]; cases addrs <;> simp
  · rw [htail]; exact List.getLast?_eq_none_iff
  · rw [hsize]; exact List.length_eq_zero

theorem Represents.init : Represents (SinglyList.init : SinglyList T) [] :=
  ⟨rfl, rfl, rfl⟩

theorem Represents.InsertFront {l : SinglyList T} {addrs : List Nat} (h : Represents l addrs)
    (data : T) :
    ∃ l2, l.InsertFront data = Except.ok l2 ∧ Represents l2 (l.heap.length :: addrs) := by
  obtain ⟨hs, hsize, htail⟩ := h
  unfold SinglyList.InsertFront
  dsimp only [newNode]
  by_cases hh : l.head_ = none
  · rw [if_pos hh]
    have he : addrs = [] := by rw [hh] at hs; exact hs.nil_of_none
    subst he
    refine ⟨_, rfl, ?_, by simp [hsize], rfl⟩
    exact ⟨rfl, SinglyNode.mk data none, by rw [getD_append_new, if_pos rfl], rfl⟩
  · rw [if_neg hh]
    have hlive : (l.heap ++ [some (SinglyNode.mk data none)]).getD l.heap.length none
        = some (SinglyNode.mk data none) := by rw [getD_append_new, if_pos rfl]
    rw [SetNext_of_live _ _ _ _ hlive]
    refine ⟨_, rfl, ?_, by simp [hsize], ?_⟩
    · refine ⟨rfl, SinglyNode.mk data l.head_, ?_, hs.congr ?_⟩
      · rw [getD_set_cell, if_pos ⟨rfl, by simp⟩]
      · intro a ha
        have := hs.lt_length a ha
        rw [getD_set_cell, if_neg (by omega), getD_append_new, if_neg (by omega)]
    · show l.tail_ = (l.heap.length :: addrs).getLast?
      cases addrs with
      | nil => exact absurd hs hh
      | cons b rest => rw [htail]; simp [List.getLast?_cons_cons]

theorem Represents.InsertBack {l : SinglyList T} {addrs : List Nat} (h : Represents l addrs)
    (data : T) :
    ∃ l2, l.InsertBack data = Except.ok l2 ∧ Represents l2 (addrs ++ [l.heap.length]) := by
  have hne := h.empty_iff
  obtain ⟨hs, hsize, htail⟩ := h
  unfold SinglyList.InsertBack
  dsimp only [newNode]
  by_cases ht : l.tail_ = none
  · rw [if_pos ht]
    have he : addrs = [] := hne.2.1.mp ht
    subst he
    refine ⟨_, rfl, ?_, by simp [hsize], rfl⟩
    exact ⟨rfl, SinglyNode.mk data none, by rw [getD_append_new, if_pos rfl], rfl⟩
  · rw [if_neg ht]
    have hne2 : addrs ≠ [] := fun e => ht (hne.2.1.mpr e)
    obtain ⟨pre, b, rfl⟩ : ∃ pre b, addrs = pre ++ [b] :=
      ⟨addrs.dropLast, addrs.getLast hne2, (List.dropLast_append_getLast hne2).symm⟩
    have htb : l.tail_ = some b := by rw [htail]; simp
    obtain ⟨node, hn⟩ := hs.live b (by simp)
    have hblt := getD_lt_length _ _ _ hn
    have hnd := hs.nodup
    have hbpre : b ∉ pre := by
      intro hm
      have := List.nodup_append.mp hnd
      exact this.2.2 hm (by simp)
    have hlive : (l.heap ++ [some (SinglyNode.mk data none)]).getD b none = some node := by
      rw [getD_append_new, if_neg (by omega)]; exact hn
    rw [htb, SetNext_of_live _ _ _ _ hlive]
    refine ⟨_, rfl, ?_, by simp [hsize], by simp⟩
    have hs1 : IsSegment (l.heap ++ [some (SinglyNode.mk data none)]) l.head_
        (pre ++ [b]) none := hs.congr (fun a ha => by
          have := hs.lt_length a ha
          rw [getD_append_new, if_neg (by omega)])
    have hs2 := hs1.set_last hbpre node hlive (some l.heap.length)
    refine IsSegment.append hs2 ⟨rfl, SinglyNode.mk data none, ?_, rfl⟩
    rw [getD_set_cell, if_neg (by omega), getD_append_new, if_pos rfl]

theorem advance_segment {heap : List (Option (SinglyNode T))} {p q : Option Nat}
    {pre : List Nat} {b : Nat} (h : IsSegment heap p (pre ++ [b]) q) (prev : Option Nat) :
    advance heap (pre.length + 1) prev p = Except.ok (some b, q) := by
  induction pre generalizing p prev with
  | nil =>
    obtain ⟨hp, node, hn, hq⟩ := h
    have hq2 : node.next_ = q := hq
    rw [hp]
    simp only [List.length_nil, advance, Next_of_live heap b node hn, hq2]
    rfl
  | cons a pre ih =>
    obtain ⟨hp, node, hn, hrest⟩ := h
    rw [hp]
    simp only [List.length_cons, advance, Next_of_live heap a node hn]
    exact ih hrest (some a)

theorem Represents.PopFront {l : SinglyList T} {a : Nat} {rest : List Nat}
    (h : Represents l (a :: rest)) :
    ∃ l2, l.PopFront = Except.ok l2 ∧ Represents l2 rest := by
  have hnd := h.1.nodup
  obtain ⟨hs, hsize, htail⟩ := h
  obtain ⟨hp, node, hn, hrest⟩ := hs
  have hane : a ∉ rest := (List.nodup_cons.mp hnd).1
  have hne : l.Empty = false := by simp [SinglyList.Empty, hsize]
  unfold SinglyList.PopFront
  rw [hne, if_neg (by simp)]
  by_cases hr : rest = []
  · subst hr
    have hht : l.head_ = l.tail_ := by rw [hp, htail]; rfl
    rw [if_pos hht, hp, deleteNode_of_live l.heap a node hn]
    exact ⟨_, rfl, rfl, by simp [hsize], rfl⟩
  · have htl : l.tail_ = rest.getLast? := by
      rw [htail]
      cases rest with
      | nil => exact absurd rfl hr
      | cons b r => rw [List.getLast?_cons_cons]
    have hht : l.head_ ≠ l.tail_ := by
      rw [hp, htl]
      intro e
      exact hane (List.mem_of_getLast?_eq_some e.symm)
    rw [if_neg hht, hp, Next_of_live l.heap a node hn]
    show ∃ l2, (deleteNode l.heap (some a) >>= fun heap => pure _) = Except.ok l2 ∧ _
    rw [deleteNode_of_live l.heap a node hn]
    refine ⟨_, rfl, hrest.congr ?_, by simp [hsize], htl⟩
    intro x hx
    rw [getD_set_cell, if_neg]
    rintro ⟨e, _⟩
    exact hane (e ▸ hx)

/-- The last three statements of `PopAt` and `PopMiddle` on a node `c` that has a node `b`
before it and a node after it. -/
theorem Represents.unlink {l : SinglyList T} {pre post : List Nat} {b c : Nat}
    (h : Represents l (pre ++ [b] ++ c :: post)) (hpost : post ≠ []) :
    ∃ l2, (do
        let after ← Next l.heap (some c)
        let heap ← SetNext l.heap (some b) after
        let heap ← deleteNode heap (some c)
        pure ({ heap := heap, head_ := l.head_, tail_ := l.tail_, size_ := l.size_ - 1 } :
          SinglyList T)) = Except.ok l2 ∧ Represents l2 (pre ++ [b] ++ post) := by
  have hnd := h.1.nodup
  obtain ⟨hs, hsize, htail⟩ := h
  obtain ⟨q, h1, h2⟩ := IsSegment.split hs
  obtain ⟨hq, nodec, hnc, hpostseg⟩ := h2
  obtain ⟨nodeb, hnb⟩ := h1.live b (by simp)
  have hd1 := List.nodup_append.mp hnd
  have hd2 := List.nodup_append.mp hd1.1
  have hbpre : b ∉ pre := fun hm => hd2.2.2 hm (by simp)
  have hbc : b ≠ c := fun e => hd1.2.2 (show b ∈ pre ++ [b] by simp) (by simp [e])
  have hcpre : c ∉ pre ++ [b] := fun hm => hd1.2.2 hm (by simp)
  have hcpost : c ∉ post := (List.nodup_cons.mp hd1.2.1).1
  have hbpost : b ∉ post := fun hm => hd1.2.2 (show b ∈ pre ++ [b] by simp) (by simp [hm])
  have hblt := getD_lt_length _ _ _ hnb
  have hlive2 : (l.heap.set b (some { nodeb with next_ := nodec.next_ })).getD c none
      = some nodec := by
    rw [getD_set_cell, if_neg (fun hc => hbc hc.1)]; exact hnc
  rw [Next_of_live l.heap c nodec hnc]
  show ∃ l2, (SetNext l.heap (some b) nodec.next_ >>= fun heap =>
    deleteNode heap (some c) >>= fun heap => pure _) = Except.ok l2 ∧ _
  rw [SetNext_of_live l.heap b nodeb _ hnb]
  show ∃ l2, (deleteNode _ (some c) >>= fun heap => pure _) = Except.ok l2 ∧ _
  rw [deleteNode_of_live _ c nodec hlive2]
  refine ⟨_, rfl, ?_, ?_, ?_⟩
  · have hs1 := h1.set_last hbpre nodeb hnb nodec.next_
    refine IsSegment.append (hs1.congr ?_) (hpostseg.congr ?_)
    · intro x hx
      rw [getD_set_cell, if_neg]
      rintro ⟨e, _⟩
      exact hcpre (e ▸ hx)
    · intro x hx
      rw [getD_set_cell, if_neg, getD_set_cell, if_neg]
      · rintro ⟨e, _⟩; exact hbpost (e ▸ hx)
      · rintro ⟨e, _⟩; exact hcpost (e ▸ hx)
  · show l.size_ - 1 = _
    rw [hsize]; simp
  · show l.tail_ = _
    rw [htail, List.getLast?_append_of_ne_nil _ (by simp), List.getLast?_append_of_ne_nil _ hpost]
    cases post with
    | nil => exact absurd rfl hpost
    | cons x r => rw [List.getLast?_cons_cons]

theorem IsSegment.length_le {heap : List (Option (SinglyNode T))} {p : Option Nat}
    {addrs : List Nat} (h : IsSegment heap p addrs none) : addrs.length ≤ heap.length := by
  have hsub : addrs ⊆ List.range heap.length := fun a ha =>
    List.mem_range.mpr (h.lt_length a ha)
  have := (List.subperm_of_subset h.nodup hsub).length_le
  simpa using this

theorem split_around (addrs : List Nat) (k : Nat) (h1 : 0 < k) (h2 : k < addrs.length) :
    ∃ pre b c post, addrs = pre ++ [b] ++ c :: post ∧ pre.length + 1 = k ∧
      post.length + k + 1 = addrs.length := by
  induction k generalizing addrs with
  | zero => omega
  | succ k ih =>
    cases addrs with
    | nil => simp at h2
    | cons x rest =>
      rcases Nat.eq_zero_or_pos k with hk | hk
      · subst hk
        cases rest with
        | nil => simp at h2
        | cons y post => exact ⟨[], x, y, post, rfl, rfl, by simp⟩
      · obtain ⟨pre, b, c, post, he, hl, hp⟩ := ih rest hk (by simpa using h2)
        refine ⟨x :: pre, b, c, post, by rw [he]; rfl, by simp [hl], ?_⟩
        simp only [List.length_cons]
        omega

theorem findNewTail_segment {heap : List (Option (SinglyNode T))} {p : Option Nat}
    {pre : List Nat} {c b : Nat} (h : IsSegment heap p (pre ++ [c]) (some b))
    (hb : b ∉ pre ++ [c]) (fuel : Nat) (hfuel : pre.length < fuel) :
    findNewTail heap (some b) fuel p = Except.ok (some c) := by
  induction pre generalizing p fuel with
  | nil =>
    obtain ⟨hp, node, hn, hq⟩ := h
    have hq2 : node.next_ = some b := hq
    cases fuel with
    | zero => omega
    | succ fuel =>
      rw [hp]
      simp only [findNewTail, Next_of_live heap c node hn, hq2]
      show (if (some b : Option Nat) ≠ some b then findNewTail heap (some b) fuel (some b)
        else pure (some c)) = _
      rw [if_neg (by simp)]
      rfl
  | cons a pre ih =>
    obtain ⟨hp, node, hn, hrest⟩ := h
    cases fuel with
    | zero => omega
    | succ fuel =>
      have hnext : node.next_ ≠ some b := by
        rw [hrest.head_eq_of_ne_nil (by simp)]
        intro e
        have := Option.some.inj e
        apply hb
        rw [← this]
        simp [List.head_append_of_ne_nil, List.mem_cons]
      rw [hp]
      simp only [findNewTail, Next_of_live heap a node hn]
      show (if node.next_ ≠ some b then findNewTail heap (some b) fuel node.next_
        else pure (some a)) = _
      rw [if_pos hnext]
      exact ih hrest (fun hm => hb (List.mem_cons_of_mem a hm)) fuel
        (by simp only [List.length_cons] at hfuel; omega)

theorem Represents.not_empty {l : SinglyList T} {addrs : List Nat} (h : Represents l addrs)
    (hne : addrs ≠ []) : l.Empty = false := by
  have := h.empty_iff.2.2
  simp [SinglyList.Empty, this, hne]

theorem Represents.PopBack {l : SinglyList T} {pre : List Nat} {b : Nat}
    (h : Represents l (pre ++ [b])) :
    ∃ l2, l.PopBack = Except.ok l2 ∧ Represents l2 pre := by
  have hnd := h.1.nodup
  have hne := h.not_empty (by simp)
  have hlen := h.1.length_le
  obtain ⟨hs, hsize, htail⟩ := h
  have htb : l.tail_ = some b := by rw [htail]; simp
  have hb : b ∉ pre := fun hm => (List.nodup_append.mp hnd).2.2 hm (by simp)
  obtain ⟨nodeb, hnb⟩ := hs.live b (by simp)
  unfold SinglyList.PopBack
  rw [hne, if_neg (by simp)]
  by_cases hp : pre = []
  · subst hp
    have hh : l.head_ = some b := hs.1
    rw [if_pos (by rw [hh, htb]), hh, deleteNode_of_live l.heap b nodeb hnb]
    exact ⟨_, rfl, rfl, by simp [hsize], rfl⟩
  · obtain ⟨pre2, c, rfl⟩ : ∃ pre2 c, pre = pre2 ++ [c] :=
      ⟨pre.dropLast, pre.getLast hp, (List.dropLast_append_getLast hp).symm⟩
    obtain ⟨q, h1, h2⟩ := IsSegment.split hs
    have hq : q = some b := h2.1
    rw [hq] at h1
    have hht : l.head_ ≠ l.tail_ := by
      rw [h1.head_eq_of_ne_nil (by simp), htb]
      intro e
      apply hb
      rw [← Option.some.inj e]
      exact List.head_mem _
    obtain ⟨nodec, hnc⟩ := h1.live c (by simp)
    have hcb : c ≠ b := fun e => hb (by simp [e])
    have hcpre : c ∉ pre2 := by
      intro hm
      have := (List.nodup_append.mp hnd).1
      exact (List.nodup_append.mp this).2.2 hm (by simp)
    rw [if_neg hht, htb]
    have hfind := findNewTail_segment h1 hb (l.heap.length + 1) (by
      simp only [List.length_append, List.length_singleton] at hlen
      omega)
    show ∃ l2, (findNewTail l.heap (some b) (l.heap.length + 1) l.head_ >>= fun new_tail =>
      SetNext l.heap new_tail none >>= fun heap =>
      deleteNode heap (some b) >>= fun heap => pure _) = Except.ok l2 ∧ _
    rw [hfind]
    show ∃ l2, (SetNext l.heap (some c) none >>= fun heap =>
      deleteNode heap (some b) >>= fun heap => pure _) = Except.ok l2 ∧ _
    rw [SetNext_of_live l.heap c nodec none hnc]
    have hlive2 : (l.heap.set c (some { nodec with next_ := none })).getD b none
        = some nodeb := by
      rw [getD_set_cell, if_neg (fun hc => hcb hc.1)]; exact hnb
    show ∃ l2, (deleteNode _ (some b) >>= fun heap => pure _) = Except.ok l2 ∧ _
    rw [deleteNode_of_live _ b nodeb hlive2]
    refine ⟨_, rfl, ?_, by simp [hsize], by simp⟩
    refine (h1.set_last hcpre nodec hnc none).congr ?_
    intro x hx
    rw [getD_set_cell, if_neg]
    rintro ⟨e, _⟩
    exact hb (e ▸ hx)

theorem Represents.PopAt {l : SinglyList T} {addrs : List Nat} (h : Represents l addrs)
    (index : Int) :
    (∃ what, l.PopAt index = Except.error (Fault.out_of_range what)) ∨
    ∃ l2 addrs2, l.PopAt index = Except.ok l2 ∧ Represents l2 addrs2 := by
  unfold SinglyList.PopAt
  by_cases hout : l.IsOutOfBounds index = true
  · rw [if_pos hout]; exact Or.inl ⟨_, rfl⟩
  · rw [if_neg hout]
    right
    have hsize := h.2.1
    have hb : 0 ≤ index ∧ index ≤ (addrs.length : Int) - 1 := by
      simp only [SinglyList.IsOutOfBounds, decide_eq_true_eq, not_or, not_lt] at hout
      rw [hsize] at hout
      omega
    by_cases h0 : index = 0
    · rw [if_pos h0]
      cases addrs with
      | nil => simp at hb; omega
      | cons a rest =>
        obtain ⟨l2, hl2, hr⟩ := h.PopFront
        exact ⟨l2, rest, hl2, hr⟩
    · rw [if_neg h0]
      by_cases hlast : index = (l.size_ : Int) - 1
      · rw [if_pos hlast]
        have hne : addrs ≠ [] := by
          intro e; subst e; simp at hb; omega
        obtain ⟨pre, b, rfl⟩ : ∃ pre b, addrs = pre ++ [b] :=
          ⟨addrs.dropLast, addrs.getLast hne, (List.dropLast_append_getLast hne).symm⟩
        obtain ⟨l2, hl2, hr⟩ := h.PopBack
        exact ⟨l2, pre, hl2, hr⟩
      · rw [if_neg hlast]
        rw [hsize] at hlast
        obtain ⟨pre, b, c, post, rfl, hk, hp⟩ := split_around addrs index.toNat
          (by omega) (by omega)
        have hpost : post ≠ [] := by
          intro e
          subst e
          simp only [List.length_nil, List.length_append, List.length_cons,
            List.length_singleton] at hp hlast hb
          omega
        obtain ⟨q, h1, h2⟩ := IsSegment.split h.1
        have hq : q = some c := h2.1
        rw [hq] at h1
        rw [← hk, advance_segment h1 none]
        obtain ⟨l2, hl2, hr⟩ := h.unlink hpost
        exact ⟨l2, _, hl2, hr⟩

theorem Represents.InsertAt {l : SinglyList T} {addrs : List Nat} (h : Represents l addrs)
    (index : Int) (data : T) :
    (∃ what, l.InsertAt index data = Except.error (Fault.out_of_range what)) ∨
    ∃ l2 addrs2, l.InsertAt index data = Except.ok l2 ∧ Represents l2 addrs2 := by
  unfold SinglyList.InsertAt
  by_cases hout : index < 0 ∨ index > (l.size_ : Int)
  · rw [if_pos hout]; exact Or.inl ⟨_, rfl⟩
  · rw [if_neg hout]
    right
    have hsize := h.2.1
    by_cases h0 : index = 0
    · rw [if_pos h0]
      obtain ⟨l2, hl2, hr⟩ := h.InsertFront data
      exact ⟨l2, _, hl2, hr⟩
    · rw [if_neg h0]
      by_cases hlast : index = (l.size_ : Int)
      · rw [if_pos hlast]
        obtain ⟨l2, hl2, hr⟩ := h.InsertBack data
        exact ⟨l2, _, hl2, hr⟩
      · rw [if_neg hlast]
        rw [hsize] at hlast hout
        obtain ⟨pre, b, c, post, rfl, hk, hp⟩ := split_around addrs index.toNat
          (by omega) (by omega)
        have hnd := h.1.nodup
        have hlt := h.1.lt_length
        obtain ⟨hs, _, htail⟩ := h
        obtain ⟨q, h1, h2⟩ := IsSegment.split hs
        have hq : q = some c := h2.1
        rw [hq] at h1
        obtain ⟨nodeb, hnb⟩ := h1.live b (by simp)
        have hd1 := List.nodup_append.mp hnd
        have hbpre : b ∉ pre := fun hm => (List.nodup_append.mp hd1.1).2.2 hm (by simp)
        have hblt : b < l.heap.length := hlt b (by simp)
        rw [← hk, advance_segment h1 none]
        dsimp only [newNode]
        have hlive : (l.heap ++ [some (SinglyNode.mk data none)]).getD l.heap.length none
            = some (SinglyNode.mk data none) := by rw [getD_append_new, if_pos rfl]
        show ∃ l2 addrs2, (SetNext (l.heap ++ [some (SinglyNode.mk data none)])
            (some l.heap.length) (some c) >>= fun heap =>
          SetNext heap (some b) (some l.heap.length) >>= fun heap => pure _)
            = Except.ok l2 ∧ _
        rw [SetNext_of_live _ _ _ _ hlive]
        have hlive2 : ((l.heap ++ [some (SinglyNode.mk data none)]).set l.heap.length
            (some (SinglyNode.mk data (some c)))).getD b none = some nodeb := by
          rw [getD_set_cell, if_neg (by omega), getD_append_new, if_neg (by omega)]
          exact hnb
        show ∃ l2 addrs2, (SetNext _ (some b) (some l.heap.length) >>= fun heap => pure _)
            = Except.ok l2 ∧ _
        rw [SetNext_of_live _ _ _ _ hlive2]
        refine ⟨_, pre ++ [b] ++ l.heap.length :: c :: post, rfl, ?_, ?_, ?_⟩
        · have hsame : ∀ x ∈ pre ++ [b] ++ c :: post,
              ((l.heap ++ [some (SinglyNode.mk data none)]).set l.heap.length
                (some (SinglyNode.mk data (some c)))).getD x none = l.heap.getD x none := by
            intro x hx
            have := hlt x hx
            rw [getD_set_cell, if_neg (by omega), getD_append_new, if_neg (by omega)]
          have h1b := h1.congr (fun x hx => hsame x (by simp at hx ⊢; tauto))
          have h2b := h2.congr (fun x hx => hsame x (by simp at hx ⊢; tauto))
          have h1c := h1b.set_last hbpre nodeb hlive2 (some l.heap.length)
          refine IsSegment.append h1c ⟨rfl, SinglyNode.mk data (some c), ?_, ?_⟩
          · rw [getD_set_cell, if_neg (by omega), getD_set_cell, if_pos ⟨rfl, by simp⟩]
          · rw [hq] at h2b
            refine h2b.congr ?_
            intro x hx
            rw [getD_set_cell, if_neg]
            rintro ⟨e, _⟩
            exact hd1.2.2 (show b ∈ pre ++ [b] by simp) (e ▸ hx)
        · show l.size_ + 1 = _
          rw [hsize]; simp; omega
        · show l.tail_ = _
          rw [htail, List.getLast?_append_of_ne_nil _ (by simp),
            List.getLast?_append_of_ne_nil _ (by simp), List.getLast?_cons_cons]

theorem middleLoop_segment {heap : List (Option (SinglyNode T))} (fuel : Nat) :
    ∀ (fs ss : List Nat) (fast slow prev : Option Nat),
      IsSegment heap fast fs none → IsSegment heap slow ss none →
      fs.length ≤ ss.length → fs.length ≤ 2 * fuel →
      middleLoop heap fuel fast slow prev
        = Except.ok (if fs.length / 2 = 0 then prev else ss[fs.length / 2 - 1]?,
            ss[fs.length / 2]?) := by
  induction fuel with
  | zero =>
    intro fs ss fast slow prev hf hs _ hfuel
    have he : fs = [] := List.length_eq_zero.mp (by omega)
    subst he
    have hfast : fast = none := hf
    rw [hfast, hs.head_eq, List.head?_eq_getElem?]
    simp [middleLoop]
  | succ fuel ih =>
    intro fs ss fast slow prev hf hs hlen hfuel
    cases fs with
    | nil =>
      have hfast : fast = none := hf
      rw [hfast, hs.head_eq, List.head?_eq_getElem?]
      simp [middleLoop]
    | cons x fs1 =>
      obtain ⟨hfx, nodex, hnx, hf1⟩ := hf
      cases fs1 with
      | nil =>
        have hnone : nodex.next_ = none := hf1
        rw [hfx, hs.head_eq, List.head?_eq_getElem?]
        simp only [middleLoop, Next_of_live heap x nodex hnx, hnone]
        have e : [x].length / 2 = 0 := by simp
        rw [e, if_pos rfl]
        rfl
      | cons y fs2 =>
        obtain ⟨hfy, nodey, hny, hf2⟩ := hf1
        cases ss with
        | nil => simp at hlen
        | cons s0 ss1 =>
          obtain ⟨hs0, nodes, hns, hs1⟩ := hs
          have hrec := ih fs2 ss1 nodey.next_ nodes.next_ (some s0) hf2 hs1
            (by simp only [List.length_cons] at hlen; omega)
            (by simp only [List.length_cons] at hfuel; omega)
          rw [hfx, hs0]
          simp only [middleLoop, Next_of_live heap x nodex hnx, hfy]
          show (if (some y : Option Nat) = none then pure (prev, some s0) else
            Next heap (some y) >>= fun fast => Next heap (some s0) >>= fun slow_next =>
              middleLoop heap fuel fast slow_next (some s0)) = _
          rw [if_neg (by simp), Next_of_live heap y nodey hny, Next_of_live heap s0 nodes hns]
          show middleLoop heap fuel nodey.next_ nodes.next_ (some s0) = _
          rw [hrec]
          have e : (x :: y :: fs2).length / 2 = fs2.length / 2 + 1 := by
            simp only [List.length_cons]; omega
          rw [e]
          simp only [Nat.add_one_ne_zero, if_false, Nat.add_sub_cancel, List.getElem?_cons_succ]
          congr 1
          cases h : fs2.length / 2 with
          | zero => simp
          | succ k => simp

theorem Represents.PopMiddle {l : SinglyList T} {addrs : List Nat} (h : Represents l addrs)
    (hnot2 : addrs.length ≠ 2) :
    (∃ what, l.PopMiddle = Except.error (Fault.out_of_range what)) ∨
    ∃ l2 addrs2, l.PopMiddle = Except.ok l2 ∧ Represents l2 addrs2 := by
  have hsize := h.2.1
  unfold SinglyList.PopMiddle
  by_cases hem : l.Empty = true
  · rw [if_pos hem]; exact Or.inl ⟨_, rfl⟩
  · rw [if_neg hem]
    right
    have hpos : addrs.length ≠ 0 := by
      simp only [SinglyList.Empty, decide_eq_true_eq] at hem
      omega
    by_cases h1 : l.size_ = 1
    · rw [if_pos h1]
      cases addrs with
      | nil => simp at hpos
      | cons a rest =>
        obtain ⟨l2, hl2, hr⟩ := h.PopFront
        exact ⟨l2, rest, hl2, hr⟩
    · rw [if_neg h1]
      have hlen := h.1.length_le
      have hloop := @middleLoop_segment T l.heap (l.heap.length + 1) addrs addrs
        l.head_ l.head_ none h.1 h.1 le_rfl (by omega)
      obtain ⟨pre, b, c, post, rfl, hk, hp⟩ := split_around addrs (addrs.length / 2)
        (by omega) (by omega)
      have hpost : post ≠ [] := by
        intro e
        subst e
        simp only [List.length_nil, List.length_append, List.length_cons,
          List.length_singleton] at hp hk hnot2 h1 hsize
        omega
      have ht : (pre ++ [b] ++ c :: post).length / 2 ≠ 0 := by omega
      have e1 : (pre ++ [b] ++ c :: post)[(pre ++ [b] ++ c :: post).length / 2 - 1]?
          = some b := by
        rw [← hk, Nat.add_sub_cancel, List.append_assoc,
          List.getElem?_append_right (le_refl _)]
        simp
      have e2 : (pre ++ [b] ++ c :: post)[(pre ++ [b] ++ c :: post).length / 2]?
          = some c := by
        rw [← hk, List.getElem?_append_right (by simp)]
        simp
      rw [if_neg ht, e1, e2] at hloop
      rw [hloop]
      obtain ⟨l2, hl2, hr⟩ := h.unlink hpost
      exact ⟨l2, _, hl2, hr⟩

theorem invertLoop_segment :
    ∀ (rest done : List Nat) (heap : List (Option (SinglyNode T))) (prev curr : Option Nat)
      (fuel : Nat),
      IsSegment heap curr rest none → IsSegment heap prev done none →
      (∀ a ∈ rest, a ∉ done) → rest.length ≤ fuel →
      ∃ heap2 prev2, invertLoop fuel heap prev curr = Except.ok (heap2, prev2) ∧
        IsSegment heap2 prev2 (rest.reverse ++ done) none := by
  intro rest
  induction rest with
  | nil =>
    intro done heap prev curr fuel hc hp _ _
    have : curr = none := hc
    rw [this]
    refine ⟨heap, prev, ?_, by simpa using hp⟩
    cases fuel <;> rfl
  | cons a rest ih =>
    intro done heap prev curr fuel hc hp hdisj hfuel
    have hnd := hc.nodup
    obtain ⟨hca, node, hn, hrest⟩ := hc
    have harest : a ∉ rest := (List.nodup_cons.mp hnd).1
    cases fuel with
    | zero => simp at hfuel
    | succ fuel =>
      have hsame : ∀ x, x ≠ a →
          (heap.set a (some { node with next_ := prev })).getD x none = heap.getD x none := by
        intro x hx
        rw [getD_set_cell, if_neg (fun hc => hx hc.1.symm)]
      obtain ⟨heap2, prev2, hrun, hseg⟩ := ih (a :: done)
        (heap.set a (some { node with next_ := prev })) (some a) node.next_ fuel
        (hrest.congr (fun x hx => hsame x (fun e => harest (e ▸ hx))))
        ⟨rfl, { node with next_ := prev },
          by rw [getD_set_cell, if_pos ⟨rfl, getD_lt_length heap a node hn⟩],
          hp.congr (fun x hx => hsame x (fun e =>
            hdisj a (List.mem_cons_self a rest) (e ▸ hx)))⟩
        (by
          intro x hx hmem
          rcases List.mem_cons.mp hmem with e | hm
          · exact harest (e ▸ hx)
          · exact hdisj x (List.mem_cons_of_mem a hx) hm)
        (by simp only [List.length_cons] at hfuel; omega)
      refine ⟨heap2, prev2, ?_, by simpa using hseg⟩
      rw [hca]
      simp only [invertLoop, Next_of_live heap a node hn]
      show (SetNext heap (some a) prev >>= fun heap =>
        invertLoop fuel heap (some a) node.next_) = _
      rw [SetNext_of_live heap a node prev hn]
      exact hrun

theorem Represents.Invert {l : SinglyList T} {addrs : List Nat} (h : Represents l addrs) :
    ∃ l2, l.Invert = Except.ok l2 ∧ Represents l2 addrs.reverse := by
  have hnd := h.1.nodup
  have hlen := h.1.length_le
  have hemp := h.empty_iff
  obtain ⟨hs, hsize, htail⟩ := h
  unfold SinglyList.Invert
  by_cases hsmall : l.Empty = true ∨ l.head_ = l.tail_
  · rw [if_pos hsmall]
    refine ⟨l, rfl, ?_⟩
    have hrev : addrs.reverse = addrs := by
      cases addrs with
      | nil => rfl
      | cons a rest =>
        cases rest with
        | nil => rfl
        | cons b rest2 =>
          exfalso
          rcases hsmall with he | he
          · simp [SinglyList.Empty, hsize] at he
          · rw [hs.1, htail] at he
            have hmem : a ∈ b :: rest2 := by
              rw [List.getLast?_cons_cons] at he
              exact List.mem_of_getLast?_eq_some he.symm
            exact (List.nodup_cons.mp hnd).1 hmem
    rw [hrev]
    exact ⟨hs, hsize, htail⟩
  · rw [if_neg hsmall]
    obtain ⟨heap2, prev2, hrun, hseg⟩ := invertLoop_segment addrs [] l.heap none l.head_
      (l.heap.length + 1) hs rfl (fun _ _ hm => by cases hm) (by omega)
    show ∃ l2, (invertLoop (l.heap.length + 1) l.heap none l.head_ >>= fun r => pure _)
      = Except.ok l2 ∧ _
    rw [hrun]
    refine ⟨_, rfl, by simpa using hseg, by simp [hsize], ?_⟩
    show l.head_ = addrs.reverse.getLast?
    rw [List.getLast?_reverse]
    exact hs.head_eq

theorem clearLoop_segment :
    ∀ (rest : List Nat) (heap : List (Option (SinglyNode T))) (temp : Option Nat)
      (fuel : Nat), IsSegment heap temp rest none → rest.length ≤ fuel →
      ∃ heap2, clearLoop fuel heap temp = Except.ok heap2 := by
  intro rest
  induction rest with
  | nil =>
    intro heap temp fuel h _
    have : temp = none := h
    rw [this]
    exact ⟨heap, by cases fuel <;> rfl⟩
  | cons a rest ih =>
    intro heap temp fuel h hfuel
    have hnd := h.nodup
    obtain ⟨ht, node, hn, hrest⟩ := h
    have harest : a ∉ rest := (List.nodup_cons.mp hnd).1
    cases fuel with
    | zero => simp at hfuel
    | succ fuel =>
      obtain ⟨heap2, hrun⟩ := ih (heap.set a none) node.next_ fuel
        (hrest.congr (fun x hx => by
          rw [getD_set_cell, if_neg]
          rintro ⟨e, _⟩
          exact harest (e ▸ hx)))
        (by simp only [List.length_cons] at hfuel; omega)
      refine ⟨heap2, ?_⟩
      rw [ht]
      simp only [clearLoop, Next_of_live heap a node hn]
      show (deleteNode heap (some a) >>= fun heap => clearLoop fuel heap node.next_) = _
      rw [deleteNode_of_live heap a node hn]
      exact hrun

theorem Represents.Clear {l : SinglyList T} {addrs : List Nat} (h : Represents l addrs) :
    ∃ l2, l.Clear = Except.ok l2 ∧ Represents l2 [] := by
  obtain ⟨heap2, hrun⟩ := clearLoop_segment addrs l.heap l.head_ (l.heap.length + 1) h.1
    (by have := h.1.length_le; omega)
  unfold SinglyList.Clear
  rw [hrun]
  exact ⟨_, rfl, rfl, rfl, rfl⟩

end ListCalls

/-! ## The linked list: the invariant along a sequence of calls -/

section ListSteps

variable {T : Type}

theorem after_of_ok {l l2 : SinglyList T} {op : ListOp T} (h : l.call op = Except.ok l2) :
    l.after op = some l2 := by
  unfold SinglyList.after
  rw [h]

theorem after_of_out_of_range {l : SinglyList T} {op : ListOp T} {what : String}
    (h : l.call op = Except.error (Fault.out_of_range what)) : l.after op = some l := by
  unfold SinglyList.after
  rw [h]

theorem ListInvariant.init_holds : ListInvariant (SinglyList.init : SinglyList T) :=
  ⟨[], Represents.init⟩

theorem Represents.pop_empty {l : SinglyList T} (h : Represents l []) :
    l.PopFront = Except.error (Fault.out_of_range "Cannot remove element from empty list") ∧
    l.PopBack = Except.error (Fault.out_of_range "Cannot remove element from empty list") := by
  have hz : l.Empty = true := by
    simp only [SinglyList.Empty, decide_eq_true_eq]
    exact h.2.1
  unfold SinglyList.PopFront SinglyList.PopBack
  rw [if_pos hz, if_pos hz]
  exact ⟨rfl, rfl⟩

/-- Every call on a list that is a chain, other than `PopMiddle()` on a list of two nodes,
returns or throws `out_of_range`, and the list after it is a chain again. -/
theorem ListInvariant.after {l : SinglyList T} (h : ListInvariant l) (op : ListOp T)
    (hop : op = ListOp.PopMiddle → l.size_ ≠ 2) :
    ∃ l2, l.after op = some l2 ∧ ListInvariant l2 := by
  obtain ⟨addrs, hr⟩ := h
  have orCase : ∀ {r : Except Fault (SinglyList T)}, l.call op = r →
      ((∃ what, r = Except.error (Fault.out_of_range what)) ∨
        ∃ l2 addrs2, r = Except.ok l2 ∧ Represents l2 addrs2) →
      ∃ l2, l.after op = some l2 ∧ ListInvariant l2 := by
    intro r hcall hcases
    rcases hcases with ⟨what, hw⟩ | ⟨l2, addrs2, hok, hr2⟩
    · exact ⟨l, after_of_out_of_range (hcall.trans hw), addrs, hr⟩
    · exact ⟨l2, after_of_ok (hcall.trans hok), addrs2, hr2⟩
  cases op with
  | InsertFront data =>
    obtain ⟨l2, hok, hr2⟩ := hr.InsertFront data
    exact orCase rfl (Or.inr ⟨l2, _, hok, hr2⟩)
  | InsertBack data =>
    obtain ⟨l2, hok, hr2⟩ := hr.InsertBack data
    exact orCase rfl (Or.inr ⟨l2, _, hok, hr2⟩)
  | InsertAt index data => exact orCase rfl (hr.InsertAt index data)
  | PopFront =>
    cases addrs with
    | nil => exact orCase rfl (Or.inl ⟨_, hr.pop_empty.1⟩)
    | cons a rest =>
      obtain ⟨l2, hok, hr2⟩ := hr.PopFront
      exact orCase rfl (Or.inr ⟨l2, _, hok, hr2⟩)
  | PopBack =>
    rcases List.eq_nil_or_concat addrs with e | ⟨pre, b, e⟩
    · subst e
      exact orCase rfl (Or.inl ⟨_, hr.pop_empty.2⟩)
    · rw [List.concat_eq_append] at e
      subst e
      obtain ⟨l2, hok, hr2⟩ := hr.PopBack
      exact orCase rfl (Or.inr ⟨l2, _, hok, hr2⟩)
  | PopAt index => exact orCase rfl (hr.PopAt index)
  | PopMiddle =>
    have h2 := hop rfl
    rw [hr.2.1] at h2
    exact orCase rfl (hr.PopMiddle h2)
  | Invert =>
    obtain ⟨l2, hok, hr2⟩ := hr.Invert
    exact orCase rfl (Or.inr ⟨l2, _, hok, hr2⟩)
  | Clear =>
    obtain ⟨l2, hok, hr2⟩ := hr.Clear
    exact orCase rfl (Or.inr ⟨l2, _, hok, hr2⟩)

/-- Calls other than `PopMiddle()` never fault, and every list they make from a chain is a
chain. -/
theorem ListInvariant.afterAll (ops : List (ListOp T)) :
    ∀ l : SinglyList T, ListInvariant l → (∀ op ∈ ops, op ≠ ListOp.PopMiddle) →
      ∃ l2, l.afterAll ops = some l2 ∧ ListInvariant l2 := by
  induction ops with
  | nil => exact fun l h _ => ⟨l, rfl, h⟩
  | cons op ops ih =>
    intro l h hops
    obtain ⟨l1, h1, hinv1⟩ := h.after op
      (fun e => absurd e (hops op (List.mem_cons_self op ops)))
    obtain ⟨l2, h2, hinv2⟩ := ih l1 hinv1
      (fun x hx => hops x (List.mem_cons_of_mem op hx))
    refine ⟨l2, ?_, hinv2⟩
    show (l.after op).bind (fun l2 => l2.afterAll ops) = some l2
    rw [h1]
    exact h2

/-- On a chain that is not empty `tail_->Data()` in `Tail()` evaluates to the element
`At(Size() - 1)` returns, the data of the last node; `Tail()` hands it out as a reference
to the temporary that held it. -/
theorem Represents.Tail_eq_At {l : SinglyList T} {pre : List Nat} {b : Nat}
    (h : Represents l (pre ++ [b])) :
    ∃ node, l.heap.getD b none = some node ∧
      l.Tail = Except.ok (Reference.temporary node.data_) ∧
      l.At ((l.Size : Int) - 1) = Except.ok node.data_ := by
  have hne := h.not_empty (by simp)
  obtain ⟨hs, hsize, htail⟩ := h
  have hsz : l.size_ = pre.length + 1 := by simpa using hsize
  have htl : l.tail_ = some b := by simpa using htail
  obtain ⟨mid, hpre, hlast⟩ := hs.split
  obtain ⟨hmid, node, hn, _⟩ := hlast
  refine ⟨node, hn, ?_, ?_⟩
  · unfold SinglyList.Tail
    rw [hne, htl]
    simp only [Bool.false_eq_true, if_false]
    rw [Data_of_live l.heap b node hn]
    rfl
  · unfold SinglyList.At
    have hb : l.IsOutOfBounds ((l.Size : Int) - 1) = false := by
      simp only [SinglyList.IsOutOfBounds, SinglyList.Size, decide_eq_false_iff_not]
      omega
    rw [hb]
    simp only [Bool.false_eq_true, if_false]
    have hidx : (((l.Size : Int) - 1).toNat) = pre.length := by
      simp only [SinglyList.Size]
      omega
    rw [hidx]
    rcases List.eq_nil_or_concat pre with e | ⟨pre2, c, e⟩
    · subst e
      have hhead : l.head_ = some b := by
        have := hs.head_eq
        simpa using this
      rw [hhead]
      show (Except.ok (none, some b) >>= fun r => Data l.heap r.2) = _
      exact Data_of_live l.heap b node hn
    · rw [List.concat_eq_append] at e
      subst e
      rw [hmid] at hpre
      rw [List.length_append, List.length_singleton, advance_segment hpre none]
      exact Data_of_live l.heap b node hn

/-- Reading through the reference `Head()` or `Tail()` returns is undefined on every
list: the calls throw on the empty list, fault on a null or deleted node, and otherwise
return a reference to a temporary. -/
theorem read_Head_Tail (l : SinglyList T) (v : T) :
    (l.Head >>= Reference.read) ≠ Except.ok v ∧ (l.Tail >>= Reference.read) ≠ Except.ok v := by
  constructor
  · cases h : l.Head with
    | error e => exact fun hc => by cases hc
    | ok r => cases r; exact fun hc => by cases hc
  · cases h : l.Tail with
    | error e => exact fun hc => by cases hc
    | ok r => cases r; exact fun hc => by cases hc

end ListSteps

section ListClaim

/-- C21 (defect): `InsertBack(1); InsertBack(2); PopMiddle()` on the empty list returns
without throwing and leaves a list that breaks the representation invariant. The only node
reached from `head_` is node 0, `size_` is 1, and `tail_` is node 1, the node `PopMiddle`
deleted; so `Tail()` reads a deleted node while `At(Size() - 1)` returns 1, and a
following `InsertBack(3)` writes through the deleted node. -/
theorem C21_pop_middle_leaves_tail_dangling :
    (SinglyList.init : SinglyList Nat).afterAll
        [ListOp.InsertBack 1, ListOp.InsertBack 2, ListOp.PopMiddle] = some danglingTail ∧
      ListReachable danglingTail ∧
      ¬ ListInvariant danglingTail ∧
      IsSegment danglingTail.heap danglingTail.head_ [0] none ∧
      danglingTail.tail_ = some 1 ∧ danglingTail.heap.getD 1 none = none ∧
      danglingTail.Tail = Except.error Fault.undefined ∧
      danglingTail.At ((danglingTail.Size : Int) - 1) = Except.ok 1 ∧
      danglingTail.call (ListOp.InsertBack 3) = Except.error Fault.undefined := by
  refine ⟨rfl, ⟨[ListOp.InsertBack 1, ListOp.InsertBack 2, ListOp.PopMiddle], rfl⟩, ?_, ⟨rfl, _, rfl, rfl⟩, rfl, rfl, rfl, rfl, rfl⟩
  rintro ⟨addrs, hseg, hsize, htail⟩
  cases addrs with
  | nil => cases hsize
  | cons a rest =>
    cases rest with
    | nil =>
      have ha : some 0 = some a := hseg.1
      have hb : some 1 = some a := htail
      rw [← ha] at hb
      cases hb
    | cons b rest2 => cases hsize

end ListClaim

end structura
